import Mathlib

/-!
# Time-travelling file management system: embedding and verification

Shallow embedding of `DataStructures.hpp`, `DataStructures.cpp` and `main.cpp`.

Conventions of the embedding

* A `TreeNode*` is an index into the list `File.nodes`, which holds every node
  allocated by `new TreeNode` in allocation order; `nullptr` is `none`.
* `time(nullptr)` is an input: every operation takes the clock readings it
  consumes as arguments of type `Int` (a `time_t`).
* `int` values are `Int`; the conversion to `unsigned int` in
  `VersionMap::hashFunction` is the explicit `% 2^32`.
* A loop that may fail to exit is a function with fuel returning `Option`;
  `none` means that the call does not return.
* A `std::string` holds the UTF-8 encoding of its text, one `char` per byte,
  and `char` is signed (the x86-64 ABI): a byte from 128 on is a negative
  `char`. Only the result of `FileMap::hashFunction` depends on that sign.
* A method of `FileMap` that indexes `entries` with a negative hash reads
  outside the vector: its behaviour is undefined and its model returns `none`.
* What a method prints is abstracted to a list of `Report` values (console
  formatting is not modelled, the kind of line and its data are).
-/

set_option autoImplicit false

namespace TTFS

/-! ## Console reports -/

/-- One line printed by a method, without its formatting. -/
inductive Report where
  | errNoActiveRead
  | errNoActiveModify
  | errNoActiveSnapshot
  | contentOf (id : Int) (text : String)
  | alreadySnapshot (id : Int)
  | snapshotCreated (id : Int)
  | rolledBack (id : Int)
  | errVersionNotFound (id : Int)
  | rolledBackToParent (id : Int)
  | errNoParent
  | historyHeader
  | historyLine (id : Int) (time : Int) (message : String)
  | heapEmptyDefault
  | fileCreated (name : String)
  | errFileExists (name : String)
  | errFileNotFound (name : String)
  | errInvalidVersion
  | errUnknownCommand
  | errNegativeCount
  | recentHeader
  | recentLine (name : String)
  | biggestHeader
  | biggestLine (name : String) (versions : Int)
  deriving DecidableEq, Repr

/-- The reports written to `cerr`. -/
def Report.isError : Report → Bool
  | .errNoActiveRead => true
  | .errNoActiveModify => true
  | .errNoActiveSnapshot => true
  | .errVersionNotFound _ => true
  | .errNoParent => true
  | .errFileExists _ => true
  | .errFileNotFound _ => true
  | .errInvalidVersion => true
  | .errUnknownCommand => true
  | .errNegativeCount => true
  | _ => false

/-! ## TreeNode -/

/-- A node of the version tree (`class TreeNode`). -/
structure TreeNode where
  version_id : Int
  content : String
  message : String
  created_timestamp : Int
  snapshot_timestamp : Int
  parent : Option Nat
  children : List Nat
  deriving DecidableEq, Repr

instance : Inhabited TreeNode := ⟨⟨0, "", "", 0, 0, none, []⟩⟩

/-- The constructor `TreeNode(int id, const string& msg)`; `t1` and `t2` are the
two readings of the clock. -/
def TreeNode.ofMessage (id : Int) (msg : String) (t1 t2 : Int) : TreeNode :=
  { version_id := id, content := "", message := msg, created_timestamp := t1,
    snapshot_timestamp := t2, parent := none, children := [] }

/-- The constructor `TreeNode(int id, TreeNode* p)`; `t` is the reading of the
clock. The content is the default-constructed (empty) string. -/
def TreeNode.ofParent (id : Int) (p : Option Nat) (t : Int) : TreeNode :=
  { version_id := id, content := "", message := "", created_timestamp := t,
    snapshot_timestamp := 0, parent := p, children := [] }

/-- The method `TreeNode::isSnapshot`. -/
def TreeNode.isSnapshot (n : TreeNode) : Bool :=
  n.snapshot_timestamp != 0

/-! ## VersionMap -/

/-- A slot of the version table (`VersionMap::Entry`). -/
structure VersionMap.Entry where
  key : Int
  value : Option Nat
  is_empty : Bool
  is_deleted : Bool
  deriving DecidableEq, Repr

instance : Inhabited VersionMap.Entry := ⟨⟨0, none, true, false⟩⟩

/-- The open-addressed table from version ids to nodes (`class VersionMap`). -/
structure VersionMap where
  entries : List VersionMap.Entry
  capacity : Nat
  deriving DecidableEq, Repr

/-- The constructor `VersionMap(unsigned int capacity)`. -/
def VersionMap.init (capacity : Nat) : VersionMap :=
  { entries := List.replicate capacity ⟨0, none, true, false⟩, capacity := capacity }

/-- The method `VersionMap::hashFunction`: `key` is converted to `unsigned int`
before the remainder is taken. -/
def VersionMap.hashFunction (m : VersionMap) (key : Int) : Nat :=
  (key % 2 ^ 32).toNat % m.capacity

/-- The `while` loop of `VersionMap::insert`: the index at which it exits, or
`none` when it has not exited after `fuel` iterations. -/
def VersionMap.insertProbe (m : VersionMap) (key : Int) : Nat → Nat → Option Nat
  | 0, _ => none
  | fuel + 1, index =>
    let e := m.entries.getD index default
    if !e.is_empty && e.key != key then
      m.insertProbe key fuel ((index + 1) % m.capacity)
    else some index

/-- The method `VersionMap::insert`. The loop leaves the table untouched and
its index has period `capacity`, so `capacity` iterations without an exit
mean that it never exits (see `VersionMap.insertProbe_none_of_capacity`). -/
def VersionMap.insert (m : VersionMap) (key : Int) (val : Option Nat) : Option VersionMap :=
  match m.insertProbe key m.capacity (m.hashFunction key) with
  | none => none
  | some index => some { m with entries := m.entries.set index ⟨key, val, false, false⟩ }

/-- The loop of `VersionMap::get`, from `index`, with `start` the first index
probed: `some r` when the method returns `r`, `none` when the loop has not
ended after `fuel` iterations. -/
def VersionMap.getProbe (m : VersionMap) (key : Int) (start : Nat) :
    Nat → Nat → Option (Option Nat)
  | 0, _ => none
  | fuel + 1, index =>
    let e := m.entries.getD index default
    if !e.is_empty then
      if e.key == key then some e.value
      else
        let index' := (index + 1) % m.capacity
        if index' == start then some none else m.getProbe key start fuel index'
    else some none

/-- The method `VersionMap::get`. `capacity` iterations are enough: the index
is back at `start_index` by then (`VersionMap.getProbe_isSome`). -/
def VersionMap.get (m : VersionMap) (key : Int) : Option Nat :=
  ((m.getProbe key (m.hashFunction key) m.capacity (m.hashFunction key)).getD none)

/-! ## File -/

/-- The class `File`, with the nodes it has allocated. -/
structure File where
  nodes : List TreeNode
  root : Nat
  active_version : Option Nat
  version_map : VersionMap
  total_versions : Int
  deriving DecidableEq, Repr

/-- Dereference of a node pointer. -/
def File.node (f : File) (p : Nat) : TreeNode :=
  f.nodes.getD p default

/-- An assignment through the pointer `p`. -/
def File.modifyNode (f : File) (p : Nat) (g : TreeNode → TreeNode) : File :=
  { f with nodes := f.nodes.set p (g (f.node p)) }

/-- The constructor `File(string initial_message)`; `t1`, `t2` are the clock
readings taken by the root's constructor. -/
def File.create (initial_message : String) (t1 t2 : Int) : Option File :=
  match (VersionMap.init 101).insert 0 (some 0) with
  | none => none
  | some vm =>
    some { nodes := [TreeNode.ofMessage 0 initial_message t1 t2], root := 0,
           active_version := some 0, version_map := vm, total_versions := 1 }

/-- The file the constructor builds from the message `msg` and the clock
readings `t1`, `t2`. -/
def File.created (msg : String) (t1 t2 : Int) : File :=
  { nodes := [TreeNode.ofMessage 0 msg t1 t2], root := 0, active_version := some 0,
    version_map :=
      { entries := (List.replicate 101 (⟨0, none, true, false⟩ : VersionMap.Entry)).set 0
          ⟨0, some 0, false, false⟩,
        capacity := 101 },
    total_versions := 1 }

/-- The file the constructor builds for the message of `handleCreate` when
both clock readings are 1. -/
def File.fresh : File :=
  File.created "File created." 1 1

/-- The method `File::createNewVersion`, called with a non-null active
version; `t` is the clock reading of the node constructor. -/
def File.createNewVersion (f : File) (t : Int) : Option File :=
  match f.active_version with
  | none => none
  | some a =>
    let new_node := f.nodes.length
    let f1 : File := { f with nodes := f.nodes ++ [TreeNode.ofParent f.total_versions (some a) t] }
    let f2 := f1.modifyNode a (fun n => { n with children := n.children ++ [new_node] })
    let f3 : File := { f2 with active_version := some new_node }
    match f3.version_map.insert (f3.node new_node).version_id (some new_node) with
    | none => none
    | some vm => some { f3 with version_map := vm, total_versions := f3.total_versions + 1 }

/-- The method `File::updateTime`. -/
def File.updateTime (f : File) (t : Int) : File :=
  match f.active_version with
  | none => f
  | some a => f.modifyNode a (fun n => { n with created_timestamp := t })

/-- The method `File::read`. -/
def File.read (f : File) : List Report :=
  match f.active_version with
  | some a => [.contentOf (f.node a).version_id (f.node a).content]
  | none => [.errNoActiveRead]

/-- The method `File::insert`; `tNew` is the clock reading of a node created by
branching, `tUpd` the one of `updateTime`. -/
def File.insert (f : File) (content : String) (tNew tUpd : Int) : Option (File × List Report) :=
  match f.active_version with
  | none => some (f, [.errNoActiveModify])
  | some a =>
    match (if (f.node a).isSnapshot then f.createNewVersion tNew else some f) with
    | none => none
    | some f1 =>
      match f1.active_version with
      | none => none
      | some a1 =>
        some ((f1.modifyNode a1 (fun n => { n with content := n.content ++ content })).updateTime tUpd, [])

/-- The method `File::update`. -/
def File.update (f : File) (content : String) (tNew tUpd : Int) : Option (File × List Report) :=
  match f.active_version with
  | none => some (f, [.errNoActiveModify])
  | some a =>
    match (if (f.node a).isSnapshot then f.createNewVersion tNew else some f) with
    | none => none
    | some f1 =>
      match f1.active_version with
      | none => none
      | some a1 =>
        some ((f1.modifyNode a1 (fun n => { n with content := content })).updateTime tUpd, [])

/-- The method `File::snapshot`; `tSnap` is the clock reading stored as the
snapshot time, `tUpd` the one of `updateTime`. -/
def File.snapshot (f : File) (msg : String) (tSnap tUpd : Int) : File × List Report :=
  match f.active_version with
  | none => (f, [.errNoActiveSnapshot])
  | some a =>
    if (f.node a).isSnapshot then
      (f.updateTime tUpd, [.alreadySnapshot (f.node a).version_id])
    else
      ((f.modifyNode a (fun n => { n with snapshot_timestamp := tSnap, message := msg })).updateTime tUpd,
        [.snapshotCreated (f.node a).version_id])

/-- The method `File::rollback`. -/
def File.rollback (f : File) (version_id : Int) : File × List Report :=
  match f.version_map.get version_id with
  | some target => ({ f with active_version := some target }, [.rolledBack version_id])
  | none => (f, [.errVersionNotFound version_id])

/-- The method `File::rollbackToParent`. -/
def File.rollbackToParent (f : File) : File × List Report :=
  match f.active_version with
  | none => (f, [.errNoParent])
  | some a =>
    match (f.node a).parent with
    | some p => ({ f with active_version := some p }, [.rolledBackToParent (f.node p).version_id])
    | none => (f, [.errNoParent])

/-- The `while(current)` loop of `File::history`: the vector `snapshots` it
builds (active node first), or `none` when the walk has not reached a null
parent after `fuel` steps. -/
def File.historyWalk (f : File) : Nat → Option Nat → Option (List Nat)
  | _, none => some []
  | 0, some _ => none
  | fuel + 1, some c =>
    match f.historyWalk fuel (f.node c).parent with
    | none => none
    | some rest => some (if (f.node c).isSnapshot then c :: rest else rest)

/-- The nodes `File::history` prints, in the order it prints them (the second
loop runs over `snapshots` backwards). The walk is given one step per
allocated node. -/
def File.historyNodes (f : File) : Option (List Nat) :=
  (f.historyWalk f.nodes.length f.active_version).map List.reverse

/-- The method `File::history`. -/
def File.history (f : File) : Option (List Report) :=
  f.historyNodes.map (fun ps =>
    .historyHeader :: ps.map (fun p =>
      .historyLine (f.node p).version_id (f.node p).snapshot_timestamp (f.node p).message))

/-- One call of a mutating method of `File`, with the clock readings it takes. -/
inductive Op where
  | insert (content : String) (tNew tUpd : Int)
  | update (content : String) (tNew tUpd : Int)
  | snapshot (msg : String) (tSnap tUpd : Int)
  | rollback (version_id : Int)
  | rollbackToParent
  deriving DecidableEq, Repr

/-- The file after one call, when the call returns. -/
def File.step (f : File) : Op → Option File
  | .insert c tNew tUpd => (f.insert c tNew tUpd).map Prod.fst
  | .update c tNew tUpd => (f.update c tNew tUpd).map Prod.fst
  | .snapshot msg tSnap tUpd => some (f.snapshot msg tSnap tUpd).1
  | .rollback id => some (f.rollback id).1
  | .rollbackToParent => some f.rollbackToParent.1

/-- The file after a sequence of calls, when all of them return. -/
def File.run (f : File) : List Op → Option File
  | [] => some f
  | op :: ops => (f.step op).bind (fun g => g.run ops)

/-- The file states reached from the constructor by calls that return. -/
inductive File.Reachable : File → Prop where
  | create (msg : String) (t1 t2 : Int) (f : File) :
      File.create msg t1 t2 = some f → File.Reachable f
  | step (f g : File) (op : Op) : File.Reachable f → f.step op = some g → File.Reachable g

/-! ## FileMap -/

/-- A slot of the file table (`FileMap::Entry`). -/
structure FileMap.Entry where
  key : String
  value : Option Nat
  is_empty : Bool
  is_deleted : Bool
  deriving DecidableEq, Repr

instance : Inhabited FileMap.Entry := ⟨⟨"", none, true, false⟩⟩

/-- The open-addressed table from file names to files (`class FileMap`); a
`File*` is an index into the list of allocated files, `nullptr` is `none`. -/
structure FileMap where
  entries : List FileMap.Entry
  capacity : Nat
  deriving DecidableEq, Repr

/-- The constructor `FileMap(unsigned int capacity)`; `capacity` is the value
the `int` field receives. The program builds the table with the default
argument 101 only. -/
def FileMap.init (capacity : Nat) : FileMap :=
  { entries := List.replicate capacity ⟨"", none, true, false⟩, capacity := capacity }

/-- The value of an `int` expression whose mathematical value is `x`, with
overflow wrapping around in 32 bits (two's complement). -/
def wrapInt (x : Int) : Int :=
  (x + 2 ^ 31) % 2 ^ 32 - 2 ^ 31

/-- The bytes of the UTF-8 encoding of a character. -/
def charBytes (c : Char) : List Nat :=
  if c.toNat < 128 then [c.toNat]
  else if c.toNat < 2048 then [192 + c.toNat / 64, 128 + c.toNat % 64]
  else if c.toNat < 65536 then
    [224 + c.toNat / 4096, 128 + c.toNat / 64 % 64, 128 + c.toNat % 64]
  else
    [240 + c.toNat / 262144, 128 + c.toNat / 4096 % 64, 128 + c.toNat / 64 % 64,
      128 + c.toNat % 64]

/-- The bytes of a `std::string`, in order. -/
def stringBytes (s : String) : List Nat :=
  s.data.flatMap charBytes

/-- The value of a `char` that holds the byte `b`: `char` is signed, so the
bytes from 128 on are the values -128 .. -1. -/
def charValue (b : Nat) : Int :=
  if b < 128 then (b : Int) else (b : Int) - 256

/-- The method `FileMap::hashFunction`: `hash` and `capacity` are `int`, the
summand `key[i]` is a signed `char`, and `%` truncates towards zero, so the
result is negative when `hash*31 + key[i]` is. -/
def FileMap.hashFunction (m : FileMap) (key : String) : Int :=
  (stringBytes key).foldl
    (fun hash b => Int.tmod (wrapInt (hash * 31 + charValue b)) (m.capacity : Int)) 0

/-- The hash of the key is negative: `entries[hashFunction(key)]` is an access
outside the vector. -/
def FileMap.outside (m : FileMap) (key : String) : Bool :=
  decide (m.hashFunction key < 0)

/-- The slot index `hashFunction(key)` of a key whose hash is not negative. -/
def FileMap.index (m : FileMap) (key : String) : Nat :=
  (m.hashFunction key).toNat

/-- The slot `entries[i]`. -/
def FileMap.slot (m : FileMap) (i : Nat) : FileMap.Entry :=
  m.entries.getD i default

/-- The assignment `entries[i] = e`. -/
def FileMap.write (m : FileMap) (i : Nat) (e : FileMap.Entry) : FileMap :=
  { m with entries := m.entries.set i e }

/-- A slot the probing loops walk past: `!is_empty || is_deleted`. -/
def FileMap.Entry.occupied (e : FileMap.Entry) : Bool :=
  !e.is_empty || e.is_deleted

/-- A slot holding a live entry for `key`. -/
def FileMap.Entry.holds (e : FileMap.Entry) (key : String) : Bool :=
  !e.is_empty && !e.is_deleted && e.key == key

/-- How the loop of `FileMap::insert` ends: at a live entry of the key, whose
value is overwritten, or with the final `index` and `first_deleted`. -/
inductive FileMap.InsertExit where
  | overwrite (index : Nat)
  | place (index : Nat) (first_deleted : Option Nat)
  deriving DecidableEq, Repr

/-- The loop of `FileMap::insert`; `first_deleted = -1` is `none`. -/
def FileMap.insertProbe (m : FileMap) (key : String) (start : Nat) :
    Nat → Nat → Option Nat → Option FileMap.InsertExit
  | 0, _, _ => none
  | fuel + 1, index, first_deleted =>
    let e := m.slot index
    if e.occupied then
      if e.key == key && !e.is_empty && !e.is_deleted then some (.overwrite index)
      else
        let fd := if e.is_deleted && first_deleted == none then some index else first_deleted
        let index' := (index + 1) % m.capacity
        if index' == start then some (.place index' fd)
        else m.insertProbe key start fuel index' fd
    else some (.place index first_deleted)

/-- The method `FileMap::insert` with the probe starting at the slot
`index key`: this is the method for every key whose hash is not negative.
`capacity` iterations are enough for the loop (`FileMap.insertProbe_start`). -/
def FileMap.insertIn (m : FileMap) (key : String) (value : Option Nat) : FileMap :=
  if key.isEmpty || value == none then m
  else
    match m.insertProbe key (m.index key) m.capacity (m.index key) none with
    | none => m
    | some (.overwrite index) => m.write index { m.slot index with value := value }
    | some (.place _ (some first_deleted)) => m.write first_deleted ⟨key, value, false, false⟩
    | some (.place index none) => m.write index ⟨key, value, false, false⟩

/-- The method `FileMap::insert`: the table after the call, or `none` when the
call indexes `entries` with a negative hash. An empty key and a null value
return before the hash is taken. -/
def FileMap.insert (m : FileMap) (key : String) (value : Option Nat) : Option FileMap :=
  if key.isEmpty || value == none then some m
  else if m.outside key then none
  else some (m.insertIn key value)

/-- The loop shared by `FileMap::get` and `FileMap::erase`: `some (some i)`
when it ends at the live entry `i` of the key, `some none` when it ends
without one, `none` when it has not ended after `fuel` iterations. -/
def FileMap.findProbe (m : FileMap) (key : String) (start : Nat) :
    Nat → Nat → Option (Option Nat)
  | 0, _ => none
  | fuel + 1, index =>
    let e := m.slot index
    if e.occupied then
      if !e.is_empty && !e.is_deleted && e.key == key then some (some index)
      else
        let index' := (index + 1) % m.capacity
        if index' == start then some none else m.findProbe key start fuel index'
    else some none

/-- The slot at which the loop of `get` and `erase` finds the key, with the
probe starting at the slot `index key`. `capacity` iterations are enough
(`FileMap.findProbe_isSome`). -/
def FileMap.find (m : FileMap) (key : String) : Option Nat :=
  (m.findProbe key (m.index key) m.capacity (m.index key)).getD none

/-- The method `FileMap::get` with the probe starting at the slot `index key`:
this is the method for every key whose hash is not negative. -/
def FileMap.getIn (m : FileMap) (key : String) : Option Nat :=
  if key.isEmpty then none
  else
    match m.find key with
    | some index => (m.slot index).value
    | none => none

/-- The method `FileMap::get`: `some r` when it returns the pointer `r`, or
`none` when the call indexes `entries` with a negative hash. An empty key
returns before the hash is taken. -/
def FileMap.get (m : FileMap) (key : String) : Option (Option Nat) :=
  if key.isEmpty then some none
  else if m.outside key then none
  else some (m.getIn key)

/-- The test `get(key) != nullptr` on a key whose hash is not negative. -/
def FileMap.containsIn (m : FileMap) (key : String) : Bool :=
  m.getIn key != none

/-- The method `FileMap::contains`: `get(key) != nullptr`. -/
def FileMap.contains (m : FileMap) (key : String) : Option Bool :=
  (m.get key).map (fun r => r != none)

/-- The method `FileMap::erase` with the probe starting at the slot
`index key`: this is the method for every key whose hash is not negative. -/
def FileMap.eraseIn (m : FileMap) (key : String) : FileMap :=
  if key.isEmpty then m
  else
    match m.find key with
    | some index => m.write index ⟨"", none, false, true⟩
    | none => m

/-- The method `FileMap::erase`: the table after the call, or `none` when the
call indexes `entries` with a negative hash. An empty key returns before the
hash is taken. -/
def FileMap.erase (m : FileMap) (key : String) : Option FileMap :=
  if key.isEmpty then some m
  else if m.outside key then none
  else some (m.eraseIn key)

/-- The method `FileMap::keys`. -/
def FileMap.keys (m : FileMap) : List String :=
  (m.entries.filter (fun e => !e.is_empty && !e.is_deleted)).map (fun e => e.key)

/-- One call of a mutating method of `FileMap`. -/
inductive FileMap.Op where
  | insert (key : String) (value : Option Nat)
  | erase (key : String)
  deriving DecidableEq, Repr

/-- The table after one call, when the call has a defined result. -/
def FileMap.step (m : FileMap) : FileMap.Op → Option FileMap
  | .insert k v => m.insert k v
  | .erase k => m.erase k

/-- The tables reached from the empty table the program builds (capacity 101)
by inserts and erases with a defined result. -/
inductive FileMap.Reachable : FileMap → Prop where
  | init : FileMap.Reachable (FileMap.init 101)
  | step (m g : FileMap) (op : FileMap.Op) :
      FileMap.Reachable m → m.step op = some g → FileMap.Reachable g

/-! ## FileHeap -/

/-- The record ranked by the heap (`struct Fileppt`). -/
structure Fileppt where
  filename : String
  last_modified : Int
  total_versions : Int
  deriving DecidableEq, Repr

/-- The value-initialised record `Fileppt{}`. -/
instance : Inhabited Fileppt := ⟨⟨"", 0, 0⟩⟩

/-- The class `FileHeap`. -/
structure FileHeap where
  heap : List Fileppt
  sort_by_recent : Bool
  deriving DecidableEq, Repr

/-- The constructor `FileHeap(bool sort_by_recent)`. -/
def FileHeap.init (sort_by_recent : Bool) : FileHeap :=
  { heap := [], sort_by_recent := sort_by_recent }

/-- The method `FileHeap::compare`. -/
def FileHeap.compare (h : FileHeap) (a b : Fileppt) : Bool :=
  if h.sort_by_recent then decide (a.last_modified > b.last_modified)
  else decide (a.total_versions > b.total_versions)

/-- The method `FileHeap::empty`. -/
def FileHeap.empty (h : FileHeap) : Bool :=
  h.heap.isEmpty

/-- The call `swap(v[i], v[j])` on a vector. -/
def FileHeap.swapList (l : List Fileppt) (i j : Nat) : List Fileppt :=
  (l.set i (l.getD j default)).set j (l.getD i default)

/-- The call `swap(heap[i], heap[j])`. -/
def FileHeap.swap (h : FileHeap) (i j : Nat) : FileHeap :=
  { h with heap := FileHeap.swapList h.heap i j }

/-- The loop of `FileHeap::heapifyUp`. Every iteration that goes on makes
`idx` smaller, so with `idx ≤ fuel` the fuel ends only when `idx = 0`, where
the loop ends too. -/
def FileHeap.heapifyUpLoop : Nat → FileHeap → Nat → FileHeap
  | 0, h, _ => h
  | fuel + 1, h, idx =>
    if idx > 0 then
      let parent_index := (idx - 1) / 2
      if h.compare (h.heap.getD idx default) (h.heap.getD parent_index default) then
        FileHeap.heapifyUpLoop fuel (h.swap idx parent_index) parent_index
      else h
    else h

/-- The method `FileHeap::heapifyUp`. -/
def FileHeap.heapifyUp (h : FileHeap) (idx : Nat) : FileHeap :=
  FileHeap.heapifyUpLoop idx h idx

/-- The method `FileHeap::push`. -/
def FileHeap.push (h : FileHeap) (value : Fileppt) : FileHeap :=
  let h1 : FileHeap := { h with heap := h.heap ++ [value] }
  h1.heapifyUp (h1.heap.length - 1)

/-- The recursion of `FileHeap::heapifyDown`. Every recursive call is on a
larger index, so with `heap.size() ≤ index + fuel` the fuel ends only when
`index` has no child, where the recursion ends too. -/
def FileHeap.heapifyDownRec : Nat → FileHeap → Nat → FileHeap
  | 0, h, _ => h
  | fuel + 1, h, index =>
    let l_child := 2 * index + 1
    let r_child := 2 * index + 2
    let best1 :=
      if l_child < h.heap.length ∧ h.compare (h.heap.getD l_child default) (h.heap.getD index default)
      then l_child else index
    let best_index :=
      if r_child < h.heap.length ∧ h.compare (h.heap.getD r_child default) (h.heap.getD best1 default)
      then r_child else best1
    if best_index ≠ index then
      FileHeap.heapifyDownRec fuel (h.swap index best_index) best_index
    else h

/-- The method `FileHeap::heapifyDown`. -/
def FileHeap.heapifyDown (h : FileHeap) (index : Nat) : FileHeap :=
  FileHeap.heapifyDownRec h.heap.length h index

/-- The method `FileHeap::pop`: the record returned, the heap afterwards and
what is printed. -/
def FileHeap.pop (h : FileHeap) : Fileppt × FileHeap × List Report :=
  if h.empty then
    (⟨"", 0, 0⟩, h, [.heapEmptyDefault])
  else
    let root := h.heap.headD default
    let h1 : FileHeap := { h with heap := h.heap.set 0 (h.heap.getLastD default) }
    let h2 : FileHeap := { h1 with heap := h1.heap.dropLast }
    (root, h2.heapifyDown 0, [])

/-- Pushing records one after the other onto an empty heap. -/
def FileHeap.pushAll (sort_by_recent : Bool) (values : List Fileppt) : FileHeap :=
  values.foldl FileHeap.push (FileHeap.init sort_by_recent)

/-- The loop `for (i = 0; i < num && !heap.empty(); i++) pop()` of the ranking
commands: the records popped, in order, and the heap left. -/
def FileHeap.popWhile : Nat → FileHeap → List Fileppt × FileHeap
  | 0, h => ([], h)
  | num + 1, h =>
    if h.empty then ([], h)
    else ((h.pop.1 :: (FileHeap.popWhile num h.pop.2.1).1), (FileHeap.popWhile num h.pop.2.1).2)

/-- Popping until `empty()` holds. Every pop of a non-empty heap removes one
record, so one iteration per record is enough. -/
def FileHeap.drain (h : FileHeap) : List Fileppt × FileHeap :=
  FileHeap.popWhile h.heap.length h

/-- The ranking key `compare` looks at. -/
def FileHeap.rankKey (sort_by_recent : Bool) (a : Fileppt) : Int :=
  if sort_by_recent then a.last_modified else a.total_versions

/-! ## FileSystem -/

/-- The class `FileSystem`, with the files it has allocated by `new File`. -/
structure FileSystem where
  files : List File
  file_map : FileMap
  file_order : List String
  deriving DecidableEq, Repr

/-- The constructor `FileSystem()`: the table has the default capacity. -/
def FileSystem.init : FileSystem :=
  { files := [], file_map := FileMap.init 101, file_order := [] }

/-- Dereference of a file pointer. -/
def FileSystem.file (s : FileSystem) (p : Nat) : Option File :=
  s.files.get? p

/-- The method `FileSystem::handleCreate`; `t1`, `t2` are the clock readings
of the root node's constructor. -/
def FileSystem.handleCreate (s : FileSystem) (filename : String) (t1 t2 : Int) :
    Option (FileSystem × List Report) :=
  match s.file_map.contains filename with
  | none => none
  | some true => some (s, [.errFileExists filename])
  | some false =>
    match File.create "File created." t1 t2 with
    | none => none
    | some f =>
      match s.file_map.insert filename (some s.files.length) with
      | none => none
      | some file_map =>
        some ({ files := s.files ++ [f], file_map := file_map,
                file_order := s.file_order ++ [filename] },
              [.fileCreated filename])

/-- The method `FileSystem::handleRead`. -/
def FileSystem.handleRead (s : FileSystem) (filename : String) : Option (List Report) :=
  match s.file_map.get filename with
  | none => none
  | some (some p) => (s.file p).map File.read
  | some none => some [.errFileNotFound filename]

/-- The method `FileSystem::handleInsert`. -/
def FileSystem.handleInsert (s : FileSystem) (filename content : String) (tNew tUpd : Int) :
    Option (FileSystem × List Report) :=
  match s.file_map.get filename with
  | none => none
  | some (some p) =>
    match s.file p with
    | none => none
    | some f =>
      match f.insert content tNew tUpd with
      | none => none
      | some (g, out) => some ({ s with files := s.files.set p g }, out)
  | some none => some (s, [.errFileNotFound filename])

/-- The method `FileSystem::handleUpdate`. -/
def FileSystem.handleUpdate (s : FileSystem) (filename content : String) (tNew tUpd : Int) :
    Option (FileSystem × List Report) :=
  match s.file_map.get filename with
  | none => none
  | some (some p) =>
    match s.file p with
    | none => none
    | some f =>
      match f.update content tNew tUpd with
      | none => none
      | some (g, out) => some ({ s with files := s.files.set p g }, out)
  | some none => some (s, [.errFileNotFound filename])

/-- The method `FileSystem::handleSnapshot`. -/
def FileSystem.handleSnapshot (s : FileSystem) (filename message : String) (tSnap tUpd : Int) :
    Option (FileSystem × List Report) :=
  match s.file_map.get filename with
  | none => none
  | some (some p) =>
    match s.file p with
    | none => none
    | some f =>
      some ({ s with files := s.files.set p (f.snapshot message tSnap tUpd).1 },
            (f.snapshot message tSnap tUpd).2)
  | some none => some (s, [.errFileNotFound filename])

/-- The method `FileSystem::handleHistory`. -/
def FileSystem.handleHistory (s : FileSystem) (filename : String) : Option (List Report) :=
  match s.file_map.get filename with
  | none => none
  | some (some p) => (s.file p).bind File.history
  | some none => some [.errFileNotFound filename]

/-! ## FileSystem: the remaining handlers and the dispatcher -/

/-- The digit loop of `FileSystem::handleRollback`: `none` when `valid` ends
up false, the value of `version_id` otherwise. -/
def FileSystem.parseVersion : List Char → Int → Option Int
  | [], version_id => some version_id
  | c :: cs, version_id =>
    if c.toNat < 48 ∨ c.toNat > 57 then none
    else FileSystem.parseVersion cs (wrapInt (version_id * 10 + ((c.toNat : Int) - 48)))

/-- The method `FileSystem::handleRollback`. -/
def FileSystem.handleRollback (s : FileSystem) (filename version_str : String) :
    Option (FileSystem × List Report) :=
  match s.file_map.get filename with
  | none => none
  | some (some p) =>
    match s.file p with
    | none => none
    | some f =>
      if version_str.isEmpty then
        some ({ s with files := s.files.set p f.rollbackToParent.1 }, f.rollbackToParent.2)
      else
        match FileSystem.parseVersion version_str.data 0 with
        | some version_id =>
          some ({ s with files := s.files.set p (f.rollback version_id).1 },
                (f.rollback version_id).2)
        | none => some (s, [.errInvalidVersion])
  | some none => some (s, [.errFileNotFound filename])

/-- The first loop of `FileSystem::handleRecentFiles`, over the names still to
visit: the heap after the pushes. -/
def FileSystem.collectRecent (s : FileSystem) : List String → FileHeap → Option FileHeap
  | [], h => some h
  | name :: rest, h =>
    match s.file_map.get name with
    | none => none
    | some none => s.collectRecent rest h
    | some (some p) =>
      match s.file p with
      | none => none
      | some f =>
        match f.active_version with
        | some a => s.collectRecent rest (h.push ⟨name, (f.node a).created_timestamp, 0⟩)
        | none => s.collectRecent rest h

/-- The method `FileSystem::handleRecentFiles`. -/
def FileSystem.handleRecentFiles (s : FileSystem) (num : Int) : Option (List Report) :=
  if num < 0 then some [.errNegativeCount]
  else
    (s.collectRecent s.file_order (FileHeap.init true)).map (fun h =>
      .recentHeader :: (h.popWhile num.toNat).1.map (fun r => .recentLine r.filename))

/-- The first loop of `FileSystem::handleBiggestTrees`, over the names still
to visit: the heap after the pushes. -/
def FileSystem.collectBiggest (s : FileSystem) : List String → FileHeap → Option FileHeap
  | [], h => some h
  | name :: rest, h =>
    match s.file_map.get name with
    | none => none
    | some none => s.collectBiggest rest h
    | some (some p) =>
      match s.file p with
      | none => none
      | some f => s.collectBiggest rest (h.push ⟨name, 0, f.total_versions⟩)

/-- The method `FileSystem::handleBiggestTrees`. -/
def FileSystem.handleBiggestTrees (s : FileSystem) (num : Int) : Option (List Report) :=
  if num < 0 then some [.errNegativeCount]
  else
    (s.collectBiggest s.file_order (FileHeap.init false)).map (fun h =>
      .biggestHeader ::
        (h.popWhile num.toNat).1.map (fun r => .biggestLine r.filename r.total_versions))

/-- The exceptions `std::stoi` throws. -/
inductive StoiError where
  | invalid_argument
  | out_of_range
  deriving DecidableEq, Repr

/-- The characters `isspace` accepts in the C locale. -/
def isSpaceChar (c : Char) : Bool :=
  c.toNat == 32 || (9 ≤ c.toNat && c.toNat ≤ 13)

/-- The value of a sequence of decimal digits. -/
def digitsValue (cs : List Char) : Nat :=
  cs.foldl (fun acc c => acc * 10 + (c.toNat - 48)) 0

/-- The library function `std::stoi(str)` (base 10), after the C++ standard:
leading white space is skipped, an optional sign and the longest run of
digits are read, what follows is ignored; `invalid_argument` is thrown when
there is no digit, `out_of_range` when the value is not an `int`. -/
def stoi (str : String) : Except StoiError Int :=
  let body := str.data.dropWhile isSpaceChar
  let negative := body.head? == some '-'
  let unsigned := if body.head? == some '-' ∨ body.head? == some '+' then body.tail else body
  let digits := unsigned.takeWhile (fun c => 48 ≤ c.toNat && c.toNat ≤ 57)
  if digits.isEmpty then .error .invalid_argument
  else
    let value : Int := if negative then -(digitsValue digits : Int) else (digitsValue digits : Int)
    if value < -(2 ^ 31) ∨ value > 2 ^ 31 - 1 then .error .out_of_range
    else .ok value

/-- The fields `cmd`, `filename`, `rest` that `processCommand` cuts out of the
line at the first two spaces. -/
def FileSystem.splitCommand (command : String) : String × String × String :=
  match command.data.span (fun c => c != ' ') with
  | (cmd, []) => (String.mk cmd, "", "")
  | (cmd, _ :: afterFirst) =>
    match afterFirst.span (fun c => c != ' ') with
    | (filename, []) => (String.mk cmd, String.mk filename, "")
    | (filename, _ :: rest) => (String.mk cmd, String.mk filename, String.mk rest)

/-- How a call of `processCommand` ends: it returns, with the new state and
what was printed; or an exception leaves it, which nothing catches; or it
does not return: a loop does not exit, or the behaviour is undefined. -/
inductive CommandResult where
  | returned (s : FileSystem) (out : List Report)
  | uncaught (e : StoiError)
  | noReturn
  deriving DecidableEq, Repr

/-- A handler's outcome as the outcome of the command. -/
def CommandResult.ofHandler : Option (FileSystem × List Report) → CommandResult
  | some (s, out) => .returned s out
  | none => .noReturn

/-- The outcome of a handler that prints only. -/
def CommandResult.ofPrinter (s : FileSystem) : Option (List Report) → CommandResult
  | some out => .returned s out
  | none => .noReturn

/-- The method `FileSystem::processCommand`; `t1`, `t2` are the clock readings
the command takes, in order. -/
def FileSystem.processCommand (s : FileSystem) (command : String) (t1 t2 : Int) : CommandResult :=
  match FileSystem.splitCommand command with
  | (cmd, filename, rest) =>
    if cmd.isEmpty then .returned s []
    else if cmd = "CREATE" ∧ !filename.isEmpty then
      .ofHandler (s.handleCreate filename t1 t2)
    else if cmd = "READ" ∧ !filename.isEmpty then
      .ofPrinter s (s.handleRead filename)
    else if cmd = "INSERT" ∧ !filename.isEmpty then
      .ofHandler (s.handleInsert filename rest t1 t2)
    else if cmd = "UPDATE" ∧ !filename.isEmpty then
      .ofHandler (s.handleUpdate filename rest t1 t2)
    else if cmd = "SNAPSHOT" ∧ !filename.isEmpty then
      .ofHandler (s.handleSnapshot filename rest t1 t2)
    else if cmd = "ROLLBACK" ∧ !filename.isEmpty then
      .ofHandler (s.handleRollback filename rest)
    else if cmd = "HISTORY" ∧ !filename.isEmpty then
      .ofPrinter s (s.handleHistory filename)
    else if cmd = "RECENT_FILES" then
      match (if !filename.isEmpty then stoi filename else .ok 5) with
      | .error e => .uncaught e
      | .ok num => .ofPrinter s (s.handleRecentFiles num)
    else if cmd = "BIGGEST_TREES" then
      match (if !filename.isEmpty then stoi filename else .ok 5) with
      | .error e => .uncaught e
      | .ok num => .ofPrinter s (s.handleBiggestTrees num)
    else .returned s [.errUnknownCommand]

/-- The name made of `n` and the three decimal digits of `i`. -/
def FileSystem.exampleName (i : Nat) : String :=
  String.mk ['n', Char.ofNat (48 + i / 100 % 10), Char.ofNat (48 + i / 10 % 10),
    Char.ofNat (48 + i % 10)]

/-- The state after `CREATE` of each of the names, in order, the clock
reading 1 every time. -/
def FileSystem.createAll : List String → FileSystem → Option FileSystem
  | [], s => some s
  | name :: rest, s =>
    match s.handleCreate name 1 1 with
    | none => none
    | some (s1, _) => FileSystem.createAll rest s1

/-- The first `n` example names. -/
def FileSystem.exampleNames (n : Nat) : List String :=
  (List.range n).map FileSystem.exampleName

/-- The table after `insert` of each of the names, in order, the values being
`i`, `i + 1`, and so on. -/
def FileMap.insertAll : List String → Nat → FileMap → Option FileMap
  | [], _, m => some m
  | name :: rest, i, m => (m.insert name (some i)).bind (FileMap.insertAll rest (i + 1))

/-- The table of capacity 101 holding the 101 names `n000`, ..., `n100`:
every slot holds a live entry. -/
def FileMap.fullExample : Option FileMap :=
  FileMap.insertAll (FileSystem.exampleNames 101) 0 (FileMap.init 101)

/-- The state after `CREATE` of the 102 distinct names `n000`, ..., `n101` on
the empty file system. -/
def FileSystem.overfullExample : Option FileSystem :=
  FileSystem.createAll (FileSystem.exampleNames 102) FileSystem.init

/-- The state after a further `CREATE n087`, at clock reading 2. -/
def FileSystem.recreatedExample : Option FileSystem :=
  FileSystem.overfullExample.bind (fun s => (s.handleCreate "n087" 2 2).map Prod.fst)

/-- The state after `CREATE a.txt` on the empty file system, at clock
reading 1. -/
def FileSystem.oneFileExample : FileSystem :=
  { files := [File.created "File created." 1 1],
    file_map := (FileMap.init 101).insertIn "a.txt" (some 0),
    file_order := ["a.txt"] }

/-- The shape of every file built by the constructor and the methods: node
`p` has id `p`, parents come before their children in allocation order, and
slot `i` of the version table holds node `i`. -/
structure File.Inv (f : File) : Prop where
  root_eq : f.root = 0
  total : f.total_versions = (f.nodes.length : Int)
  pos : 0 < f.nodes.length
  le_cap : f.nodes.length ≤ 101
  active : ∃ a, f.active_version = some a ∧ a < f.nodes.length
  ids : ∀ p, p < f.nodes.length → (f.node p).version_id = (p : Int)
  parent_root : (f.node 0).parent = none
  parent_lt : ∀ p, 0 < p → p < f.nodes.length → ∃ q, (f.node p).parent = some q ∧ q < p
  cap : f.version_map.capacity = 101
  len : f.version_map.entries.length = 101
  slots : ∀ i, f.version_map.entries.getD i default =
      if i < f.nodes.length then ⟨(i : Int), some i, false, false⟩ else default

/-- The calls that edit the content: `insert` and `update`. -/
def Op.isEdit : Op → Bool
  | .insert _ _ _ => true
  | .update _ _ _ => true
  | _ => false

/-- The content an edit asks for: the old content followed by the text for
`insert`, the text alone for `update`. -/
def Op.editContent (old : String) : Op → String
  | .insert c _ _ => old ++ c
  | .update c _ _ => c
  | _ => old

/-- The file `g` differs from `f` at most in the content and the
last-modified time of the node `a`: no node is created, and the active
version, the counter, the version table and every other node are the same. -/
def File.SameExceptContent (f g : File) (a : Nat) : Prop :=
  g.nodes.length = f.nodes.length ∧ g.root = f.root ∧ g.active_version = f.active_version ∧
  g.total_versions = f.total_versions ∧ g.version_map = f.version_map ∧
  (∀ q, q ≠ a → g.node q = f.node q) ∧
  (g.node a).version_id = (f.node a).version_id ∧ (g.node a).message = (f.node a).message ∧
  (g.node a).snapshot_timestamp = (f.node a).snapshot_timestamp ∧
  (g.node a).parent = (f.node a).parent ∧ (g.node a).children = (f.node a).children

/-- The file `g` is `f` after a branch at the active node `a` whose new node
received the content `t`: one node more, the last child of `a`, carrying the
old counter as its id and active; every older node is as before, up to the
child list of `a`. -/
def File.BranchedWith (f g : File) (a : Nat) (t : String) : Prop :=
  g.nodes.length = f.nodes.length + 1 ∧
  g.active_version = some f.nodes.length ∧
  (g.node f.nodes.length).parent = some a ∧
  (g.node a).children = (f.node a).children ++ [f.nodes.length] ∧
  (g.node f.nodes.length).version_id = f.total_versions ∧
  (∀ q, q < f.nodes.length → (f.node q).version_id < f.total_versions) ∧
  (g.node f.nodes.length).content = t ∧
  (g.node f.nodes.length).children = [] ∧
  (g.node a).content = (f.node a).content ∧ (g.node a).message = (f.node a).message ∧
  (g.node a).version_id = (f.node a).version_id ∧
  (g.node a).snapshot_timestamp = (f.node a).snapshot_timestamp ∧
  (g.node a).parent = (f.node a).parent ∧
  (∀ q, q ≠ a → q < f.nodes.length → g.node q = f.node q) ∧
  g.total_versions = f.total_versions + 1 ∧ g.root = f.root

/-- The list `path` runs along parent links from the root to the active
version: it starts at the root, which has no parent, every later node has the
node before it as parent, and it ends at the active version. -/
def File.IsActivePath (f : File) (path : List Nat) : Prop :=
  path.head? = some f.root ∧ (f.node f.root).parent = none ∧
  path.Chain' (fun p c => (f.node c).parent = some p) ∧
  path.getLast? = f.active_version

/-- A file with a snapshot root and one draft child, which is the active
version (the state after the constructor and one `insert`). -/
def File.exampleDraft : File :=
  { nodes := [{ TreeNode.ofMessage 0 "File created." 1 1 with children := [1] },
              { TreeNode.ofParent 1 (some 0) 2 with content := "hello", created_timestamp := 3 }],
    root := 0, active_version := some 1,
    version_map :=
      { entries := ((List.replicate 101 (⟨0, none, true, false⟩ : VersionMap.Entry)).set 0
          ⟨0, some 0, false, false⟩).set 1 ⟨1, some 1, false, false⟩,
        capacity := 101 },
    total_versions := 2 }

/-- One hundred rounds of `insert` then `snapshot`: each `insert` meets a
snapshot and branches. -/
def Op.fillOps : List Op :=
  (List.replicate 100 [Op.insert "x" 2 3, Op.snapshot "v" 4 5]).flatten

/-- The file after the constructor and `Op.fillOps`: 101 versions, the last
one a snapshot and active. -/
def File.fullExample : Option File :=
  (File.create "File created." 1 1).bind (fun f => f.run Op.fillOps)

/-- The commands create `f`, insert `f` `x`, snapshot `f` `m`, insert `f` `y`
on the empty file system, followed by read `f` and history `f`: what the read
and the history print. `t1`, ..., `t8` are the clock readings, in order. -/
def FileSystem.scenario (f x m y : String) (t1 t2 t3 t4 t5 t6 t7 t8 : Int) :
    Option (List Report × List Report) :=
  (FileSystem.init.handleCreate f t1 t2).bind fun r1 =>
  (r1.1.handleInsert f x t3 t4).bind fun r2 =>
  (r2.1.handleSnapshot f m t5 t6).bind fun r3 =>
  (r3.1.handleInsert f y t7 t8).bind fun r4 =>
  (r4.1.handleRead f).bind fun rd =>
  (r4.1.handleHistory f).map fun h => (rd, h)

/-- The version table with every slot in use: slot `i` holds the key `i`, for
`i` from 0 to 100 (the table of a file with 101 versions). -/
def VersionMap.fullExample : VersionMap :=
  { entries := (List.range 101).map (fun (i : Nat) => ⟨(i : Int), some i, false, false⟩),
    capacity := 101 }

/-- The state after `CREATE a.txt` and `INSERT a.txt hello`: the file has the
versions 0 and 1, and version 1 is active. -/
def FileSystem.draftExample : FileSystem :=
  { files := [File.exampleDraft],
    file_map := (FileMap.init 101).insertIn "a.txt" (some 0),
    file_order := ["a.txt"] }

/-- Calls that build a branched history: version 1 is snapshotted with two
children, version 2, a snapshot, and version 3, which is snapshotted too and
is active at the end. -/
def Op.branchOps : List Op :=
  [.insert "a" 2 3, .snapshot "s1" 4 5, .insert "b" 6 7, .snapshot "s2" 8 9, .rollback 1,
    .insert "c" 10 11, .snapshot "s3" 12 13]

/-- The file after the constructor and `Op.branchOps`: the versions 0 to 3,
all snapshots; the active version 3 is a child of version 1, as is
version 2. -/
def File.exampleBranches : File :=
  ((File.create "File created." 1 1).bind (fun f => f.run Op.branchOps)).getD File.fresh

/-- The file `File.exampleBranches` after `insert("d")`: the new version 4, a
draft and a child of version 3, is active. -/
def File.exampleTip : File :=
  ((File.create "File created." 1 1).bind
    (fun f => f.run (Op.branchOps ++ [.insert "d" 14 15]))).getD File.fresh

/-- The slot probed `d` steps after the slot `h`. -/
def FileMap.pos (m : FileMap) (h d : Nat) : Nat :=
  (h + d) % m.capacity

/-- A slot holding a live entry. -/
def FileMap.Entry.live (e : FileMap.Entry) : Bool :=
  !e.is_empty && !e.is_deleted

/-- The shape of every table built by the constructor and the methods: live
keys are non-empty, have a non-null value and occur once, and the probe from
the hash of a live key meets no empty slot before the key. -/
structure FileMap.Inv (m : FileMap) : Prop where
  cap_pos : 0 < m.capacity
  len : m.entries.length = m.capacity
  key_ne : ∀ i, (m.slot i).live = true → (m.slot i).key.isEmpty = false ∧ (m.slot i).value ≠ none
  uniq : ∀ i j, (m.slot i).live = true → (m.slot j).live = true →
    (m.slot i).key = (m.slot j).key → i = j
  chain : ∀ i, (m.slot i).live = true →
    ∃ D, D < m.capacity ∧ i = m.pos (m.index (m.slot i).key) D ∧
      ∀ d, d < D → (m.slot (m.pos (m.index (m.slot i).key) d)).occupied = true

/-- What the loop of `FileMap::insert` guarantees when it ends, for the probe
that starts at `h`. -/
def FileMap.ExitSpec (m : FileMap) (key : String) (h : Nat) : FileMap.InsertExit → Prop
  | .overwrite i =>
    ∃ D, D < m.capacity ∧ i = m.pos h D ∧ (m.slot i).holds key = true ∧
      ∀ d, d < D → (m.slot (m.pos h d)).occupied = true ∧ (m.slot (m.pos h d)).holds key = false
  | .place index first_deleted =>
    ∃ E, E ≤ m.capacity ∧ index = m.pos h E ∧
      (∀ d, d < E → (m.slot (m.pos h d)).occupied = true ∧ (m.slot (m.pos h d)).holds key = false) ∧
      (E = m.capacity ∨ (m.slot index).occupied = false) ∧
      (∀ s, first_deleted = some s →
        ∃ D, D < E ∧ s = m.pos h D ∧ (m.slot s).is_deleted = true) ∧
      (first_deleted = none → ∀ d, d < E → (m.slot (m.pos h d)).is_deleted = false)

/-- The ranking key of the record at index `i`. -/
def FileHeap.keyAt (b : Bool) (l : List Fileppt) (i : Nat) : Int :=
  FileHeap.rankKey b (l.getD i default)

/-- The max-heap order on the array: no record ranks above its parent. -/
def FileHeap.IsHeap (b : Bool) (l : List Fileppt) : Prop :=
  ∀ i, 0 < i → i < l.length → FileHeap.keyAt b l i ≤ FileHeap.keyAt b l ((i - 1) / 2)

/-- The child lists agree with the parent links: every node is in the child
list of its parent. -/
structure File.Linked (f : File) : Prop where
  child_of_parent : ∀ p q, p < f.nodes.length → (f.node p).parent = some q →
    p ∈ (f.node q).children

/-- The nodes reached from the root through `children` links. -/
inductive File.FromRoot (f : File) : Nat → Prop where
  | root : File.FromRoot f f.root
  | child (p c : Nat) : File.FromRoot f p → c ∈ (f.node p).children → File.FromRoot f c

/-- The values of the expression `hash*31 + key[i]` in the loop of
`FileMap::hashFunction`, before the reduction, in the order of the loop, as
mathematical integers; `bytes` are the bytes of the key still to visit and
`hash` is the value at the start. -/
def FileMap.hashTrace (capacity : Nat) : List Nat → Int → List Int
  | [], _ => []
  | b :: bytes, hash =>
    (hash * 31 + charValue b) ::
      FileMap.hashTrace capacity bytes (Int.tmod (wrapInt (hash * 31 + charValue b)) (capacity : Int))

/-- The polynomial rolling hash without any reduction: the sum over `i` of
`c_i * 31^(n-1-i)` for the key `c_0 .. c_{n-1}`. -/
def FileMap.polynomial (key : String) : Nat :=
  ((List.range key.data.length).map
    (fun i => (key.data.getD i default).toNat * 31 ^ (key.data.length - 1 - i))).sum

/-- A finite map from strings to values, as the function that looks a key
up. -/
abbrev FiniteMap := String → Option Nat

/-- The empty map. -/
def FiniteMap.empty : FiniteMap :=
  fun _ => none

/-- The map after `insert(k, v)`: an empty key or a null value is ignored. -/
def FiniteMap.insert (M : FiniteMap) (k : String) (v : Option Nat) : FiniteMap :=
  if k.isEmpty || v == none then M else fun x => if x = k then v else M x

/-- The map after `erase(k)`. -/
def FiniteMap.erase (M : FiniteMap) (k : String) : FiniteMap :=
  if k.isEmpty then M else fun x => if x = k then none else M x

/-- The table has at least one slot that is empty or a tombstone. -/
def FileMap.hasRoom (m : FileMap) : Bool :=
  m.entries.any (fun e => !e.live)

/-- The table `m` and the finite map `M` after the same sequence of `insert`
and `erase` calls from the empty table the program builds (capacity 101), in
which every call has a defined result and every insert of a new key found
the table with an empty or tombstoned slot. -/
inductive FileMap.RoomyRun : FileMap → FiniteMap → Prop where
  | init : FileMap.RoomyRun (FileMap.init 101) FiniteMap.empty
  | insert (m g : FileMap) (M : FiniteMap) (k : String) (v : Option Nat) :
      FileMap.RoomyRun m M → m.insert k v = some g →
      (k.isEmpty = false → v ≠ none → m.get k = some none → m.hasRoom = true) →
      FileMap.RoomyRun g (M.insert k v)
  | erase (m g : FileMap) (M : FiniteMap) (k : String) :
      FileMap.RoomyRun m M → m.erase k = some g → FileMap.RoomyRun g (M.erase k)

/-- The node `n` has the id, the content, the message, the snapshot time and
the parent of the node `m`: they differ at most in the last-modified time and
in the child list. -/
def TreeNode.SameCore (m n : TreeNode) : Prop :=
  n.version_id = m.version_id ∧ n.content = m.content ∧ n.message = m.message ∧
  n.snapshot_timestamp = m.snapshot_timestamp ∧ n.parent = m.parent

/-- The file `g` has two nodes: the root, with empty content and node 1 as its
only child; and node 1, which has the id 1, the root as parent and the
content `c`, and is the active version. -/
def File.FirstBranch (g : File) (c : String) : Prop :=
  g.nodes.length = 2 ∧ g.total_versions = 2 ∧ g.active_version = some 1 ∧
  (g.node 1).version_id = 1 ∧ (g.node 1).parent = some 0 ∧ (g.node 1).content = c ∧
  (g.node 0).children = [1] ∧ (g.node 0).content = ""

/-! ## Lists -/

theorem getD_set {α} (l : List α) (i j : Nat) (a d : α) :
    (l.set i a).getD j d = if i = j ∧ i < l.length then a else l.getD j d := by
  simp only [List.getD_eq_getElem?_getD, List.getElem?_set]
  by_cases h : i = j
  · subst h
    by_cases h2 : i < l.length
    · simp [h2]
    · have h3 : l[i]? = none := List.getElem?_eq_none (by omega)
      simp [h2, h3]
  · simp [h]

theorem getD_append_one {α} (l : List α) (a d : α) (j : Nat) :
    (l ++ [a]).getD j d = if j < l.length then l.getD j d else if j = l.length then a else d := by
  simp only [List.getD_eq_getElem?_getD]
  by_cases h : j < l.length
  · simp [h, List.getElem?_append_left h]
  · simp only [h, if_false]
    rw [List.getElem?_append_right (by omega)]
    by_cases h2 : j = l.length
    · simp [h2]
    · simp only [h2, if_false]
      have : j - l.length ≠ 0 := by omega
      obtain ⟨k, hk⟩ := Nat.exists_eq_succ_of_ne_zero this
      simp [hk]

theorem File.node_modifyNode (f : File) (p q : Nat) (g : TreeNode → TreeNode) :
    (f.modifyNode p g).node q = if p = q ∧ p < f.nodes.length then g (f.node p) else f.node q := by
  unfold File.modifyNode File.node
  exact getD_set _ _ _ _ _

theorem File.length_modifyNode (f : File) (p : Nat) (g : TreeNode → TreeNode) :
    (f.modifyNode p g).nodes.length = f.nodes.length := by
  simp [File.modifyNode]

/-- An assignment to fields other than the id and the parent keeps the shape. -/
theorem File.Inv.modifyNode {f : File} (h : f.Inv) (p : Nat) (g : TreeNode → TreeNode)
    (hid : ∀ n, (g n).version_id = n.version_id) (hpar : ∀ n, (g n).parent = n.parent) :
    (f.modifyNode p g).Inv := by
  have hn : ∀ q, ((f.modifyNode p g).node q).version_id = (f.node q).version_id ∧
      ((f.modifyNode p g).node q).parent = (f.node q).parent := by
    intro q
    rw [File.node_modifyNode]
    split
    · rename_i hc
      rw [← hc.1]
      exact ⟨hid _, hpar _⟩
    · exact ⟨rfl, rfl⟩
  refine ⟨h.root_eq, ?_, ?_, ?_, ?_, ?_, ?_, ?_, h.cap, h.len, ?_⟩
  · simpa [File.modifyNode] using h.total
  · simpa [File.modifyNode] using h.pos
  · simpa [File.modifyNode] using h.le_cap
  · simpa [File.modifyNode] using h.active
  · intro q hq
    rw [(hn q).1]
    exact h.ids q (by simpa [File.modifyNode] using hq)
  · rw [(hn 0).2]
    exact h.parent_root
  · intro q hq0 hq
    rw [(hn q).2]
    exact h.parent_lt q hq0 (by simpa [File.modifyNode] using hq)
  · intro i
    simpa [File.modifyNode] using h.slots i

theorem File.Inv.updateTime {f : File} (h : f.Inv) (t : Int) : (f.updateTime t).Inv := by
  unfold File.updateTime
  cases ha : f.active_version with
  | none => simpa using h
  | some a => exact h.modifyNode a _ (fun _ => rfl) (fun _ => rfl)

theorem File.Inv.setActive {f : File} (h : f.Inv) (a : Nat) (ha : a < f.nodes.length) :
    File.Inv { f with active_version := some a } :=
  ⟨h.root_eq, h.total, h.pos, h.le_cap, ⟨a, rfl, ha⟩, h.ids, h.parent_root, h.parent_lt,
    h.cap, h.len, h.slots⟩

theorem VersionMap.insert_of_empty (m : VersionMap) (key : Int) (v : Option Nat)
    (hc : 0 < m.capacity)
    (he : (m.entries.getD (m.hashFunction key) default).is_empty = true) :
    m.insert key v =
      some { m with entries := m.entries.set (m.hashFunction key) ⟨key, v, false, false⟩ } := by
  obtain ⟨k, hk⟩ := Nat.exists_eq_succ_of_ne_zero (Nat.pos_iff_ne_zero.mp hc)
  unfold VersionMap.insert
  rw [hk, VersionMap.insertProbe]
  simp only [he, Bool.not_true, Bool.false_and]
  simp

theorem VersionMap.hashFunction_natCast (m : VersionMap) (n : Nat) (hn : n < m.capacity)
    (h32 : n < 2 ^ 32) : m.hashFunction (n : Int) = n := by
  unfold VersionMap.hashFunction
  have h1 : ((n : Int) % 2 ^ 32).toNat = n := by
    have : ((n : Int) % 2 ^ 32) = (n : Int) := Int.emod_eq_of_lt (by omega) (by exact_mod_cast h32)
    rw [this]; simp
  rw [h1]
  exact Nat.mod_eq_of_lt hn

/-- The nodes after the allocation and the `push_back` of `createNewVersion`. -/
theorem File.node_branch (f : File) (a : Nat) (hal : a < f.nodes.length) (new_node : TreeNode)
    (q : Nat) :
    (({ f with nodes := f.nodes ++ [new_node] } : File).modifyNode a
        (fun n => { n with children := n.children ++ [f.nodes.length] })).node q =
      if q = a then { f.node a with children := (f.node a).children ++ [f.nodes.length] }
      else if q = f.nodes.length then new_node
      else f.node q := by
  rw [File.node_modifyNode]
  simp only [File.node, getD_append_one, List.length_append, List.length_singleton]
  by_cases hq : q = a
  · subst hq
    simp [hal, Nat.lt_succ_of_lt hal]
  · have hq' : ¬ a = q := fun e => hq e.symm
    simp only [hq', false_and, if_false, hq]
    by_cases hq2 : q < f.nodes.length
    · have : q ≠ f.nodes.length := by omega
      simp [hq2, this]
    · simp only [hq2, if_false]
      by_cases hq3 : q = f.nodes.length
      · simp [hq3]
      · simp only [hq3, if_false]
        rw [List.getD_eq_default _ _ (by omega)]

/-- The file `createNewVersion` returns when the version table has a free
slot. -/
theorem File.createNewVersion_eq {f : File} (h : f.Inv) (a : Nat)
    (ha : f.active_version = some a) (hlt : f.nodes.length < 101) (t : Int) :
    f.createNewVersion t = some
      { nodes := (({ f with nodes := f.nodes ++ [TreeNode.ofParent f.total_versions (some a) t] } : File).modifyNode a
          (fun n => { n with children := n.children ++ [f.nodes.length] })).nodes,
        root := f.root,
        active_version := some f.nodes.length,
        version_map :=
          { entries := f.version_map.entries.set f.nodes.length
              ⟨(f.nodes.length : Int), some f.nodes.length, false, false⟩,
            capacity := f.version_map.capacity },
        total_versions := f.total_versions + 1 } := by
  obtain ⟨a', ha', hal⟩ := h.active
  rw [ha] at ha'
  cases ha'
  have hne : a ≠ f.nodes.length := by omega
  have hvid := congrArg TreeNode.version_id
    (File.node_branch f a hal (TreeNode.ofParent f.total_versions (some a) t) f.nodes.length)
  simp only [Ne.symm hne, if_false, if_true, TreeNode.ofParent, h.total] at hvid
  have hhash : f.version_map.hashFunction (f.nodes.length : Int) = f.nodes.length :=
    VersionMap.hashFunction_natCast _ _ (by rw [h.cap]; exact hlt) (by omega)
  have hempty : (f.version_map.entries.getD (f.version_map.hashFunction (f.nodes.length : Int))
      default).is_empty = true := by
    rw [hhash, h.slots]
    simp
    rfl
  have hins := VersionMap.insert_of_empty f.version_map (f.nodes.length : Int)
    (some f.nodes.length) (by rw [h.cap]; decide) hempty
  rw [hhash] at hins
  unfold File.createNewVersion
  simp only [ha]
  simp only [File.node, File.modifyNode, TreeNode.ofParent, h.total] at hvid ⊢
  rw [hvid, hins]

/-- What `createNewVersion` does when the version table has a free slot. -/
theorem File.createNewVersion_spec {f : File} (h : f.Inv) (a : Nat)
    (ha : f.active_version = some a) (hlt : f.nodes.length < 101) (t : Int) :
    ∃ g, f.createNewVersion t = some g ∧ g.Inv ∧
      g.nodes.length = f.nodes.length + 1 ∧
      g.active_version = some f.nodes.length ∧
      g.total_versions = f.total_versions + 1 ∧
      g.root = f.root ∧
      g.node f.nodes.length = TreeNode.ofParent f.total_versions (some a) t ∧
      g.node a = { f.node a with children := (f.node a).children ++ [f.nodes.length] } ∧
      (∀ q, q ≠ a → q ≠ f.nodes.length → g.node q = f.node q) := by
  obtain ⟨a', ha', hal⟩ := h.active
  rw [ha] at ha'
  cases ha'
  have hne : f.nodes.length ≠ a := by omega
  refine ⟨_, File.createNewVersion_eq h a ha hlt t, ?_, ?_, rfl, rfl, rfl, ?_, ?_, ?_⟩
  · -- the shape is kept
    have hnode := File.node_branch f a hal (TreeNode.ofParent f.total_versions (some a) t)
    refine ⟨h.root_eq, ?_, ?_, ?_, ?_, ?_, ?_, ?_, h.cap, ?_, ?_⟩
    · simp [File.modifyNode, h.total]
    · simp [File.modifyNode]
    · simp only [File.modifyNode, List.length_set, List.length_append, List.length_singleton]
      omega
    · exact ⟨f.nodes.length, rfl, by simp [File.modifyNode]⟩
    · intro p hp
      have hp' : p < f.nodes.length + 1 := by simpa [File.modifyNode] using hp
      show (File.node _ p).version_id = _
      have := congrArg TreeNode.version_id (hnode p)
      simp only [File.node, File.modifyNode] at this ⊢
      rw [this]
      by_cases hpa : p = a
      · simp only [hpa, if_true]
        exact h.ids a hal
      · simp only [hpa, if_false]
        by_cases hpn : p = f.nodes.length
        · simp [hpn, TreeNode.ofParent, h.total]
        · simp only [hpn, if_false]
          exact h.ids p (by omega)
    · show (File.node _ 0).parent = _
      have := congrArg TreeNode.parent (hnode 0)
      simp only [File.node, File.modifyNode] at this ⊢
      rw [this]
      by_cases h0a : 0 = a
      · simp only [h0a, if_true]
        rw [← h0a]
        exact h.parent_root
      · have h0n : 0 ≠ f.nodes.length := by have := h.pos; omega
        simp only [h0a, h0n, if_false]
        exact h.parent_root
    · intro p hp0 hp
      have hp' : p < f.nodes.length + 1 := by simpa [File.modifyNode] using hp
      show ∃ q, (File.node _ p).parent = some q ∧ q < p
      have := congrArg TreeNode.parent (hnode p)
      simp only [File.node, File.modifyNode] at this ⊢
      rw [this]
      by_cases hpa : p = a
      · simp only [hpa, if_true]
        exact h.parent_lt a (by omega) hal
      · simp only [hpa, if_false]
        by_cases hpn : p = f.nodes.length
        · simp only [hpn, if_true, TreeNode.ofParent]
          exact ⟨a, rfl, hal⟩
        · simp only [hpn, if_false]
          exact h.parent_lt p hp0 (by omega)
    · simp [h.len]
    · intro i
      show List.getD (List.set _ _ _) i default = _
      rw [getD_set, h.slots i]
      simp only [File.modifyNode, List.length_set, List.length_append, List.length_singleton, h.len]
      by_cases hi : f.nodes.length = i
      · subst hi
        simp [hlt]
      · have hi' : ¬ (f.nodes.length = i ∧ f.nodes.length < 101) := fun e => hi e.1
        simp only [hi', if_false]
        by_cases hi2 : i < f.nodes.length
        · simp [hi2, Nat.lt_succ_of_lt hi2]
        · have : ¬ i < f.nodes.length + 1 := by omega
          simp [hi2, this]
  · simp [File.modifyNode]
  · have := File.node_branch f a hal (TreeNode.ofParent f.total_versions (some a) t) f.nodes.length
    simp only [hne, if_false, if_true] at this
    exact this
  · have := File.node_branch f a hal (TreeNode.ofParent f.total_versions (some a) t) a
    simp only [if_true] at this
    exact this
  · intro q hqa hqn
    have := File.node_branch f a hal (TreeNode.ofParent f.total_versions (some a) t) q
    simp only [hqa, hqn, if_false] at this
    exact this

/-- A node returned by the loop of `get` is the value of a used slot holding
the key. -/
theorem VersionMap.getProbe_some (m : VersionMap) (key : Int) (start : Nat) (t : Nat) :
    ∀ fuel index, m.getProbe key start fuel index = some (some t) →
      ∃ j, (m.entries.getD j default).is_empty = false ∧ (m.entries.getD j default).key = key ∧
        (m.entries.getD j default).value = some t := by
  intro fuel
  induction fuel with
  | zero => intro index h; simp [VersionMap.getProbe] at h
  | succ fuel ih =>
    intro index h
    rw [VersionMap.getProbe] at h
    by_cases he : (m.entries.getD index default).is_empty = true
    · simp only [he, Bool.not_true, Bool.false_eq_true, if_false] at h
      cases h
    · have he' : (m.entries.getD index default).is_empty = false := by
        cases hb : (m.entries.getD index default).is_empty
        · rfl
        · exact absurd hb he
      by_cases hk : (m.entries.getD index default).key = key
      · simp only [he', hk, Bool.not_false, if_true, beq_self_eq_true] at h
        exact ⟨index, he', hk, by injection h⟩
      · have hk' : ((m.entries.getD index default).key == key) = false := by
          rw [beq_eq_false_iff_ne]; exact hk
        simp only [he', hk', Bool.not_false, if_true, Bool.false_eq_true, if_false] at h
        by_cases hs : ((index + 1) % m.capacity == start) = true
        · simp only [hs, if_true] at h
          cases h
        · simp only [hs, if_false] at h
          exact ih _ h

theorem File.Inv.get_some {f : File} (h : f.Inv) (id : Int) (t : Nat)
    (hg : f.version_map.get id = some t) : t < f.nodes.length ∧ id = (t : Int) := by
  unfold VersionMap.get at hg
  cases hp : f.version_map.getProbe id (f.version_map.hashFunction id) f.version_map.capacity
      (f.version_map.hashFunction id) with
  | none => simp [hp] at hg
  | some r =>
    rw [hp] at hg
    simp only [Option.getD_some] at hg
    subst hg
    obtain ⟨j, hj1, hj2, hj3⟩ := VersionMap.getProbe_some _ _ _ _ _ _ hp
    rw [h.slots j] at hj1 hj2 hj3
    by_cases hj : j < f.nodes.length
    · simp only [hj, if_true] at hj2 hj3
      simp only [Option.some.injEq] at hj3
      subst hj3
      exact ⟨hj, hj2.symm⟩
    · simp only [hj, if_false] at hj1
      exact absurd hj1 (by decide)

theorem File.Inv.get_of_lt {f : File} (h : f.Inv) (p : Nat) (hp : p < f.nodes.length) :
    f.version_map.get (p : Int) = some p := by
  have hhash : f.version_map.hashFunction (p : Int) = p :=
    VersionMap.hashFunction_natCast _ _ (by rw [h.cap]; have := h.le_cap; omega)
      (by have := h.le_cap; omega)
  unfold VersionMap.get
  rw [hhash, h.cap]
  rw [VersionMap.getProbe, h.slots p]
  simp [hp]

theorem File.create_eq (msg : String) (t1 t2 : Int) :
    File.create msg t1 t2 = some (File.created msg t1 t2) := by
  have := VersionMap.insert_of_empty (VersionMap.init 101) 0 (some 0) (by decide) (by decide)
  unfold File.create
  rw [this]
  rfl

theorem File.Inv.create (msg : String) (t1 t2 : Int) (f : File)
    (hf : File.create msg t1 t2 = some f) : f.Inv := by
  rw [File.create_eq] at hf
  cases hf
  unfold File.created
  refine ⟨rfl, rfl, Nat.zero_lt_one, by simp, ⟨0, rfl, Nat.zero_lt_one⟩, ?_, rfl, ?_, rfl, by simp, ?_⟩
  · intro p hp
    have : p = 0 := by simpa using hp
    subst this
    rfl
  · intro p hp0 hp
    have : p = 0 := by simpa using hp
    omega
  · intro i
    show List.getD (List.set _ _ _) i default = _
    rw [getD_set]
    by_cases hi : i = 0
    · subst hi
      simp
    · have h1 : ¬ (0 = i ∧ 0 < (List.replicate 101 (⟨0, none, true, false⟩ : VersionMap.Entry)).length) :=
        fun e => hi e.1.symm
      have h2 : ¬ i < 1 := by omega
      simp only [h1, if_false, List.length_singleton, h2]
      by_cases hi2 : i < 101
      · rw [List.getD_eq_getElem _ _ (by simpa using hi2), List.getElem_replicate]
        rfl
      · rw [List.getD_eq_default _ _ (by simp; omega)]

theorem File.Inv.rollback {f : File} (h : f.Inv) (id : Int) : (f.rollback id).1.Inv := by
  unfold File.rollback
  cases hg : f.version_map.get id with
  | none => simpa using h
  | some t => exact h.setActive t (h.get_some id t hg).1

theorem File.Inv.rollbackToParent {f : File} (h : f.Inv) : f.rollbackToParent.1.Inv := by
  unfold File.rollbackToParent
  obtain ⟨a, ha, hal⟩ := h.active
  simp only [ha]
  cases hp : (f.node a).parent with
  | none => simpa using h
  | some p =>
    have hp' : p < f.nodes.length := by
      by_cases h0 : a = 0
      · subst h0
        rw [h.parent_root] at hp
        cases hp
      · obtain ⟨q, hq, hqa⟩ := h.parent_lt a (by omega) hal
        rw [hq] at hp
        cases hp
        omega
    exact h.setActive p hp'

theorem File.Inv.snapshot {f : File} (h : f.Inv) (msg : String) (tSnap tUpd : Int) :
    (f.snapshot msg tSnap tUpd).1.Inv := by
  unfold File.snapshot
  cases ha : f.active_version with
  | none => simpa using h
  | some a =>
    simp only
    split
    · exact h.updateTime _
    · exact (h.modifyNode a (fun n => { n with snapshot_timestamp := tSnap, message := msg })
        (fun _ => rfl) (fun _ => rfl)).updateTime _

/-- When every slot is in use and none holds the key, the loop of
`VersionMap::insert` does not exit, whatever the number of iterations. -/
theorem VersionMap.insertProbe_none_of_full (m : VersionMap) (key : Int) (hc : 0 < m.capacity)
    (hfull : ∀ i, i < m.capacity →
      (m.entries.getD i default).is_empty = false ∧ (m.entries.getD i default).key ≠ key) :
    ∀ fuel index, index < m.capacity → m.insertProbe key fuel index = none := by
  intro fuel
  induction fuel with
  | zero => intro index _; rfl
  | succ fuel ih =>
    intro index hi
    rw [VersionMap.insertProbe]
    obtain ⟨h1, h2⟩ := hfull index hi
    have h3 : ((m.entries.getD index default).key != key) = true := by
      rw [bne_iff_ne]; exact h2
    simp only [h1, h3, Bool.not_false, Bool.and_self, if_true]
    exact ih _ (Nat.mod_lt _ hc)

/-- With 101 versions the version table is full and `createNewVersion` does
not return. -/
theorem File.createNewVersion_full {f : File} (h : f.Inv) (hfull : f.nodes.length = 101)
    (t : Int) : f.createNewVersion t = none := by
  obtain ⟨a, ha, hal⟩ := h.active
  have hne : f.nodes.length ≠ a := by omega
  have hvid := congrArg TreeNode.version_id
    (File.node_branch f a hal (TreeNode.ofParent f.total_versions (some a) t) f.nodes.length)
  simp only [hne, if_false, if_true, TreeNode.ofParent, h.total] at hvid
  have hprobe : ∀ index, index < f.version_map.capacity →
      f.version_map.insertProbe (f.nodes.length : Int) f.version_map.capacity index = none := by
    apply VersionMap.insertProbe_none_of_full
    · rw [h.cap]; decide
    · intro i hi
      rw [h.cap] at hi
      rw [h.slots i]
      have hi' : i < f.nodes.length := by omega
      simp only [hi', if_true]
      refine ⟨trivial, ?_⟩
      omega
  have hins : f.version_map.insert (f.nodes.length : Int) (some f.nodes.length) = none := by
    unfold VersionMap.insert
    have hh : f.version_map.hashFunction (f.nodes.length : Int) < f.version_map.capacity :=
      Nat.mod_lt _ (by rw [h.cap]; decide)
    rw [hprobe _ hh]
  unfold File.createNewVersion
  simp only [ha]
  simp only [File.node, File.modifyNode, TreeNode.ofParent, h.total] at hvid ⊢
  rw [hvid, hins]

theorem File.Inv.createNewVersion {f g : File} (h : f.Inv) (t : Int)
    (hg : f.createNewVersion t = some g) : g.Inv := by
  obtain ⟨a, ha, hal⟩ := h.active
  by_cases hlt : f.nodes.length < 101
  · obtain ⟨g', hg', hinv, -⟩ := File.createNewVersion_spec h a ha hlt t
    rw [hg'] at hg
    cases hg
    exact hinv
  · have hfull : f.nodes.length = 101 := by have := h.le_cap; omega
    rw [File.createNewVersion_full h hfull] at hg
    cases hg

theorem File.Inv.insert {f g : File} (h : f.Inv) (c : String) (tNew tUpd : Int) (out : List Report)
    (hg : f.insert c tNew tUpd = some (g, out)) : g.Inv := by
  unfold File.insert at hg
  obtain ⟨a, ha, hal⟩ := h.active
  simp only [ha] at hg
  split at hg
  · cases hg
  · rename_i f1 hf1
    have h1 : f1.Inv := by
      split at hf1
      · exact h.createNewVersion tNew hf1
      · cases hf1; exact h
    split at hg
    · cases hg
    · cases hg
      apply File.Inv.updateTime
      apply File.Inv.modifyNode h1 <;> intro n <;> rfl

theorem File.Inv.update {f g : File} (h : f.Inv) (c : String) (tNew tUpd : Int) (out : List Report)
    (hg : f.update c tNew tUpd = some (g, out)) : g.Inv := by
  unfold File.update at hg
  obtain ⟨a, ha, hal⟩ := h.active
  simp only [ha] at hg
  split at hg
  · cases hg
  · rename_i f1 hf1
    have h1 : f1.Inv := by
      split at hf1
      · exact h.createNewVersion tNew hf1
      · cases hf1; exact h
    split at hg
    · cases hg
    · cases hg
      apply File.Inv.updateTime
      apply File.Inv.modifyNode h1 <;> intro n <;> rfl

theorem File.Inv.step {f g : File} (h : f.Inv) (op : Op) (hg : f.step op = some g) : g.Inv := by
  cases op with
  | insert c tNew tUpd =>
    simp only [File.step, Option.map_eq_some'] at hg
    obtain ⟨⟨g', out⟩, hg', rfl⟩ := hg
    exact h.insert c tNew tUpd out hg'
  | update c tNew tUpd =>
    simp only [File.step, Option.map_eq_some'] at hg
    obtain ⟨⟨g', out⟩, hg', rfl⟩ := hg
    exact h.update c tNew tUpd out hg'
  | snapshot msg tSnap tUpd =>
    simp only [File.step, Option.some.injEq] at hg
    subst hg
    exact h.snapshot msg tSnap tUpd
  | rollback id =>
    simp only [File.step, Option.some.injEq] at hg
    subst hg
    exact h.rollback id
  | rollbackToParent =>
    simp only [File.step, Option.some.injEq] at hg
    subst hg
    exact h.rollbackToParent

/-- Every reachable file has the shape `File.Inv`. -/
theorem File.Reachable.inv {f : File} (h : f.Reachable) : f.Inv := by
  induction h with
  | create msg t1 t2 f hf => exact File.Inv.create msg t1 t2 f hf
  | step f g op _ hg ih => exact ih.step op hg

/-! ## VersionMap: the fuel of the probing loops -/

theorem VersionMap.probe_succ (cap h d : Nat) : ((h + d) % cap + 1) % cap = (h + (d + 1)) % cap := by
  rw [Nat.mod_add_mod, Nat.add_assoc]

theorem VersionMap.probe_cover (cap h i : Nat) (hh : h < cap) (hi : i < cap) :
    ∃ d, d < cap ∧ (h + d) % cap = i := by
  by_cases hle : h ≤ i
  · refine ⟨i - h, by omega, ?_⟩
    rw [Nat.add_sub_cancel' hle]
    exact Nat.mod_eq_of_lt hi
  · refine ⟨i + cap - h, by omega, ?_⟩
    have : h + (i + cap - h) = i + cap := by omega
    rw [this, Nat.add_mod_right]
    exact Nat.mod_eq_of_lt hi

/-- The loop of `VersionMap::get` ends within `capacity` iterations. -/
theorem VersionMap.getProbe_isSome (m : VersionMap) (key : Int) (h : Nat) (hh : h < m.capacity) :
    ∀ fuel d, fuel + d = m.capacity → d < m.capacity →
      (m.getProbe key h fuel ((h + d) % m.capacity)).isSome = true := by
  intro fuel
  induction fuel with
  | zero => intro d h1 h2; omega
  | succ fuel ih =>
    intro d h1 h2
    rw [VersionMap.getProbe]
    cases he : (m.entries.getD ((h + d) % m.capacity) default).is_empty with
    | true => simp
    | false =>
      simp only [Bool.not_false, if_true]
      by_cases hk : ((m.entries.getD ((h + d) % m.capacity) default).key == key) = true
      · simp only [hk, if_true, Option.isSome_some]
      · simp only [hk, Bool.false_eq_true, if_false]
        by_cases hs : (((h + d) % m.capacity + 1) % m.capacity == h) = true
        · simp only [hs, if_true, Option.isSome_some]
        · simp only [hs, Bool.false_eq_true, if_false]
          rw [VersionMap.probe_succ]
          apply ih (d + 1) (by omega)
          by_contra hge
          have hd : d + 1 = m.capacity := by omega
          apply hs
          rw [VersionMap.probe_succ, hd, Nat.add_mod_right, Nat.mod_eq_of_lt hh]
          exact beq_self_eq_true h

/-- When the loop of `VersionMap::insert` has not exited after `fuel`
iterations, none of the slots it has probed is empty or holds the key. -/
theorem VersionMap.insertProbe_none_probed (m : VersionMap) (key : Int) (h : Nat) :
    ∀ fuel d0, m.insertProbe key fuel ((h + d0) % m.capacity) = none →
      ∀ d, d0 ≤ d → d < d0 + fuel →
        (m.entries.getD ((h + d) % m.capacity) default).is_empty = false ∧
        (m.entries.getD ((h + d) % m.capacity) default).key ≠ key := by
  intro fuel
  induction fuel with
  | zero => intro d0 _ d h1 h2; omega
  | succ fuel ih =>
    intro d0 hnone d h1 h2
    rw [VersionMap.insertProbe] at hnone
    by_cases hc : (!(m.entries.getD ((h + d0) % m.capacity) default).is_empty &&
        (m.entries.getD ((h + d0) % m.capacity) default).key != key) = true
    · simp only [hc, if_true] at hnone
      rw [VersionMap.probe_succ] at hnone
      by_cases hd : d = d0
      · subst hd
        rw [Bool.and_eq_true] at hc
        refine ⟨by simpa using hc.1, by simpa using hc.2⟩
      · exact ih (d0 + 1) hnone d (by omega) (by omega)
    · simp only [hc, Bool.false_eq_true, if_false] at hnone
      cases hnone

/-- The fuel of `VersionMap.insert` is enough: when `capacity` iterations
have not led to an exit, no number of iterations does, that is, the loop of
`VersionMap::insert` runs forever. -/
theorem VersionMap.insertProbe_none_of_capacity (m : VersionMap) (key : Int)
    (hc : 0 < m.capacity)
    (hnone : m.insertProbe key m.capacity (m.hashFunction key) = none) :
    ∀ fuel, m.insertProbe key fuel (m.hashFunction key) = none := by
  have hh : m.hashFunction key < m.capacity := Nat.mod_lt _ hc
  have h0 : (m.hashFunction key + 0) % m.capacity = m.hashFunction key := by
    rw [Nat.add_zero]; exact Nat.mod_eq_of_lt hh
  rw [← h0] at hnone
  have hall := VersionMap.insertProbe_none_probed m key _ m.capacity 0 hnone
  intro fuel
  apply VersionMap.insertProbe_none_of_full m key hc _ fuel _ hh
  intro i hi
  obtain ⟨d, hd, hdi⟩ := VersionMap.probe_cover m.capacity (m.hashFunction key) i hh hi
  rw [← hdi]
  exact hall d (Nat.zero_le d) (by omega)

theorem File.node_edit (f : File) (a : Nat) (ha : f.active_version = some a)
    (hal : a < f.nodes.length) (g : TreeNode → TreeNode) (t : Int) (q : Nat) :
    ((f.modifyNode a g).updateTime t).node q =
      if q = a then { g (f.node a) with created_timestamp := t } else f.node q := by
  have h1 : (f.modifyNode a g).active_version = some a := ha
  unfold File.updateTime
  simp only [h1]
  rw [File.node_modifyNode, File.node_modifyNode, File.node_modifyNode, File.length_modifyNode]
  by_cases hq : q = a
  · subst hq
    simp [hal]
  · have hq' : ¬ a = q := fun e => hq e.symm
    simp [hq, hq']

theorem File.edit_frame (f : File) (a : Nat) (ha : f.active_version = some a)
    (g : TreeNode → TreeNode) (t : Int) :
    ((f.modifyNode a g).updateTime t).nodes.length = f.nodes.length ∧
    ((f.modifyNode a g).updateTime t).root = f.root ∧
    ((f.modifyNode a g).updateTime t).active_version = f.active_version ∧
    ((f.modifyNode a g).updateTime t).total_versions = f.total_versions ∧
    ((f.modifyNode a g).updateTime t).version_map = f.version_map := by
  have h1 : (f.modifyNode a g).active_version = some a := ha
  unfold File.updateTime
  simp only [h1]
  simp [File.modifyNode]

/-- An edit of a draft: the general form of `insert` and `update` when the
active version is not a snapshot. -/
theorem File.sameExceptContent_edit (f : File) (a : Nat) (ha : f.active_version = some a)
    (hal : a < f.nodes.length) (t : Int) (k : String → String) :
    File.SameExceptContent f
      ((f.modifyNode a (fun n => { n with content := k n.content })).updateTime t) a ∧
    (((f.modifyNode a (fun n => { n with content := k n.content })).updateTime t).node a).content
      = k (f.node a).content := by
  have hn := File.node_edit f a ha hal (fun n => { n with content := k n.content }) t
  obtain ⟨e1, e2, e3, e4, e5⟩ := File.edit_frame f a ha (fun n => { n with content := k n.content }) t
  refine ⟨⟨e1, e2, e3, e4, e5, ?_, ?_, ?_, ?_, ?_, ?_⟩, ?_⟩
  · intro q hq
    rw [hn q]; simp [hq]
  all_goals (rw [hn a]; simp)

theorem File.insert_draft (f : File) (a : Nat) (ha : f.active_version = some a)
    (hd : (f.node a).isSnapshot = false) (t : String) (tNew tUpd : Int) :
    f.insert t tNew tUpd =
      some ((f.modifyNode a (fun n => { n with content := n.content ++ t })).updateTime tUpd, []) := by
  unfold File.insert
  simp only [ha, hd, Bool.false_eq_true, if_false]

theorem File.update_draft (f : File) (a : Nat) (ha : f.active_version = some a)
    (hd : (f.node a).isSnapshot = false) (t : String) (tNew tUpd : Int) :
    f.update t tNew tUpd =
      some ((f.modifyNode a (fun n => { n with content := t })).updateTime tUpd, []) := by
  unfold File.update
  simp only [ha, hd, Bool.false_eq_true, if_false]

theorem File.SameExceptContent.trans {f g k : File} {a : Nat}
    (h1 : File.SameExceptContent f g a) (h2 : File.SameExceptContent g k a) :
    File.SameExceptContent f k a := by
  obtain ⟨a1, a2, a3, a4, a5, a6, a7, a8, a9, a10, a11⟩ := h1
  obtain ⟨b1, b2, b3, b4, b5, b6, b7, b8, b9, b10, b11⟩ := h2
  exact ⟨b1.trans a1, b2.trans a2, b3.trans a3, b4.trans a4, b5.trans a5,
    fun q hq => (b6 q hq).trans (a6 q hq), b7.trans a7, b8.trans a8, b9.trans a9,
    b10.trans a10, b11.trans a11⟩

theorem File.run_edits (ops : List Op) : ∀ (f : File) (a : Nat), f.active_version = some a →
    a < f.nodes.length → (f.node a).isSnapshot = false → (∀ op ∈ ops, op.isEdit = true) →
    ∃ g, f.run ops = some g ∧ File.SameExceptContent f g a ∧
      (g.node a).content = ops.foldl Op.editContent (f.node a).content := by
  induction ops with
  | nil =>
    intro f a _ _ _ _
    exact ⟨f, rfl, ⟨rfl, rfl, rfl, rfl, rfl, fun _ _ => rfl, rfl, rfl, rfl, rfl, rfl⟩, rfl⟩
  | cons op ops ih =>
    intro f a ha hal hd hops
    have hop := hops op (List.mem_cons_self _ _)
    have hrest : ∀ o ∈ ops, o.isEdit = true := fun o ho => hops o (List.mem_cons_of_mem _ ho)
    have key : ∀ (k : String → String) (t : Int),
        f.step op = some ((f.modifyNode a (fun n => { n with content := k n.content })).updateTime t) →
        Op.editContent (f.node a).content op = k (f.node a).content →
        ∃ g, f.run (op :: ops) = some g ∧ File.SameExceptContent f g a ∧
          (g.node a).content = (op :: ops).foldl Op.editContent (f.node a).content := by
      intro k t hstep hcontent
      obtain ⟨hs, hc⟩ := File.sameExceptContent_edit f a ha hal t k
      have hd' : (((f.modifyNode a (fun n => { n with content := k n.content })).updateTime t).node a).isSnapshot = false := by
        unfold TreeNode.isSnapshot at hd ⊢
        rw [hs.2.2.2.2.2.2.2.2.1]; exact hd
      obtain ⟨g, hg, hsg, hcg⟩ := ih _ a (hs.2.2.1.trans ha) (by rw [hs.1]; exact hal) hd' hrest
      refine ⟨g, ?_, hs.trans hsg, ?_⟩
      · simp only [File.run, hstep, Option.some_bind]
        exact hg
      · rw [hcg, hc, List.foldl_cons, hcontent]
    cases op with
    | insert c tNew tUpd =>
      exact key (fun s => s ++ c) tUpd (by simp [File.step, File.insert_draft f a ha hd]) rfl
    | update c tNew tUpd =>
      exact key (fun _ => c) tUpd (by simp [File.step, File.update_draft f a ha hd]) rfl
    | snapshot _ _ _ => cases hop
    | rollback _ => cases hop
    | rollbackToParent => cases hop

/-- C2: on a file whose active version is a draft, `insert(t)` sets the
content of the active node to its old content followed by `t` and `update(t)`
sets it to `t`; no node is created, the active version, the counter and every
other node are unchanged. The same holds after every sequence of such calls,
the content being the one the edits ask for in turn. -/
theorem C2_draft_edit_in_place (f : File) (a : Nat) (ha : f.active_version = some a)
    (hal : a < f.nodes.length) (hd : (f.node a).isSnapshot = false) :
    (∀ t tNew tUpd, ∃ g, f.insert t tNew tUpd = some (g, []) ∧
      (g.node a).content = (f.node a).content ++ t ∧ File.SameExceptContent f g a) ∧
    (∀ t tNew tUpd, ∃ g, f.update t tNew tUpd = some (g, []) ∧
      (g.node a).content = t ∧ File.SameExceptContent f g a) ∧
    (∀ ops : List Op, (∀ op ∈ ops, op.isEdit = true) → ∃ g, f.run ops = some g ∧
      (g.node a).content = ops.foldl Op.editContent (f.node a).content ∧
      File.SameExceptContent f g a) := by
  refine ⟨?_, ?_, ?_⟩
  · intro t tNew tUpd
    obtain ⟨hs, hc⟩ := File.sameExceptContent_edit f a ha hal tUpd (fun s => s ++ t)
    exact ⟨_, File.insert_draft f a ha hd t tNew tUpd, hc, hs⟩
  · intro t tNew tUpd
    obtain ⟨hs, hc⟩ := File.sameExceptContent_edit f a ha hal tUpd (fun _ => t)
    exact ⟨_, File.update_draft f a ha hd t tNew tUpd, hc, hs⟩
  · intro ops hops
    obtain ⟨g, hg, hs, hc⟩ := File.run_edits ops f a ha hal hd hops
    exact ⟨g, hg, hc, hs⟩

/-- The check of C2 on a file whose active version is a draft child of the
root. -/
theorem C2_draft_edit_in_place_witness :
    File.exampleDraft.active_version = some 1 ∧ 1 < File.exampleDraft.nodes.length ∧
    (File.exampleDraft.node 1).isSnapshot = false ∧
    (∃ g, File.exampleDraft.insert " world" 4 5 = some (g, []) ∧
      (g.node 1).content = (File.exampleDraft.node 1).content ++ " world" ∧
      File.SameExceptContent File.exampleDraft g 1) ∧
    (∃ g, File.exampleDraft.update "bye" 4 5 = some (g, []) ∧
      (g.node 1).content = "bye" ∧ File.SameExceptContent File.exampleDraft g 1) :=
  ⟨rfl, by decide, rfl,
    (C2_draft_edit_in_place File.exampleDraft 1 rfl (by decide) rfl).1 " world" 4 5,
    (C2_draft_edit_in_place File.exampleDraft 1 rfl (by decide) rfl).2.1 "bye" 4 5⟩

theorem File.create_fresh : File.create "File created." 1 1 = some File.fresh :=
  File.create_eq _ _ _

theorem File.fresh_reachable : File.fresh.Reachable :=
  File.Reachable.create _ _ _ _ File.create_fresh

theorem File.Reachable.of_run (ops : List Op) : ∀ f g : File, f.Reachable →
    f.run ops = some g → g.Reachable := by
  induction ops with
  | nil => intro f g hf hg; cases hg; exact hf
  | cons op ops ih =>
    intro f g hf hg
    simp only [File.run] at hg
    cases h1 : f.step op with
    | none => rw [h1] at hg; cases hg
    | some f1 =>
      rw [h1] at hg
      exact ih f1 g (File.Reachable.step f f1 op hf h1) hg

theorem File.exampleBranches_run :
    (File.create "File created." 1 1).bind (fun f => f.run Op.branchOps) =
      some File.exampleBranches := by
  decide

theorem File.exampleTip_run :
    (File.create "File created." 1 1).bind
      (fun f => f.run (Op.branchOps ++ [.insert "d" 14 15])) = some File.exampleTip := by
  decide

theorem File.exampleBranches_reachable : File.exampleBranches.Reachable := by
  have h := File.exampleBranches_run
  rw [File.create_fresh, Option.some_bind] at h
  exact File.Reachable.of_run _ _ _ File.fresh_reachable h

theorem File.exampleTip_reachable : File.exampleTip.Reachable := by
  have h := File.exampleTip_run
  rw [File.create_fresh, Option.some_bind] at h
  exact File.Reachable.of_run _ _ _ File.fresh_reachable h

/-- C7: `rollbackToParent` succeeds (prints no error) exactly when the active
version has a parent; then the parent becomes the active version and nothing
else changes; otherwise the no-parent error is reported and the file is
unchanged, as it is directly after the constructor. -/
theorem C7_rollbackToParent (f : File) :
    ((f.rollbackToParent.2.all (fun r => !r.isError) = true) ↔
      ∃ a p, f.active_version = some a ∧ (f.node a).parent = some p) ∧
    (∀ a p, f.active_version = some a → (f.node a).parent = some p →
      f.rollbackToParent =
        ({ f with active_version := some p }, [.rolledBackToParent (f.node p).version_id])) ∧
    ((∀ a, f.active_version = some a → (f.node a).parent = none) →
      f.rollbackToParent = (f, [.errNoParent])) ∧
    (∀ msg t1 t2 g, File.create msg t1 t2 = some g → g.rollbackToParent = (g, [.errNoParent])) := by
  refine ⟨?_, ?_, ?_, ?_⟩
  · unfold File.rollbackToParent
    cases ha : f.active_version with
    | none => simp [Report.isError]
    | some a =>
      cases hp : (f.node a).parent with
      | none => simp [Report.isError, hp]
      | some p => simp [Report.isError, hp]
  · intro a p ha hp
    unfold File.rollbackToParent
    simp only [ha, hp]
  · intro h
    unfold File.rollbackToParent
    cases ha : f.active_version with
    | none => rfl
    | some a => simp only [h a ha]
  · intro msg t1 t2 g hg
    rw [File.create_eq] at hg
    cases hg
    rfl

/-- The check of C7 on a file with two nodes whose active version is the
second, and on a freshly created file. -/
theorem C7_rollbackToParent_witness :
    File.exampleDraft.rollbackToParent =
      ({ File.exampleDraft with active_version := some 0 }, [.rolledBackToParent 0]) ∧
    File.create "File created." 1 1 = some File.fresh ∧
    File.fresh.rollbackToParent = (File.fresh, [.errNoParent]) :=
  ⟨(C7_rollbackToParent File.exampleDraft).2.1 1 0 rfl rfl, File.create_fresh,
   (C7_rollbackToParent File.fresh).2.2.2 "File created." 1 1 File.fresh File.create_fresh⟩

/-- C3: in a reachable file, for every id in `[0, total_versions)` the version
table returns the one node with that id, and `rollback(id)` makes it the
active version and changes nothing else. -/
theorem C3_rollback_by_id (f : File) (hr : f.Reachable) (id : Int) (h0 : 0 ≤ id)
    (h1 : id < f.total_versions) :
    ∃ p, f.version_map.get id = some p ∧ p < f.nodes.length ∧ (f.node p).version_id = id ∧
      (∀ q, q < f.nodes.length → (f.node q).version_id = id → q = p) ∧
      f.rollback id = ({ f with active_version := some p }, [.rolledBack id]) := by
  have h := hr.inv
  obtain ⟨p, rfl⟩ := Int.eq_ofNat_of_zero_le h0
  have hp : p < f.nodes.length := by
    have := h.total
    omega
  have hg := h.get_of_lt p hp
  refine ⟨p, hg, hp, h.ids p hp, ?_, ?_⟩
  · intro q hq hqid
    rw [h.ids q hq] at hqid
    exact_mod_cast hqid
  · unfold File.rollback
    simp only [hg]

/-- The check of C3 on the branched file `File.exampleTip`, whose versions 0
to 4 come from eight calls: `rollback(2)` moves the active version from
version 4 to version 2, which is on another branch. -/
theorem C3_rollback_by_id_witness :
    (0 : Int) ≤ 2 ∧ (2 : Int) < File.exampleTip.total_versions ∧
    File.exampleTip.active_version = some 4 ∧ (File.exampleTip.node 2).parent = some 1 ∧
    (File.exampleTip.node 4).parent = some 3 ∧
    ∃ p, File.exampleTip.version_map.get 2 = some p ∧ p < File.exampleTip.nodes.length ∧
      (File.exampleTip.node p).version_id = 2 ∧
      (∀ q, q < File.exampleTip.nodes.length → (File.exampleTip.node q).version_id = 2 → q = p) ∧
      File.exampleTip.rollback 2 =
        ({ File.exampleTip with active_version := some p }, [.rolledBack 2]) :=
  ⟨by decide, by decide, by decide, by decide, by decide,
    C3_rollback_by_id File.exampleTip File.exampleTip_reachable 2 (by decide) (by decide)⟩

theorem File.branchedWith_of_spec {f g0 : File} (h : f.Inv) (a : Nat)
    (ha : f.active_version = some a) (t : Int) (k : String → String) (tUpd : Int)
    (hlen : g0.nodes.length = f.nodes.length + 1)
    (hact : g0.active_version = some f.nodes.length)
    (htot : g0.total_versions = f.total_versions + 1)
    (hroot : g0.root = f.root)
    (hnew : g0.node f.nodes.length = TreeNode.ofParent f.total_versions (some a) t)
    (hold : g0.node a = { f.node a with children := (f.node a).children ++ [f.nodes.length] })
    (hrest : ∀ q, q ≠ a → q ≠ f.nodes.length → g0.node q = f.node q) :
    File.BranchedWith f
      ((g0.modifyNode f.nodes.length (fun n => { n with content := k n.content })).updateTime tUpd)
      a (k "") := by
  obtain ⟨a', ha', hal⟩ := h.active
  rw [ha] at ha'
  cases ha'
  have hne : a ≠ f.nodes.length := by omega
  have hn := File.node_edit g0 f.nodes.length hact (by omega)
    (fun n => { n with content := k n.content }) tUpd
  obtain ⟨e1, e2, e3, e4, -⟩ := File.edit_frame g0 f.nodes.length hact
    (fun n => { n with content := k n.content }) tUpd
  have hna := hn a
  simp only [hne, if_false] at hna
  have hnn := hn f.nodes.length
  simp only [if_true] at hnn
  refine ⟨e1.trans hlen, e3.trans hact, ?_, ?_, ?_, ?_, ?_, ?_, ?_, ?_, ?_, ?_, ?_, ?_,
    e4.trans htot, e2.trans hroot⟩
  · rw [hnn, hnew]; rfl
  · rw [hna, hold]
  · rw [hnn, hnew]; rfl
  · intro q hq
    rw [h.ids q hq, h.total]
    exact_mod_cast hq
  · rw [hnn, hnew]; rfl
  · rw [hnn, hnew]; rfl
  · rw [hna, hold]
  · rw [hna, hold]
  · rw [hna, hold]
  · rw [hna, hold]
  · rw [hna, hold]
  · intro q hqa hq
    have hqn : q ≠ f.nodes.length := by omega
    rw [hn q]
    simp only [hqn, if_false]
    exact hrest q hqa hqn

/-- C1 (as amended): in a reachable file with fewer than 101 versions whose
active version `a` is a snapshot, `insert(t)` and `update(t)` each create
exactly one node: it is the last child of `a`, its id is the old
`total_versions`, above every existing id, it starts with empty content and
holds exactly `t` after the call, and it is the active version; the content
and the message of `a`, and every other node, are unchanged. -/
theorem C1_branch_on_snapshot (f : File) (hr : f.Reachable) (a : Nat)
    (ha : f.active_version = some a) (hs : (f.node a).isSnapshot = true)
    (hroom : f.total_versions < 101) (t : String) (tNew tUpd : Int) :
    (∃ g, f.insert t tNew tUpd = some (g, []) ∧ File.BranchedWith f g a t) ∧
    (∃ g, f.update t tNew tUpd = some (g, []) ∧ File.BranchedWith f g a t) ∧
    (∃ g0, f.createNewVersion tNew = some g0 ∧ (g0.node f.nodes.length).content = "") := by
  have h := hr.inv
  have hlt : f.nodes.length < 101 := by
    have := h.total
    omega
  obtain ⟨g0, hg0, -, hlen, hact, htot, hroot, hnew, hold, hrest⟩ :=
    File.createNewVersion_spec h a ha hlt tNew
  refine ⟨⟨(g0.modifyNode f.nodes.length (fun n => { n with content := n.content ++ t })).updateTime
      tUpd, ?_, ?_⟩,
    ⟨(g0.modifyNode f.nodes.length (fun n => { n with content := t })).updateTime tUpd, ?_, ?_⟩,
    ⟨g0, hg0, ?_⟩⟩
  · unfold File.insert
    simp only [ha, hs, if_true, hg0, hact]
  · have := File.branchedWith_of_spec h a ha tNew (fun s => s ++ t) tUpd hlen hact htot hroot
      hnew hold hrest
    simpa using this
  · unfold File.update
    simp only [ha, hs, if_true, hg0, hact]
  · exact File.branchedWith_of_spec h a ha tNew (fun _ => t) tUpd hlen hact htot hroot
      hnew hold hrest
  · rw [hnew]; rfl

/-- The check of C1 on a freshly created file, whose root is a snapshot. -/
theorem C1_branch_on_snapshot_witness :
    File.fresh.active_version = some 0 ∧ (File.fresh.node 0).isSnapshot = true ∧
    File.fresh.total_versions < 101 ∧
    (∃ k, File.fresh.insert "hello" 2 3 = some (k, []) ∧ File.BranchedWith File.fresh k 0 "hello") ∧
    (∃ k, File.fresh.update "hello" 2 3 = some (k, []) ∧ File.BranchedWith File.fresh k 0 "hello") ∧
    (∃ g0, File.fresh.createNewVersion 2 = some g0 ∧
      (g0.node File.fresh.nodes.length).content = "") :=
  ⟨rfl, rfl, by decide,
    C1_branch_on_snapshot File.fresh File.fresh_reachable 0 rfl rfl (by decide) "hello" 2 3⟩

set_option maxRecDepth 100000 in
/-- C1, as stated, fails at the version table's capacity: the file reached by
the constructor and one hundred `insert`/`snapshot` rounds has 101 versions
and an active snapshot, and neither `insert` nor `update` returns on it, so
no node is created. -/
theorem C1_counterexample :
    File.fullExample.map (fun f =>
      (f.total_versions, f.active_version.map (fun a => (f.node a).isSnapshot),
        (f.insert "y" 6 7).isSome, (f.update "y" 6 7).isSome)) =
      some (101, some true, false, false) := by
  decide

/-- The walk of `history` from a node `c` of a well-shaped file ends, and
what it collects are the snapshots on the chain of parents from `c` to the
root. -/
theorem File.Inv.historyWalk_spec {f : File} (h : f.Inv) :
    ∀ c, c < f.nodes.length → ∀ fuel, c < fuel →
      ∃ up : List Nat,
        f.historyWalk fuel (some c) = some (up.filter (fun p => (f.node p).isSnapshot)) ∧
        up.head? = some c ∧ up.getLast? = some 0 ∧
        up.Chain' (fun x p => (f.node x).parent = some p) ∧
        up.Pairwise (fun x y => y < x) ∧ (∀ x ∈ up, x ≤ c) := by
  intro c
  induction c using Nat.strong_induction_on with
  | _ c ih =>
    intro hc fuel hfuel
    obtain ⟨k, rfl⟩ : ∃ k, fuel = k + 1 := ⟨fuel - 1, by omega⟩
    by_cases h0 : c = 0
    · subst h0
      refine ⟨[0], ?_, rfl, rfl, List.chain'_singleton _, List.pairwise_singleton _ _, ?_⟩
      · rw [File.historyWalk, h.parent_root]
        have : f.historyWalk k none = some [] := by
          cases k <;> rfl
        rw [this]
        by_cases hs : (f.node 0).isSnapshot = true <;> simp [hs]
      · intro x hx
        simp only [List.mem_singleton] at hx
        omega
    · obtain ⟨q, hq, hqc⟩ := h.parent_lt c (by omega) hc
      obtain ⟨up, hw, hhead, hlast, hchain, hpw, hle⟩ := ih q hqc (by omega) k (by omega)
      refine ⟨c :: up, ?_, rfl, ?_, ?_, ?_, ?_⟩
      · rw [File.historyWalk, hq, hw]
        by_cases hs : (f.node c).isSnapshot = true <;> simp [hs]
      · cases up with
        | nil => cases hhead
        | cons x xs => simpa using hlast
      · cases up with
        | nil => cases hhead
        | cons x xs =>
          simp only [List.head?_cons, Option.some.injEq] at hhead
          subst hhead
          exact List.Chain'.cons hq hchain
      · refine List.Pairwise.cons ?_ hpw
        intro x hx
        have := hle x hx
        omega
      · intro x hx
        rcases List.mem_cons.mp hx with rfl | hx
        · exact le_refl _
        · have := hle x hx
          omega

/-- A chain of parent links that starts at `c` and ends at a node without
parent is determined by `c`. -/
theorem File.upward_unique (f : File) : ∀ (r1 r2 : List Nat) (c : Nat),
    r1.head? = some c → r2.head? = some c →
    r1.Chain' (fun x p => (f.node x).parent = some p) →
    r2.Chain' (fun x p => (f.node x).parent = some p) →
    (∃ l, r1.getLast? = some l ∧ (f.node l).parent = none) →
    (∃ l, r2.getLast? = some l ∧ (f.node l).parent = none) → r1 = r2 := by
  intro r1
  induction r1 with
  | nil => intro r2 c h1; cases h1
  | cons x t1 ih =>
    intro r2 c h1 h2 c1 c2 l1 l2
    simp only [List.head?_cons, Option.some.injEq] at h1
    subst h1
    cases r2 with
    | nil => cases h2
    | cons y t2 =>
      simp only [List.head?_cons, Option.some.injEq] at h2
      subst h2
      cases t1 with
      | nil =>
        obtain ⟨l, hl, hp⟩ := l1
        simp only [List.getLast?_singleton, Option.some.injEq] at hl
        subst hl
        cases t2 with
        | nil => rfl
        | cons d t2 =>
          have := (List.chain'_cons.mp c2).1
          rw [hp] at this
          cases this
      | cons d t1 =>
        have hd := (List.chain'_cons.mp c1).1
        cases t2 with
        | nil =>
          obtain ⟨l, hl, hp⟩ := l2
          simp only [List.getLast?_singleton, Option.some.injEq] at hl
          subst hl
          rw [hp] at hd
          cases hd
        | cons d2 t2 =>
          have hd2 := (List.chain'_cons.mp c2).1
          rw [hd] at hd2
          cases hd2
          have := ih (d :: t2) d rfl rfl (List.chain'_cons.mp c1).2 (List.chain'_cons.mp c2).2
            (by simpa [List.getLast?_cons_cons] using l1)
            (by simpa [List.getLast?_cons_cons] using l2)
          rw [this]

/-- There is at most one parent path from the root to the active version. -/
theorem File.IsActivePath.unique {f : File} {p1 p2 : List Nat} (h1 : f.IsActivePath p1)
    (h2 : f.IsActivePath p2) : p1 = p2 := by
  obtain ⟨a1, a2, a3, a4⟩ := h1
  obtain ⟨b1, b2, b3, b4⟩ := h2
  cases ha : f.active_version with
  | none =>
    rw [ha] at a4 b4
    rw [List.getLast?_eq_none_iff] at a4 b4
    rw [a4, b4]
  | some a =>
    rw [ha] at a4 b4
    have := File.upward_unique f p1.reverse p2.reverse a
      (by rw [List.head?_reverse, a4]) (by rw [List.head?_reverse, b4])
      (by rw [List.chain'_reverse]; exact a3) (by rw [List.chain'_reverse]; exact b3)
      ⟨f.root, by rw [List.getLast?_reverse, a1], a2⟩
      ⟨f.root, by rw [List.getLast?_reverse, b1], b2⟩
    exact List.reverse_injective this

/-- C4: in a reachable file, `history` reports exactly the snapshots on the
parent path from the root to the active version, root first, with strictly
increasing ids; nodes without a snapshot time and nodes off the path are not
reported. -/
theorem C4_history_path (f : File) (hr : f.Reachable) :
    ∃ path : List Nat, f.IsActivePath path ∧ (∀ other, f.IsActivePath other → other = path) ∧
      f.historyNodes = some (path.filter (fun p => (f.node p).isSnapshot)) ∧
      ((path.filter (fun p => (f.node p).isSnapshot)).map
        (fun p => (f.node p).version_id)).Pairwise (fun x y => x < y) ∧
      f.history = some (.historyHeader ::
        (path.filter (fun p => (f.node p).isSnapshot)).map (fun p =>
          .historyLine (f.node p).version_id (f.node p).snapshot_timestamp (f.node p).message)) := by
  have h := hr.inv
  obtain ⟨a, ha, hal⟩ := h.active
  obtain ⟨up, hw, hhead, hlast, hchain, hpw, hle⟩ := h.historyWalk_spec a hal f.nodes.length hal
  have hnodes : f.historyNodes = some (up.reverse.filter (fun p => (f.node p).isSnapshot)) := by
    unfold File.historyNodes
    rw [ha, hw, Option.map_some', List.filter_reverse]
  have hpath : f.IsActivePath up.reverse := by
    refine ⟨?_, ?_, ?_, ?_⟩
    · rw [List.head?_reverse, hlast, h.root_eq]
    · rw [h.root_eq]; exact h.parent_root
    · rw [List.chain'_reverse]
      exact hchain
    · rw [List.getLast?_reverse, hhead, ha]
  refine ⟨up.reverse, hpath, fun other ho => ho.unique hpath, hnodes, ?_, ?_⟩
  · rw [List.pairwise_map]
    apply List.Pairwise.sublist (List.filter_sublist _)
    rw [List.pairwise_reverse]
    refine List.Pairwise.imp_of_mem ?_ hpw
    intro x y hx hy hxy
    have hx' := hle x hx
    have hy' := hle y hy
    rw [h.ids x (by omega), h.ids y (by omega)]
    exact_mod_cast hxy
  · unfold File.history
    rw [hnodes, Option.map_some']

/-- The check of C4 on the branched file `File.exampleTip`: the path from the
root to the active version 4 is 0, 1, 3, 4; version 4 is a draft and is not
reported; version 2 is a snapshot off the path and is not reported; the
history lists the versions 0, 1, 3 in this order. -/
theorem C4_history_path_witness :
    File.exampleTip.IsActivePath [0, 1, 3, 4] ∧
    (File.exampleTip.node 4).isSnapshot = false ∧
    (File.exampleTip.node 2).isSnapshot = true ∧
    File.exampleTip.historyNodes = some [0, 1, 3] ∧
    File.exampleTip.history = some [.historyHeader, .historyLine 0 1 "File created.",
      .historyLine 1 4 "s1", .historyLine 3 12 "s3"] := by
  obtain ⟨path, hp, huniq, hnodes, -, hhist⟩ :=
    C4_history_path File.exampleTip File.exampleTip_reachable
  have hpath : File.exampleTip.IsActivePath [0, 1, 3, 4] := by
    refine ⟨by decide, by decide, ?_, by decide⟩
    exact List.chain'_cons.mpr ⟨by decide, List.chain'_cons.mpr ⟨by decide,
      List.chain'_cons.mpr ⟨by decide, List.chain'_singleton _⟩⟩⟩
  have he := huniq [0, 1, 3, 4] hpath
  subst he
  exact ⟨hpath, by decide, by decide, hnodes.trans (by decide), hhist.trans (by decide)⟩

/-! ## FileMap: the probing loops -/

theorem FileMap.pos_lt (m : FileMap) (hc : 0 < m.capacity) (h d : Nat) : m.pos h d < m.capacity :=
  Nat.mod_lt _ hc

theorem FileMap.pos_zero (m : FileMap) (h : Nat) (hh : h < m.capacity) : m.pos h 0 = h := by
  unfold FileMap.pos
  rw [Nat.add_zero]
  exact Nat.mod_eq_of_lt hh

theorem FileMap.pos_cap (m : FileMap) (h : Nat) (hh : h < m.capacity) :
    m.pos h m.capacity = h := by
  unfold FileMap.pos
  rw [Nat.add_mod_right]
  exact Nat.mod_eq_of_lt hh

theorem FileMap.pos_succ (m : FileMap) (h d : Nat) :
    (m.pos h d + 1) % m.capacity = m.pos h (d + 1) := by
  unfold FileMap.pos
  rw [Nat.mod_add_mod, Nat.add_assoc]

theorem FileMap.pos_inj (m : FileMap) (h d1 d2 : Nat) (h1 : d1 < m.capacity)
    (h2 : d2 < m.capacity) (he : m.pos h d1 = m.pos h d2) : d1 = d2 := by
  unfold FileMap.pos at he
  have h3 : d1 ≡ d2 [MOD m.capacity] := Nat.ModEq.add_left_cancel' h he
  have h4 : d1 % m.capacity = d2 % m.capacity := h3
  rwa [Nat.mod_eq_of_lt h1, Nat.mod_eq_of_lt h2] at h4

theorem tmod_bounds (x : Int) (c : Nat) (hc : 0 < c) :
    -(c : Int) < Int.tmod x (c : Int) ∧ Int.tmod x (c : Int) < (c : Int) := by
  have hc2 : (0 : Int) < (c : Int) := by exact_mod_cast hc
  refine ⟨?_, Int.tmod_lt_of_pos _ hc2⟩
  cases x with
  | ofNat n =>
    have := Int.tmod_nonneg (c : Int) (Int.ofNat_nonneg n)
    have h2 : Int.ofNat n = (n : Int) := rfl
    rw [h2]
    omega
  | negSucc n =>
    have h1 : Int.tmod (Int.negSucc n) (c : Int) = -(((n + 1) % c : Nat) : Int) := rfl
    rw [h1]
    have := Nat.mod_lt (n + 1) hc
    omega

/-- The hash is below the capacity, and above its negative. -/
theorem FileMap.hashFunction_bounds (m : FileMap) (hc : 0 < m.capacity) (key : String) :
    -(m.capacity : Int) < m.hashFunction key ∧ m.hashFunction key < (m.capacity : Int) := by
  unfold FileMap.hashFunction
  have hc2 : (0 : Int) < (m.capacity : Int) := by exact_mod_cast hc
  have : ∀ (l : List Nat) (a : Int), (-(m.capacity : Int) < a ∧ a < (m.capacity : Int)) →
      (-(m.capacity : Int) <
          l.foldl (fun hash b => Int.tmod (wrapInt (hash * 31 + charValue b)) (m.capacity : Int)) a ∧
        l.foldl (fun hash b => Int.tmod (wrapInt (hash * 31 + charValue b)) (m.capacity : Int)) a
          < (m.capacity : Int)) := by
    intro l
    induction l with
    | nil => intro a ha; exact ha
    | cons c l ih =>
      intro a _
      exact ih _ (tmod_bounds _ _ hc)
  exact this _ _ ⟨by omega, hc2⟩

theorem FileMap.index_lt (m : FileMap) (hc : 0 < m.capacity) (key : String) :
    m.index key < m.capacity := by
  have := (m.hashFunction_bounds hc key).2
  unfold FileMap.index
  omega

theorem FileMap.Entry.holds_eq (e : FileMap.Entry) (key : String) :
    e.holds key = (e.live && e.key == key) := rfl

theorem FileMap.Entry.occupied_of_live (e : FileMap.Entry) (h : e.live = true) :
    e.occupied = true := by
  unfold FileMap.Entry.live at h
  unfold FileMap.Entry.occupied
  cases h1 : e.is_empty <;> simp_all

/-- The loop of `get` and `erase` returns a slot that holds the key. -/
theorem FileMap.findProbe_sound (m : FileMap) (key : String) (start : Nat) (hc : 0 < m.capacity)
    (i : Nat) : ∀ fuel index, index < m.capacity →
      m.findProbe key start fuel index = some (some i) →
      i < m.capacity ∧ (m.slot i).holds key = true := by
  intro fuel
  induction fuel with
  | zero => intro index _ h; cases h
  | succ fuel ih =>
    intro index hi h
    rw [FileMap.findProbe] at h
    by_cases ho : (m.slot index).occupied = true
    · simp only [ho, if_true] at h
      by_cases hh : (!(m.slot index).is_empty &&
          !(m.slot index).is_deleted &&
          (m.slot index).key == key) = true
      · simp only [hh, if_true] at h
        cases h
        exact ⟨hi, hh⟩
      · simp only [hh, if_false] at h
        by_cases hs : ((index + 1) % m.capacity == start) = true
        · simp only [hs, if_true] at h
          cases h
        · simp only [hs, if_false] at h
          exact ih _ (Nat.mod_lt _ hc) h
    · simp only [ho, if_false] at h
      cases h

/-- The loop of `get` and `erase` ends within `capacity` iterations. -/
theorem FileMap.findProbe_isSome (m : FileMap) (key : String) (h : Nat) (hh : h < m.capacity) :
    ∀ fuel d, fuel + d = m.capacity → d < m.capacity →
      (m.findProbe key h fuel (m.pos h d)).isSome = true := by
  intro fuel
  induction fuel with
  | zero => intro d h1 h2; omega
  | succ fuel ih =>
    intro d h1 h2
    rw [FileMap.findProbe]
    by_cases ho : (m.slot (m.pos h d)).occupied = true
    · simp only [ho, if_true]
      by_cases hk : (!(m.slot (m.pos h d)).is_empty &&
          !(m.slot (m.pos h d)).is_deleted &&
          (m.slot (m.pos h d)).key == key) = true
      · simp only [hk, if_true, Option.isSome_some]
      · simp only [hk, Bool.false_eq_true, if_false]
        by_cases hs : ((m.pos h d + 1) % m.capacity == h) = true
        · simp only [hs, if_true, Option.isSome_some]
        · simp only [hs, Bool.false_eq_true, if_false]
          rw [FileMap.pos_succ]
          apply ih (d + 1) (by omega)
          by_contra hge
          have hd : d + 1 = m.capacity := by omega
          apply hs
          rw [FileMap.pos_succ, hd, FileMap.pos_cap m h hh]
          exact beq_self_eq_true h
    · simp only [ho, Bool.false_eq_true, if_false, Option.isSome_some]

/-- When the probe from `h` meets the key after `D` occupied slots that do not
hold it, the loop of `get` and `erase` ends at that slot. -/
theorem FileMap.findProbe_hit (m : FileMap) (key : String) (h : Nat) (hh : h < m.capacity)
    (D : Nat) (hD : D < m.capacity) (hhit : (m.slot (m.pos h D)).holds key = true) :
    ∀ fuel d, fuel + d = m.capacity → d ≤ D →
      (∀ d', d ≤ d' → d' < D →
        (m.slot (m.pos h d')).occupied = true ∧ (m.slot (m.pos h d')).holds key = false) →
      m.findProbe key h fuel (m.pos h d) = some (some (m.pos h D)) := by
  intro fuel
  induction fuel with
  | zero => intro d h1 h2; omega
  | succ fuel ih =>
    intro d h1 h2 hbefore
    rw [FileMap.findProbe]
    by_cases hdD : d = D
    · subst hdD
      have hl : (m.slot (m.pos h d)).live = true := by
        rw [FileMap.Entry.holds_eq] at hhit
        exact (Bool.and_eq_true _ _ ▸ hhit).1
      have ho := FileMap.Entry.occupied_of_live _ hl
      unfold FileMap.Entry.holds at hhit
      simp only [ho, if_true, hhit]
    · have hlt : d < D := by omega
      obtain ⟨ho, hn⟩ := hbefore d (le_refl d) hlt
      unfold FileMap.Entry.holds at hn
      simp only [ho, if_true, hn, Bool.false_eq_true, if_false]
      have hs : ((m.pos h d + 1) % m.capacity == h) = false := by
        rw [beq_eq_false_iff_ne, FileMap.pos_succ]
        intro he
        have := FileMap.pos_inj m h (d + 1) 0 (by omega) (by omega)
          (by rw [he, FileMap.pos_zero m h hh])
        omega
      simp only [hs, Bool.false_eq_true, if_false]
      rw [FileMap.pos_succ]
      exact ih (d + 1) (by omega) (by omega) (fun d' h3 h4 => hbefore d' (by omega) h4)

theorem FileMap.find_hit (m : FileMap) (key : String) (hc : 0 < m.capacity)
    (D : Nat) (hD : D < m.capacity)
    (hhit : (m.slot (m.pos (m.index key) D)).holds key = true)
    (hbefore : ∀ d, d < D → (m.slot (m.pos (m.index key) d)).occupied = true ∧
      (m.slot (m.pos (m.index key) d)).holds key = false) :
    m.find key = some (m.pos (m.index key) D) := by
  have hh := m.index_lt hc key
  have := FileMap.findProbe_hit m key _ hh D hD hhit m.capacity 0 (by omega) (by omega)
    (fun d' _ h2 => hbefore d' h2)
  rw [FileMap.pos_zero m _ hh] at this
  unfold FileMap.find
  rw [this]
  rfl

theorem FileMap.find_sound (m : FileMap) (key : String) (hc : 0 < m.capacity) (i : Nat)
    (h : m.find key = some i) : i < m.capacity ∧ (m.slot i).holds key = true := by
  unfold FileMap.find at h
  cases hp : m.findProbe key (m.index key) m.capacity (m.index key) with
  | none => rw [hp] at h; cases h
  | some r =>
    rw [hp] at h
    simp only [Option.getD_some] at h
    subst h
    exact FileMap.findProbe_sound m key _ hc i _ _ (m.index_lt hc key) hp

/-! ### Keys of character codes 0 .. 127 -/

theorem wrapInt_of_small (x : Int) (h0 : 0 ≤ x) (h1 : x < 2 ^ 31) : wrapInt x = x := by
  unfold wrapInt
  omega

theorem stringBytes_ascii (key : String) (hascii : ∀ c ∈ key.data, c.toNat ≤ 127) :
    stringBytes key = key.data.map Char.toNat := by
  unfold stringBytes
  have : ∀ l : List Char, (∀ c ∈ l, c.toNat ≤ 127) → l.flatMap charBytes = l.map Char.toNat := by
    intro l
    induction l with
    | nil => intro _; rfl
    | cons c cs ih =>
      intro h
      have hc := h c (List.mem_cons_self _ _)
      have h1 : charBytes c = [c.toNat] := by
        unfold charBytes
        rw [if_pos (by omega)]
      rw [List.flatMap_cons, h1, ih (fun d hd => h d (List.mem_cons_of_mem _ hd))]
      rfl
  exact this _ hascii

/-- One step of the hash loop on a byte below 128, for the capacity 101: no
overflow, no negative value. -/
theorem FileMap.hash_step_ascii (a b : Nat) (ha : a < 101) (hb : b ≤ 127) :
    Int.tmod (wrapInt ((a : Int) * 31 + charValue b)) ((101 : Nat) : Int) =
      (((a * 31 + b) % 101 : Nat) : Int) := by
  have hv : charValue b = (b : Int) := by
    unfold charValue
    rw [if_pos (by omega)]
  rw [hv, wrapInt_of_small _ (by omega) (by omega)]
  rw [Int.tmod_eq_emod (by omega) (by omega)]
  push_cast
  rfl

theorem FileMap.hash_fold_ascii (l : List Char) (hl : ∀ c ∈ l, c.toNat ≤ 127) :
    ∀ a : Nat, a < 101 →
      (l.map Char.toNat).foldl
          (fun hash b => Int.tmod (wrapInt (hash * 31 + charValue b)) ((101 : Nat) : Int)) (a : Int) =
        ((l.foldl (fun hash c => (hash * 31 + c.toNat) % 101) a : Nat) : Int) := by
  induction l with
  | nil => intro a _; rfl
  | cons c cs ih =>
    intro a ha
    simp only [List.map_cons, List.foldl_cons]
    rw [FileMap.hash_step_ascii a c.toNat ha (hl c (List.mem_cons_self _ _))]
    exact ih (fun d hd => hl d (List.mem_cons_of_mem _ hd)) _ (Nat.mod_lt _ (by decide))

/-- For the capacity 101 and a key of character codes at most 127 the hash is
the step-wise reduced polynomial hash of the codes, a natural number. -/
theorem FileMap.hashFunction_ascii (m : FileMap) (hcap : m.capacity = 101) (key : String)
    (hascii : ∀ c ∈ key.data, c.toNat ≤ 127) :
    m.hashFunction key =
      ((key.data.foldl (fun hash c => (hash * 31 + c.toNat) % 101) 0 : Nat) : Int) := by
  unfold FileMap.hashFunction
  rw [hcap, stringBytes_ascii key hascii]
  exact FileMap.hash_fold_ascii key.data hascii 0 (by decide)

/-- For the capacity 101 the hash of a key of character codes at most 127 is
a slot index. -/
theorem FileMap.outside_ascii (m : FileMap) (hcap : m.capacity = 101) (key : String)
    (hascii : ∀ c ∈ key.data, c.toNat ≤ 127) : m.outside key = false := by
  unfold FileMap.outside
  rw [FileMap.hashFunction_ascii m hcap key hascii]
  simp

/-! ### The methods on a key whose hash is a slot index -/

theorem FileMap.get_eq (m : FileMap) (key : String) (h : m.outside key = false) :
    m.get key = some (m.getIn key) := by
  unfold FileMap.get FileMap.getIn
  by_cases hk : key.isEmpty = true
  · simp only [hk, if_true]
  · simp only [hk, h, Bool.false_eq_true, if_false]

theorem FileMap.contains_eq (m : FileMap) (key : String) (h : m.outside key = false) :
    m.contains key = some (m.containsIn key) := by
  unfold FileMap.contains FileMap.containsIn
  rw [FileMap.get_eq m key h]
  rfl

theorem FileMap.insert_eq (m : FileMap) (key : String) (v : Option Nat)
    (h : m.outside key = false) : m.insert key v = some (m.insertIn key v) := by
  unfold FileMap.insert FileMap.insertIn
  by_cases hk : (key.isEmpty || v == none) = true
  · simp only [hk, if_true]
  · simp only [hk, h, Bool.false_eq_true, if_false]

theorem FileMap.erase_eq (m : FileMap) (key : String) (h : m.outside key = false) :
    m.erase key = some (m.eraseIn key) := by
  unfold FileMap.erase FileMap.eraseIn
  by_cases hk : key.isEmpty = true
  · simp only [hk, if_true]
  · simp only [hk, h, Bool.false_eq_true, if_false]

/-- A call with a defined result returns what the method does from the slot
`index key`. -/
theorem FileMap.insertIn_of_insert (m g : FileMap) (key : String) (v : Option Nat)
    (h : m.insert key v = some g) : g = m.insertIn key v := by
  unfold FileMap.insert at h
  by_cases hk : (key.isEmpty || v == none) = true
  · simp only [hk, if_true, Option.some.injEq] at h
    unfold FileMap.insertIn
    simp only [hk, if_true]
    exact h.symm
  · cases ho : m.outside key
    · simp only [hk, ho, Bool.false_eq_true, if_false, Option.some.injEq] at h
      exact h.symm
    · simp [hk, ho] at h

theorem FileMap.eraseIn_of_erase (m g : FileMap) (key : String) (h : m.erase key = some g) :
    g = m.eraseIn key := by
  unfold FileMap.erase at h
  by_cases hk : key.isEmpty = true
  · simp only [hk, if_true, Option.some.injEq] at h
    unfold FileMap.eraseIn
    simp only [hk, if_true]
    exact h.symm
  · cases ho : m.outside key
    · simp only [hk, ho, Bool.false_eq_true, if_false, Option.some.injEq] at h
      exact h.symm
    · simp [hk, ho] at h

theorem FileMap.Entry.insertTest_eq (e : FileMap.Entry) (key : String) :
    (e.key == key && !e.is_empty && !e.is_deleted) = e.holds key := by
  unfold FileMap.Entry.holds
  cases e.is_empty <;> cases e.is_deleted <;> cases (e.key == key) <;> rfl

/-- The loop of `FileMap::insert` ends within `capacity` iterations, in a
state described by `FileMap.ExitSpec`. -/
theorem FileMap.insertProbe_spec (m : FileMap) (key : String) (h : Nat) (hh : h < m.capacity) :
    ∀ fuel d0 fd0, fuel + d0 = m.capacity → d0 < m.capacity →
      (∀ d, d < d0 → (m.slot (m.pos h d)).occupied = true ∧ (m.slot (m.pos h d)).holds key = false) →
      (∀ s, fd0 = some s → ∃ D, D < d0 ∧ s = m.pos h D ∧ (m.slot s).is_deleted = true) →
      (fd0 = none → ∀ d, d < d0 → (m.slot (m.pos h d)).is_deleted = false) →
      ∃ exit, m.insertProbe key h fuel (m.pos h d0) fd0 = some exit ∧ m.ExitSpec key h exit := by
  intro fuel
  induction fuel with
  | zero => intro d0 fd0 h1 h2; omega
  | succ fuel ih =>
    intro d0 fd0 h1 h2 hbefore hfd hnone
    rw [FileMap.insertProbe]
    simp only [FileMap.Entry.insertTest_eq]
    by_cases ho : (m.slot (m.pos h d0)).occupied = true
    · have ho' := ho
      simp only [ho', if_true]
      by_cases hk : (m.slot (m.pos h d0)).holds key = true
      · have hk' := hk
        simp only [hk', if_true]
        exact ⟨_, rfl, d0, h2, rfl, hk, hbefore⟩
      · have hk2 : (m.slot (m.pos h d0)).holds key = false := by
          cases hb : (m.slot (m.pos h d0)).holds key
          · rfl
          · exact absurd hb hk
        have hk' := hk2
        simp only [hk', Bool.false_eq_true, if_false]
        -- the facts about the slots probed so far, this one included
        have hbefore' : ∀ d, d < d0 + 1 →
            (m.slot (m.pos h d)).occupied = true ∧ (m.slot (m.pos h d)).holds key = false := by
          intro d hd
          by_cases hdd : d = d0
          · subst hdd; exact ⟨ho, hk2⟩
          · exact hbefore d (by omega)
        have hfd' : ∀ s,
            (if ((m.slot (m.pos h d0)).is_deleted && fd0 == none) = true
              then some (m.pos h d0) else fd0) = some s →
            ∃ D, D < d0 + 1 ∧ s = m.pos h D ∧ (m.slot s).is_deleted = true := by
          intro s hs
          split at hs
          · rename_i hc
            cases hs
            rw [Bool.and_eq_true] at hc
            exact ⟨d0, by omega, rfl, hc.1⟩
          · obtain ⟨D, hD, hs1, hs2⟩ := hfd s hs
            exact ⟨D, by omega, hs1, hs2⟩
        have hnone' :
            (if ((m.slot (m.pos h d0)).is_deleted && fd0 == none) = true
              then some (m.pos h d0) else fd0) = none →
            ∀ d, d < d0 + 1 → (m.slot (m.pos h d)).is_deleted = false := by
          intro hn d hd
          split at hn
          · cases hn
          · rename_i hc
            subst hn
            by_cases hdd : d = d0
            · subst hdd
              cases hb : (m.slot (m.pos h d)).is_deleted
              · rfl
              · exfalso
                apply hc
                rw [hb]
                rfl
            · exact hnone rfl d (by omega)
        by_cases hs : ((m.pos h d0 + 1) % m.capacity == h) = true
        · simp only [hs, if_true]
          refine ⟨_, rfl, ?_⟩
          have hd : d0 + 1 = m.capacity := by
            by_contra hne
            rw [FileMap.pos_succ, beq_iff_eq] at hs
            have := FileMap.pos_inj m h (d0 + 1) 0 (by omega) (by omega)
              (by rw [hs, FileMap.pos_zero m h hh])
            omega
          refine ⟨d0 + 1, by omega, FileMap.pos_succ m h d0, hbefore', Or.inl hd, hfd', hnone'⟩
        · simp only [hs, Bool.false_eq_true, if_false]
          rw [FileMap.pos_succ]
          have hd : d0 + 1 < m.capacity := by
            by_contra hge
            have hd : d0 + 1 = m.capacity := by omega
            apply hs
            rw [FileMap.pos_succ, hd, FileMap.pos_cap m h hh]
            exact beq_self_eq_true h
          exact ih (d0 + 1) _ (by omega) hd hbefore' hfd' hnone'
    · have ho2 : (m.slot (m.pos h d0)).occupied = false := by
        cases hb : (m.slot (m.pos h d0)).occupied
        · rfl
        · exact absurd hb ho
      have ho' := ho2
      simp only [ho', Bool.false_eq_true, if_false]
      exact ⟨_, rfl, d0, by omega, rfl, hbefore, Or.inr ho2, hfd, hnone⟩

theorem FileMap.insertProbe_start (m : FileMap) (key : String) (hc : 0 < m.capacity) :
    ∃ exit, m.insertProbe key (m.index key) m.capacity (m.index key) none = some exit ∧
      m.ExitSpec key (m.index key) exit := by
  have hh := m.index_lt hc key
  have := FileMap.insertProbe_spec m key _ hh m.capacity 0 none (by omega) hc
    (fun d hd => absurd hd (Nat.not_lt_zero d)) (fun s hs => by cases hs)
    (fun _ d hd => absurd hd (Nat.not_lt_zero d))
  rwa [FileMap.pos_zero m _ hh] at this

/-! ## FileMap: writes, lookups after writes, and the shape of reachable tables -/

theorem FileMap.slot_write (m : FileMap) (i j : Nat) (e : FileMap.Entry) :
    (m.write i e).slot j = if i = j ∧ i < m.entries.length then e else m.slot j := by
  unfold FileMap.write FileMap.slot
  exact getD_set _ _ _ _ _

theorem FileMap.slot_write_self (m : FileMap) (i : Nat) (e : FileMap.Entry)
    (hi : i < m.entries.length) : (m.write i e).slot i = e := by
  rw [FileMap.slot_write]
  simp [hi]

theorem FileMap.slot_write_ne (m : FileMap) (i j : Nat) (e : FileMap.Entry) (hij : i ≠ j) :
    (m.write i e).slot j = m.slot j := by
  rw [FileMap.slot_write]
  simp [hij]

/-- After a live entry for `key` is written at the slot the probe reaches
through occupied slots not holding `key`, `get` returns its value. -/
theorem FileMap.get_write_hit (m : FileMap) (hc : 0 < m.capacity)
    (hlen : m.entries.length = m.capacity) (key : String) (hne : key.isEmpty = false)
    (D : Nat) (hD : D < m.capacity)
    (hbefore : ∀ d, d < D → (m.slot (m.pos (m.index key) d)).occupied = true ∧
      (m.slot (m.pos (m.index key) d)).holds key = false)
    (e : FileMap.Entry) (he : e.holds key = true) :
    (m.write (m.pos (m.index key) D) e).getIn key = e.value := by
  have hpos : m.pos (m.index key) D < m.entries.length := by
    rw [hlen]; exact m.pos_lt hc _ _
  have hfind : (m.write (m.pos (m.index key) D) e).find key
      = some (m.pos (m.index key) D) := by
    apply FileMap.find_hit (m.write (m.pos (m.index key) D) e) key hc D hD
    · show ((m.write _ e).slot (m.pos (m.index key) D)).holds key = true
      rw [FileMap.slot_write_self m _ e hpos]
      exact he
    · intro d hd
      show ((m.write _ e).slot (m.pos (m.index key) d)).occupied = true ∧
        ((m.write _ e).slot (m.pos (m.index key) d)).holds key = false
      have hne' : m.pos (m.index key) D ≠ m.pos (m.index key) d := by
        intro heq
        have := FileMap.pos_inj m _ D d hD (by omega) heq
        omega
      rw [FileMap.slot_write_ne m _ _ e hne']
      exact hbefore d hd
  unfold FileMap.getIn
  simp only [hne, Bool.false_eq_true, if_false, hfind]
  exact congrArg FileMap.Entry.value (FileMap.slot_write_self m _ e hpos)

/-- A key that has just been inserted with a non-null value is found, in
every table whose array has `capacity` slots. -/
theorem FileMap.get_insert (m : FileMap) (hc : 0 < m.capacity)
    (hlen : m.entries.length = m.capacity) (key : String) (hne : key.isEmpty = false)
    (v : Option Nat) (hv : v ≠ none) : (m.insertIn key v).getIn key = v := by
  obtain ⟨exit, hexit, hspec⟩ := FileMap.insertProbe_start m key hc
  have hv' : (v == none) = false := by
    cases v with
    | none => exact absurd rfl hv
    | some _ => rfl
  have hnew : (⟨key, v, false, false⟩ : FileMap.Entry).holds key = true := by
    simp [FileMap.Entry.holds]
  unfold FileMap.insertIn
  simp only [hne, hv', Bool.or_self, Bool.false_eq_true, if_false, hexit]
  cases exit with
  | overwrite i =>
    obtain ⟨D, hD, hi, hhold, hbefore⟩ := hspec
    subst hi
    simp only
    have := FileMap.get_write_hit m hc hlen key hne D hD hbefore
      { m.slot (m.pos (m.index key) D) with value := v } hhold
    exact this
  | place idx fd =>
    obtain ⟨E, hE, hidx, hbefore, hstop, hfd, -⟩ := hspec
    cases fd with
    | some s =>
      obtain ⟨D, hD, hs, -⟩ := hfd s rfl
      subst hs
      simp only
      exact FileMap.get_write_hit m hc hlen key hne D (by omega)
        (fun d hd => hbefore d (by omega)) _ hnew
    | none =>
      simp only
      by_cases hEc : E = m.capacity
      · have hh := m.index_lt hc key
        have h0 : idx = m.pos (m.index key) 0 := by
          rw [hidx, hEc, FileMap.pos_cap m _ hh, FileMap.pos_zero m _ hh]
        rw [h0]
        exact FileMap.get_write_hit m hc hlen key hne 0 hc
          (fun d hd => absurd hd (Nat.not_lt_zero d)) _ hnew
      · rw [hidx]
        exact FileMap.get_write_hit m hc hlen key hne E (by omega) hbefore _ hnew

/-- Writing an occupied entry keeps the shape when the entry is a tombstone,
or a live entry whose key is live nowhere else and is reached from its hash
through occupied slots. -/
theorem FileMap.Inv.write {m : FileMap} (h : m.Inv) (i : Nat) (e : FileMap.Entry)
    (hocc : e.occupied = true)
    (hcase : e.live = false ∨
      ((e.key.isEmpty = false ∧ e.value ≠ none) ∧
        (∀ j, j ≠ i → (m.slot j).live = true → (m.slot j).key ≠ e.key) ∧
        ∃ D, D < m.capacity ∧ i = m.pos (m.index e.key) D ∧
          ∀ d, d < D → (m.slot (m.pos (m.index e.key) d)).occupied = true)) :
    (m.write i e).Inv := by
  have hmono : ∀ x, (m.slot x).occupied = true → ((m.write i e).slot x).occupied = true := by
    intro x hx
    rw [FileMap.slot_write]
    split
    · exact hocc
    · exact hx
  have hlive : ∀ j, ((m.write i e).slot j).live = true →
      (j = i ∧ (m.write i e).slot j = e ∧ e.live = true) ∨
      (j ≠ i ∧ (m.write i e).slot j = m.slot j ∧ (m.slot j).live = true) := by
    intro j hj
    by_cases hji : j = i
    · subst hji
      by_cases hlt : j < m.entries.length
      · left
        rw [FileMap.slot_write_self m j e hlt] at hj
        exact ⟨rfl, FileMap.slot_write_self m j e hlt, hj⟩
      · exfalso
        rw [FileMap.slot_write] at hj
        simp only [hlt, and_false, if_false] at hj
        unfold FileMap.slot at hj
        rw [List.getD_eq_default _ _ (by omega)] at hj
        exact absurd hj (by decide)
    · right
      have := FileMap.slot_write_ne m i j e (fun x => hji x.symm)
      rw [this] at hj
      exact ⟨hji, this, hj⟩
  refine ⟨h.cap_pos, ?_, ?_, ?_, ?_⟩
  · show (m.entries.set i e).length = m.capacity
    rw [List.length_set]; exact h.len
  · intro j hj
    rcases hlive j hj with ⟨-, he, hl⟩ | ⟨-, he, hl⟩
    · rw [he]
      rcases hcase with hd | ⟨hk, -, -⟩
      · rw [hd] at hl; cases hl
      · exact hk
    · rw [he]; exact h.key_ne j hl
  · intro j1 j2 h1 h2 hkey
    rcases hlive j1 h1 with ⟨e1, he1, hl1⟩ | ⟨e1, he1, hl1⟩ <;>
    rcases hlive j2 h2 with ⟨e2, he2, hl2⟩ | ⟨e2, he2, hl2⟩
    · rw [e1, e2]
    · exfalso
      rcases hcase with hd | ⟨-, hno, -⟩
      · rw [hd] at hl1; cases hl1
      · rw [he1, he2] at hkey
        exact hno j2 e2 hl2 hkey.symm
    · exfalso
      rcases hcase with hd | ⟨-, hno, -⟩
      · rw [hd] at hl2; cases hl2
      · rw [he1, he2] at hkey
        exact hno j1 e1 hl1 hkey
    · rw [he1, he2] at hkey
      exact h.uniq j1 j2 hl1 hl2 hkey
  · intro j hj
    rcases hlive j hj with ⟨e1, he1, hl1⟩ | ⟨e1, he1, hl1⟩
    · rcases hcase with hd | ⟨-, -, D, hD, hi, hbefore⟩
      · rw [hd] at hl1; cases hl1
      · rw [he1]
        refine ⟨D, hD, ?_, fun d hd => hmono _ (hbefore d hd)⟩
        rw [e1]; exact hi
    · obtain ⟨D, hD, hi, hbefore⟩ := h.chain j hl1
      rw [he1]
      exact ⟨D, hD, hi, fun d hd => hmono _ (hbefore d hd)⟩

theorem FileMap.Entry.live_of_holds (e : FileMap.Entry) (key : String) (h : e.holds key = true) :
    e.live = true ∧ e.key = key := by
  rw [FileMap.Entry.holds_eq, Bool.and_eq_true] at h
  exact ⟨h.1, by simpa using h.2⟩

/-- When the loop of `insert` ends without meeting the key, no slot of a
well-shaped table holds the key. -/
theorem FileMap.Inv.no_holds_of_place {m : FileMap} (h : m.Inv) (key : String) (idx : Nat)
    (fd : Option Nat) (hspec : m.ExitSpec key (m.index key) (.place idx fd)) :
    ∀ j, (m.slot j).holds key = false := by
  obtain ⟨E, hE, hidx, hbefore, hstop, -, -⟩ := hspec
  intro j
  cases hj : (m.slot j).holds key with
  | false => rfl
  | true =>
    exfalso
    obtain ⟨hl, hk⟩ := FileMap.Entry.live_of_holds _ _ hj
    obtain ⟨D, hD, hjD, hchain⟩ := h.chain j hl
    rw [hk] at hjD hchain
    by_cases hDE : D < E
    · have := (hbefore D hDE).2
      rw [← hjD, hj] at this
      cases this
    · rcases hstop with hc | hno
      · omega
      · by_cases hED : E = D
        · subst hED
          rw [hidx, ← hjD, FileMap.Entry.occupied_of_live _ hl] at hno
          cases hno
        · have := hchain E (by omega)
          rw [← hidx, hno] at this
          cases this

theorem FileMap.Inv.after_insert {m : FileMap} (h : m.Inv) (key : String) (v : Option Nat) :
    (m.insertIn key v).Inv := by
  unfold FileMap.insertIn
  by_cases hg : (key.isEmpty || v == none) = true
  · simp only [hg, if_true]; exact h
  · simp only [hg, Bool.false_eq_true, if_false]
    have hne : key.isEmpty = false := by
      cases hb : key.isEmpty
      · rfl
      · exfalso; apply hg; rw [hb]; rfl
    have hv : v ≠ none := by
      intro hv
      apply hg
      rw [hv]
      simp
    obtain ⟨exit, hexit, hspec⟩ := FileMap.insertProbe_start m key h.cap_pos
    simp only [hexit]
    cases exit with
    | overwrite i =>
      obtain ⟨D, hD, hi, hhold, hbefore⟩ := hspec
      obtain ⟨hl, hk⟩ := FileMap.Entry.live_of_holds _ _ hhold
      simp only
      apply h.write
      · exact FileMap.Entry.occupied_of_live _ hl
      · right
        refine ⟨⟨by rw [hk]; exact hne, hv⟩, ?_, D, hD, by rw [hk]; exact hi, ?_⟩
        · intro j hji hjl hjk
          exact hji (h.uniq j i hjl hl hjk)
        · intro d hd
          rw [hk]
          exact (hbefore d hd).1
    | place idx fd =>
      have hno := h.no_holds_of_place key idx fd hspec
      have hnokey : ∀ j, (m.slot j).live = true → (m.slot j).key ≠ key := by
        intro j hjl hjk
        have := hno j
        rw [FileMap.Entry.holds_eq, hjl, hjk] at this
        simp at this
      obtain ⟨E, hE, hidx, hbefore, hstop, hfd, -⟩ := hspec
      have hh := m.index_lt h.cap_pos key
      cases fd with
      | some s =>
        obtain ⟨D, hD, hs, -⟩ := hfd s rfl
        simp only
        apply h.write
        · rfl
        · right
          exact ⟨⟨hne, hv⟩, fun j _ hjl => hnokey j hjl, D, by omega, hs,
            fun d hd => (hbefore d (by omega)).1⟩
      | none =>
        simp only
        apply h.write
        · rfl
        · right
          refine ⟨⟨hne, hv⟩, fun j _ hjl => hnokey j hjl, ?_⟩
          by_cases hEc : E = m.capacity
          · refine ⟨0, h.cap_pos, ?_, fun d hd => absurd hd (Nat.not_lt_zero d)⟩
            show idx = m.pos (m.index key) 0
            rw [hidx, hEc, FileMap.pos_cap m _ hh, FileMap.pos_zero m _ hh]
          · exact ⟨E, by omega, hidx, fun d hd => (hbefore d hd).1⟩

theorem FileMap.Inv.after_erase {m : FileMap} (h : m.Inv) (key : String) : (m.eraseIn key).Inv := by
  unfold FileMap.eraseIn
  split
  · exact h
  · split
    · exact h.write _ _ rfl (Or.inl rfl)
    · exact h

theorem FileMap.Inv.of_init (capacity : Nat) (hc : 0 < capacity) : (FileMap.init capacity).Inv := by
  have hslot : ∀ i, (FileMap.init capacity).slot i = ⟨"", none, true, false⟩ := by
    intro i
    unfold FileMap.slot FileMap.init
    by_cases hi : i < capacity
    · rw [List.getD_eq_getElem _ _ (by simpa using hi), List.getElem_replicate]
    · rw [List.getD_eq_default _ _ (by simp; omega)]
      rfl
  refine ⟨hc, by simp [FileMap.init], ?_, ?_, ?_⟩
  · intro i hi
    rw [hslot i] at hi
    cases hi
  · intro i j hi
    rw [hslot i] at hi
    cases hi
  · intro i hi
    rw [hslot i] at hi
    cases hi

theorem FileMap.capacity_insertIn (m : FileMap) (key : String) (v : Option Nat) :
    (m.insertIn key v).capacity = m.capacity := by
  unfold FileMap.insertIn
  split
  · rfl
  · split <;> rfl

theorem FileMap.capacity_eraseIn (m : FileMap) (key : String) :
    (m.eraseIn key).capacity = m.capacity := by
  unfold FileMap.eraseIn
  split
  · rfl
  · split <;> rfl

/-- The hash depends on the table through its capacity only. -/
theorem FileMap.outside_congr (m g : FileMap) (h : g.capacity = m.capacity) (key : String) :
    g.outside key = m.outside key := by
  unfold FileMap.outside FileMap.hashFunction
  rw [h]

/-- Every reachable table has the shape `FileMap.Inv` and the capacity 101. -/
theorem FileMap.Reachable.table_inv {m : FileMap} (h : m.Reachable) :
    m.Inv ∧ m.capacity = 101 := by
  induction h with
  | init => exact ⟨FileMap.Inv.of_init 101 (by decide), rfl⟩
  | step m g op _ hg ih =>
    cases op with
    | insert k v =>
      have := FileMap.insertIn_of_insert m g k v hg
      subst this
      exact ⟨ih.1.after_insert k v, (FileMap.capacity_insertIn m k v).trans ih.2⟩
    | erase k =>
      have := FileMap.eraseIn_of_erase m g k hg
      subst this
      exact ⟨ih.1.after_erase k, (FileMap.capacity_eraseIn m k).trans ih.2⟩

/-- In a well-shaped table an erased key is not found any more. -/
theorem FileMap.Inv.get_erase {m : FileMap} (h : m.Inv) (key : String) :
    (m.eraseIn key).getIn key = none := by
  by_cases hne : key.isEmpty = true
  · unfold FileMap.getIn
    simp only [hne, if_true]
  · have hne' : key.isEmpty = false := by
      cases hb : key.isEmpty
      · rfl
      · exact absurd hb hne
    have hinv := h.after_erase key
    cases hf : (m.eraseIn key).find key with
    | none =>
      unfold FileMap.getIn
      simp only [hne', Bool.false_eq_true, if_false, hf]
    | some j =>
      exfalso
      obtain ⟨hj, hhold⟩ := FileMap.find_sound _ key hinv.cap_pos j hf
      unfold FileMap.eraseIn at hhold
      simp only [hne', Bool.false_eq_true, if_false] at hhold
      cases hfm : m.find key with
      | none =>
        rw [hfm] at hhold
        simp only at hhold
        unfold FileMap.eraseIn at hf
        simp only [hne', Bool.false_eq_true, if_false, hfm] at hf
        cases hf
      | some i =>
        rw [hfm] at hhold
        simp only at hhold
        obtain ⟨hi, hhold_i⟩ := FileMap.find_sound _ key h.cap_pos i hfm
        by_cases hji : i = j
        · subst hji
          rw [FileMap.slot_write_self m i _ (by rw [h.len]; exact hi)] at hhold
          cases hhold
        · rw [FileMap.slot_write_ne m i j _ hji] at hhold
          obtain ⟨hl1, hk1⟩ := FileMap.Entry.live_of_holds _ _ hhold
          obtain ⟨hl2, hk2⟩ := FileMap.Entry.live_of_holds _ _ hhold_i
          exact hji (h.uniq i j hl2 hl1 (hk2.trans hk1.symm))

/-- Erase, then insert: for every reachable table, every non-empty key whose
hash is not negative (as it is for every key of character codes at most 127,
see `FileMap.outside_ascii`) and every non-null value: `erase(k)` returns,
after it `get(k)` returns null and `contains(k)` is false, and a following
`insert(k, v)` returns and makes `get(k)` return `v`. -/
theorem FileMap.erase_then_insert (m : FileMap) (hr : m.Reachable) (k : String) (hk : k ≠ "")
    (hin : m.outside k = false) (v : Option Nat) (hv : v ≠ none) :
    ∃ g, m.erase k = some g ∧ g.get k = some none ∧ g.contains k = some false ∧
      ∃ g2, g.insert k v = some g2 ∧ g2.get k = some v := by
  have h := hr.table_inv.1
  have hne : k.isEmpty = false := by
    cases hb : k.isEmpty
    · rfl
    · exact absurd ((String.isEmpty_iff k).mp hb) hk
  have hget := h.get_erase k
  have hinv := h.after_erase k
  have hin1 : (m.eraseIn k).outside k = false :=
    (FileMap.outside_congr m _ (FileMap.capacity_eraseIn m k) k).trans hin
  have hin2 : ((m.eraseIn k).insertIn k v).outside k = false :=
    (FileMap.outside_congr _ _ (FileMap.capacity_insertIn _ k v) k).trans hin1
  refine ⟨m.eraseIn k, FileMap.erase_eq m k hin, ?_, ?_,
    (m.eraseIn k).insertIn k v, FileMap.insert_eq _ k v hin1, ?_⟩
  · rw [FileMap.get_eq _ k hin1, hget]
  · rw [FileMap.contains_eq _ k hin1]
    unfold FileMap.containsIn
    rw [hget]
    rfl
  · rw [FileMap.get_eq _ k hin2, FileMap.get_insert _ hinv.cap_pos hinv.len k hne v hv]

/-- Erase, then insert, on the table of capacity 101 that holds the keys
`a.txt` and `b.txt`, for the key `a.txt`. -/
theorem FileMap.erase_then_insert_example :
    ("a.txt" : String) ≠ "" ∧
    (((FileMap.init 101).insertIn "a.txt" (some 0)).insertIn "b.txt" (some 1)).outside "a.txt"
      = false ∧
    (some 2 : Option Nat) ≠ none ∧
    ∃ g, (((FileMap.init 101).insertIn "a.txt" (some 0)).insertIn "b.txt" (some 1)).erase "a.txt"
        = some g ∧
      g.get "a.txt" = some none ∧ g.contains "a.txt" = some false ∧
      ∃ g2, g.insert "a.txt" (some 2) = some g2 ∧ g2.get "a.txt" = some (some 2) :=
  ⟨by decide, by decide, by decide,
    FileMap.erase_then_insert (((FileMap.init 101).insertIn "a.txt" (some 0)).insertIn "b.txt" (some 1))
      (FileMap.Reachable.step ((FileMap.init 101).insertIn "a.txt" (some 0)) _
        (.insert "b.txt" (some 1))
        (FileMap.Reachable.step (FileMap.init 101) ((FileMap.init 101).insertIn "a.txt" (some 0))
          (.insert "a.txt" (some 0)) FileMap.Reachable.init (by decide)) (by decide))
      "a.txt" (by decide) (by decide) (some 2) (by decide)⟩

/-- C8 fails on the code: the hash of the non-empty key `é`, whose two bytes
are negative `char` values, is -59 in the empty table of capacity 101, so
`erase`, `get`, `contains` and `insert` on this key index `entries` outside
the vector and have no defined result: after `erase`, `get` does not return
null. -/
theorem C8_negative_hash_no_result :
    FileMap.Reachable (FileMap.init 101) ∧ ("é" : String) ≠ "" ∧
    stringBytes "é" = [195, 169] ∧
    (FileMap.init 101).hashFunction "é" = -59 ∧
    (FileMap.init 101).erase "é" = none ∧
    (FileMap.init 101).get "é" = none ∧
    (FileMap.init 101).contains "é" = none ∧
    (FileMap.init 101).insert "é" (some 0) = none :=
  ⟨FileMap.Reachable.init, by decide, by decide, by decide, by decide, by decide, by decide,
    by decide⟩

/-! ## FileSystem: `create` -/

theorem FileMap.get_init (capacity : Nat) (hc : 0 < capacity) (key : String) :
    (FileMap.init capacity).getIn key = none := by
  unfold FileMap.getIn
  split
  · rfl
  · cases hf : (FileMap.init capacity).find key with
    | none => rfl
    | some i =>
      exfalso
      obtain ⟨-, hh⟩ := FileMap.find_sound _ key hc i hf
      obtain ⟨hl, -⟩ := FileMap.Entry.live_of_holds _ _ hh
      have := (FileMap.Inv.of_init capacity hc).key_ne i hl
      have hslot : (FileMap.init capacity).slot i = ⟨"", none, true, false⟩ := by
        unfold FileMap.slot FileMap.init
        by_cases hi : i < capacity
        · rw [List.getD_eq_getElem _ _ (by simpa using hi), List.getElem_replicate]
        · rw [List.getD_eq_default _ _ (by simp; omega)]
          rfl
      rw [hslot] at hl
      cases hl

/-- C5 (as amended): in a file system whose name table has the capacity 101,
for a non-empty name of character codes at most 127 the lookup of `create`
has a defined result. When the name is not registered, `create` registers a
new file with exactly one node, the root: id 0, empty content, message
"File created.", no parent and no child; the root is active and
`total_versions` is 1. The root is a snapshot exactly when the clock reading
stored as its snapshot time is not 0. For a registered name, `create` reports
an error and changes nothing. -/
theorem C5_create (s : FileSystem) (hcap : s.file_map.capacity = 101)
    (hlen : s.file_map.entries.length = s.file_map.capacity) (name : String) (hne : name ≠ "")
    (hascii : ∀ c ∈ name.data, c.toNat ≤ 127) (t1 t2 : Int) :
    (∃ b, s.file_map.contains name = some b) ∧
    (s.file_map.contains name = some false →
      ∃ f s', File.create "File created." t1 t2 = some f ∧
        s.handleCreate name t1 t2 = some (s', [.fileCreated name]) ∧
        s'.file_map.get name = some (some s.files.length) ∧ s'.file s.files.length = some f ∧
        s'.file_order = s.file_order ++ [name] ∧
        (∀ p, p < s.files.length → s'.file p = s.file p) ∧
        f.nodes = [TreeNode.ofMessage 0 "File created." t1 t2] ∧
        f.root = 0 ∧ f.active_version = some 0 ∧ f.total_versions = 1 ∧
        (f.node 0).version_id = 0 ∧ (f.node 0).content = "" ∧
        (f.node 0).message = "File created." ∧ (f.node 0).snapshot_timestamp = t2 ∧
        ((f.node 0).isSnapshot = true ↔ t2 ≠ 0)) ∧
    (s.file_map.contains name = some true →
      s.handleCreate name t1 t2 = some (s, [.errFileExists name])) := by
  have hne' : name.isEmpty = false := by
    cases hb : name.isEmpty
    · rfl
    · exact absurd ((String.isEmpty_iff name).mp hb) hne
  have hc : 0 < s.file_map.capacity := by omega
  have hin := FileMap.outside_ascii s.file_map hcap name hascii
  have hin2 : (s.file_map.insertIn name (some s.files.length)).outside name = false :=
    (FileMap.outside_congr _ _ (FileMap.capacity_insertIn _ name _) name).trans hin
  refine ⟨⟨_, FileMap.contains_eq _ name hin⟩, ?_, ?_⟩
  · intro hcont
    refine ⟨File.created "File created." t1 t2,
      ⟨s.files ++ [File.created "File created." t1 t2],
        s.file_map.insertIn name (some s.files.length), s.file_order ++ [name]⟩,
      File.create_eq _ _ _, ?_, ?_, ?_, rfl, ?_, rfl, rfl, rfl, rfl, rfl, rfl, rfl, rfl, ?_⟩
    · unfold FileSystem.handleCreate
      simp only [hcont, File.create_eq, FileMap.insert_eq _ name _ hin]
    · rw [FileMap.get_eq _ name hin2]
      exact congrArg some (FileMap.get_insert _ hc hlen name hne' _ (by simp))
    · simp [FileSystem.file]
    · intro p hp
      simp [FileSystem.file, List.getElem?_append_left hp]
    · simp [File.node, File.created, TreeNode.isSnapshot, TreeNode.ofMessage]
  · intro hcont
    unfold FileSystem.handleCreate
    simp only [hcont]

set_option maxRecDepth 100000 in
/-- The check of C5: on the empty file system, where `a.txt` is not
registered, and on the file system that holds `a.txt`, where it is. -/
theorem C5_create_witness :
    FileSystem.init.file_map.capacity = 101 ∧ ("a.txt" : String) ≠ "" ∧
    (∀ c ∈ ("a.txt" : String).data, c.toNat ≤ 127) ∧
    FileSystem.init.file_map.contains "a.txt" = some false ∧
    (∃ f s', File.create "File created." 1 1 = some f ∧
      FileSystem.init.handleCreate "a.txt" 1 1 = some (s', [.fileCreated "a.txt"]) ∧
      s'.file_map.get "a.txt" = some (some 0) ∧ s'.file 0 = some f ∧
      (f.node 0).isSnapshot = true) ∧
    (FileSystem.init.handleCreate "a.txt" 1 1).map Prod.fst = some FileSystem.oneFileExample ∧
    FileSystem.oneFileExample.file_map.contains "a.txt" = some true ∧
    FileSystem.oneFileExample.handleCreate "a.txt" 2 3 =
      some (FileSystem.oneFileExample, [.errFileExists "a.txt"]) := by
  obtain ⟨f, s', h1, h2, h3, h4, -, -, -, -, -, -, -, -, -, -, h5⟩ :=
    (C5_create FileSystem.init rfl (by decide) "a.txt" (by decide) (by decide) 1 1).2.1
      (by decide)
  exact ⟨rfl, by decide, by decide, by decide, ⟨f, s', h1, h2, h3, h4, h5.mpr (by decide)⟩,
    by decide, by decide,
    (C5_create FileSystem.oneFileExample rfl (by decide) "a.txt" (by decide) (by decide) 2 3).2.2
      (by decide)⟩

set_option maxRecDepth 100000 in
/-- C5, as stated, fails: the root of a newly created file is a snapshot, not
a draft, when the clock reads 1. -/
theorem C5_counterexample :
    (FileSystem.init.handleCreate "a.txt" 1 1).map (fun r =>
      r.1.files.map (fun f => ((f.node f.root).isSnapshot, (f.node f.root).snapshot_timestamp))) =
      some [(true, 1)] := by
  decide

/-! ## The scenario create, insert, snapshot, insert -/

/-- The file `insert` returns when it branches. -/
theorem File.insert_branch_eq {f : File} (h : f.Inv) (a : Nat) (ha : f.active_version = some a)
    (hs : (f.node a).isSnapshot = true) (hlt : f.nodes.length < 101) (x : String)
    (tNew tUpd : Int) :
    f.insert x tNew tUpd = some
      ({ nodes := ((f.nodes ++ [TreeNode.ofParent f.total_versions (some a) tNew]).set a
            { f.node a with children := (f.node a).children ++ [f.nodes.length] }).set
            f.nodes.length
            { TreeNode.ofParent f.total_versions (some a) tNew with
              content := x, created_timestamp := tUpd },
         root := f.root,
         active_version := some f.nodes.length,
         version_map :=
          { entries := f.version_map.entries.set f.nodes.length
              ⟨(f.nodes.length : Int), some f.nodes.length, false, false⟩,
            capacity := f.version_map.capacity },
         total_versions := f.total_versions + 1 }, []) := by
  obtain ⟨a', ha', hal⟩ := h.active
  rw [ha] at ha'
  cases ha'
  have hne : f.nodes.length ≠ a := by omega
  have hn := File.node_branch f a hal (TreeNode.ofParent f.total_versions (some a) tNew)
  have hna := hn a
  have hnn := hn f.nodes.length
  simp only [if_true, hne, if_false] at hna hnn
  have hget : (f.nodes ++ [TreeNode.ofParent f.total_versions (some a) tNew]).getD a default
      = f.node a := by
    rw [getD_append_one]
    simp [hal, File.node]
  unfold File.insert
  simp only [ha, hs, if_true, File.createNewVersion_eq h a ha hlt tNew]
  unfold File.updateTime
  simp only [File.modifyNode, File.node, List.set_set, List.length_set, List.length_append,
    List.length_singleton] at hna hnn hget ⊢
  rw [hget] at hnn ⊢
  rw [hnn]
  simp [getD_set, TreeNode.ofParent]

theorem File.scenario_steps (x m y : String) (t1 t2 t3 t4 t5 t6 t7 t8 : Int) (h2 : t2 ≠ 0)
    (h5 : t5 ≠ 0) :
    ∃ f1 f3 : File,
      (File.created "File created." t1 t2).insert x t3 t4 = some (f1, []) ∧
      (f1.snapshot m t5 t6).2 = [.snapshotCreated 1] ∧
      (f1.snapshot m t5 t6).1.insert y t7 t8 = some (f3, []) ∧
      f3.read = [.contentOf 2 y] ∧
      f3.history = some [.historyHeader, .historyLine 0 t2 "File created.", .historyLine 1 t5 m] := by
  have hinv0 : (File.created "File created." t1 t2).Inv :=
    File.Inv.create _ _ _ _ (File.create_eq _ _ _)
  obtain ⟨vm0, hvm0⟩ : ∃ vm0, File.created "File created." t1 t2 =
      ⟨[TreeNode.ofMessage 0 "File created." t1 t2], 0, some 0, vm0, 1⟩ := ⟨_, rfl⟩
  rw [hvm0] at hinv0 ⊢
  have h2' : (t2 != 0) = true := by simpa using h2
  have h5' : (t5 != 0) = true := by simpa using h5
  -- the first insert branches from the root
  have i1 := File.insert_branch_eq hinv0 0 rfl
    (by simp [File.node, TreeNode.isSnapshot, TreeNode.ofMessage, h2]) (by simp) x t3 t4
  have hinv1 := hinv0.insert x t3 t4 [] i1
  obtain ⟨vm1, hvm1⟩ : ∃ vm1 : VersionMap,
      ({ vm0 with entries := vm0.entries.set 1 ⟨1, some 1, false, false⟩ } : VersionMap) = vm1 :=
    ⟨_, rfl⟩
  simp only [File.node, List.getD_cons_zero, List.length_singleton, List.singleton_append,
    List.set_cons_zero, List.set_cons_succ, TreeNode.ofMessage, TreeNode.ofParent, List.nil_append,
    Nat.cast_one, hvm1] at i1 hinv1
  -- the snapshot marks node 1
  have hinv2 := hinv1.snapshot m t5 t6
  have s2 : ∀ f1 : File, f1 = ⟨[⟨0, "", "File created.", t1, t2, none, [1]⟩,
      ⟨1, x, "", t4, 0, some 0, []⟩], 0, some 1, vm1, 1 + 1⟩ →
      f1.snapshot m t5 t6 = (⟨[⟨0, "", "File created.", t1, t2, none, [1]⟩,
        ⟨1, x, m, t6, t5, some 0, []⟩], 0, some 1, vm1, 1 + 1⟩, [.snapshotCreated 1]) := by
    intro f1 hf1
    subst hf1
    simp [File.snapshot, File.node, TreeNode.isSnapshot, File.modifyNode, File.updateTime]
  have hs2 := congrArg Prod.fst (s2 _ rfl)
  simp only at hs2
  rw [hs2] at hinv2
  -- the second insert branches from node 1
  have i3 := File.insert_branch_eq hinv2 1 rfl
    (by simp [File.node, TreeNode.isSnapshot, h5]) (by simp) y t7 t8
  obtain ⟨vm3, hvm3⟩ : ∃ vm3 : VersionMap,
      ({ vm1 with entries := vm1.entries.set 2 ⟨2, some 2, false, false⟩ } : VersionMap) = vm3 :=
    ⟨_, rfl⟩
  simp only [File.node, List.getD_cons_zero, List.getD_cons_succ, List.length_cons,
    List.length_nil, List.length_singleton, List.cons_append, List.nil_append,
    List.set_cons_zero, List.set_cons_succ, TreeNode.ofParent, Nat.cast_ofNat,
    Nat.zero_add, Nat.reduceAdd, Nat.cast_one, hvm3] at i3
  rw [← hs2] at i3
  exact ⟨_, _, i1, by rw [s2 _ rfl], i3, by simp [File.read, File.node],
    by simp [File.history, File.historyNodes, File.historyWalk, File.node, TreeNode.isSnapshot,
      h2, h5]⟩

/-- C6 (as amended): for a non-empty name `f` of character codes at most 127,
when the clock does not read 0 at the creation and at the snapshot, the
commands create `f`, insert `f` `x`, snapshot `f` `m`, insert `f` `y` on the
empty file system all return and leave a file whose read returns
exactly `y`, as version 2, and whose history reports two snapshots: the root,
with the message "File created.", and then version 1 with the message `m`. -/
theorem C6_scenario (f x m y : String) (hf : f ≠ "")
    (hascii : ∀ c ∈ f.data, c.toNat ≤ 127) (t1 t2 t3 t4 t5 t6 t7 t8 : Int)
    (h2 : t2 ≠ 0) (h5 : t5 ≠ 0) :
    FileSystem.scenario f x m y t1 t2 t3 t4 t5 t6 t7 t8 =
      some ([.contentOf 2 y],
        [.historyHeader, .historyLine 0 t2 "File created.", .historyLine 1 t5 m]) := by
  have hne : f.isEmpty = false := by
    cases hb : f.isEmpty
    · rfl
    · exact absurd ((String.isEmpty_iff f).mp hb) hf
  obtain ⟨f1, f3, i1, s2, i3, hread, hhist⟩ :=
    File.scenario_steps x m y t1 t2 t3 t4 t5 t6 t7 t8 h2 h5
  have hin := FileMap.outside_ascii (FileMap.init 101) rfl f hascii
  have hin2 : ((FileMap.init 101).insertIn f (some 0)).outside f = false :=
    (FileMap.outside_congr _ _ (FileMap.capacity_insertIn _ f _) f).trans hin
  have hcont : (FileMap.init 101).contains f = some false := by
    rw [FileMap.contains_eq _ f hin]
    unfold FileMap.containsIn
    rw [FileMap.get_init 101 (by decide)]
    rfl
  have hins := FileMap.insert_eq (FileMap.init 101) f (some 0) hin
  have hget : ((FileMap.init 101).insertIn f (some 0)).get f = some (some 0) := by
    rw [FileMap.get_eq _ f hin2]
    exact congrArg some
      (FileMap.get_insert _ (by decide) (by simp [FileMap.init]) f hne _ (by simp))
  unfold FileSystem.scenario
  simp [FileSystem.handleCreate, FileSystem.init, hcont, hins, File.create_eq,
    FileSystem.handleInsert, hget, FileSystem.file, i1, FileSystem.handleSnapshot, s2, i3,
    FileSystem.handleRead, FileSystem.handleHistory, hread, hhist]

/-- The check of C6 on the witness of the claim. -/
theorem C6_scenario_witness :
    ("a.txt" : String) ≠ "" ∧ (∀ c ∈ ("a.txt" : String).data, c.toNat ≤ 127) ∧
    (2 : Int) ≠ 0 ∧ (5 : Int) ≠ 0 ∧
    FileSystem.scenario "a.txt" "hello" "v1" " world" 1 2 3 4 5 6 7 8 =
      some ([.contentOf 2 " world"],
        [.historyHeader, .historyLine 0 2 "File created.", .historyLine 1 5 "v1"]) :=
  ⟨by decide, by decide, by decide, by decide,
    C6_scenario "a.txt" "hello" "v1" " world" (by decide) (by decide) 1 2 3 4 5 6 7 8
      (by decide) (by decide)⟩

set_option maxRecDepth 100000 in
/-- C6, as stated, fails at its own witness: the history reports two snapshot
entries, the root's and `v1`, not one. -/
theorem C6_counterexample :
    (FileSystem.scenario "a.txt" "hello" "v1" " world" 1 1 1 1 1 1 1 1).map
        (fun r => (r.1, r.2.length - 1, r.2)) =
      some ([.contentOf 2 " world"], 2,
        [.historyHeader, .historyLine 0 1 "File created.", .historyLine 1 1 "v1"]) := by
  decide

/-! ## FileHeap -/

theorem FileHeap.compare_iff (h : FileHeap) (a c : Fileppt) :
    h.compare a c = true ↔
      FileHeap.rankKey h.sort_by_recent c < FileHeap.rankKey h.sort_by_recent a := by
  unfold FileHeap.compare FileHeap.rankKey
  cases h.sort_by_recent <;> simp

theorem FileHeap.length_swapList (l : List Fileppt) (i j : Nat) :
    (FileHeap.swapList l i j).length = l.length := by
  simp [FileHeap.swapList]

theorem FileHeap.getD_swapList (l : List Fileppt) (i j k : Nat) (hi : i < l.length)
    (hj : j < l.length) :
    (FileHeap.swapList l i j).getD k default =
      if k = j then l.getD i default else if k = i then l.getD j default else l.getD k default := by
  unfold FileHeap.swapList
  rw [getD_set, getD_set, List.length_set]
  by_cases hkj : k = j
  · subst hkj; simp [hj]
  · have hjk : ¬ j = k := fun e => hkj e.symm
    simp only [hjk, false_and, if_false, hkj]
    by_cases hki : k = i
    · subst hki; simp [hi]
    · have hik : ¬ i = k := fun e => hki e.symm
      simp [hik, hki]

theorem FileHeap.keyAt_swapList (b : Bool) (l : List Fileppt) (i j k : Nat) (hi : i < l.length)
    (hj : j < l.length) :
    FileHeap.keyAt b (FileHeap.swapList l i j) k =
      if k = j then FileHeap.keyAt b l i else if k = i then FileHeap.keyAt b l j
      else FileHeap.keyAt b l k := by
  unfold FileHeap.keyAt
  rw [FileHeap.getD_swapList l i j k hi hj]
  split
  · rfl
  · split <;> rfl

theorem FileHeap.count_le_of_getD (l : List Fileppt) (i : Nat) (hi : i < l.length) (x : Fileppt) :
    (if l[i] == x then 1 else 0) ≤ l.count x := by
  split
  · rename_i h
    have hx : l[i] = x := by simpa using h
    have : x ∈ l := hx ▸ List.getElem_mem hi
    exact List.count_pos_iff.mpr this
  · exact Nat.zero_le _

theorem FileHeap.perm_swapList (l : List Fileppt) (i j : Nat) (hi : i < l.length)
    (hj : j < l.length) : (FileHeap.swapList l i j).Perm l := by
  rw [List.perm_iff_count]
  intro x
  unfold FileHeap.swapList
  rw [List.count_set _ _ _ _ (by rw [List.length_set]; exact hj), List.count_set _ _ _ _ hi]
  rw [List.getD_eq_getElem _ _ hi, List.getD_eq_getElem _ _ hj]
  have h1 := FileHeap.count_le_of_getD l i hi x
  have hj' : j < (l.set i l[j]).length := by rw [List.length_set]; exact hj
  have h2 : (l.set i l[j])[j] = l[j] := by
    rw [List.getElem_set]
    split
    · rfl
    · rfl
  rw [h2]
  omega

/-- The loop of `heapifyUp` restores the heap order when only the record at
`idx` may rank above its parent. -/
theorem FileHeap.heapifyUpLoop_spec (b : Bool) : ∀ (fuel : Nat) (l : List Fileppt) (idx : Nat),
    idx ≤ fuel → idx < l.length →
    (∀ i, 0 < i → i < l.length → i ≠ idx →
      FileHeap.keyAt b l i ≤ FileHeap.keyAt b l ((i - 1) / 2)) →
    (0 < idx → ∀ c, 0 < c → c < l.length → (c - 1) / 2 = idx →
      FileHeap.keyAt b l c ≤ FileHeap.keyAt b l ((idx - 1) / 2)) →
    FileHeap.IsHeap b (FileHeap.heapifyUpLoop fuel ⟨l, b⟩ idx).heap ∧
    (FileHeap.heapifyUpLoop fuel ⟨l, b⟩ idx).heap.Perm l ∧
    (FileHeap.heapifyUpLoop fuel ⟨l, b⟩ idx).sort_by_recent = b := by
  intro fuel
  induction fuel with
  | zero =>
    intro l idx h0 _ hrest _
    have : idx = 0 := by omega
    subst this
    refine ⟨?_, List.Perm.refl _, rfl⟩
    intro i hi0 hil
    exact hrest i hi0 hil (by omega)
  | succ fuel ih =>
    intro l idx hfuel hidx hrest hgrand
    rw [FileHeap.heapifyUpLoop]
    by_cases h0 : idx > 0
    · simp only [h0, if_true]
      have hp : (idx - 1) / 2 < l.length := by omega
      by_cases hc : FileHeap.compare ⟨l, b⟩ (l.getD idx default) (l.getD ((idx - 1) / 2) default) = true
      · simp only [hc, if_true]
        have hlt : FileHeap.keyAt b l ((idx - 1) / 2) < FileHeap.keyAt b l idx :=
          (FileHeap.compare_iff ⟨l, b⟩ _ _).mp hc
        have hk := FileHeap.keyAt_swapList b l idx ((idx - 1) / 2)
        have hlen := FileHeap.length_swapList l idx ((idx - 1) / 2)
        have := ih (FileHeap.swapList l idx ((idx - 1) / 2)) ((idx - 1) / 2) (by omega)
          (by rw [hlen]; exact hp) ?_ ?_
        · obtain ⟨r1, r2, r3⟩ := this
          exact ⟨r1, r2.trans (FileHeap.perm_swapList l _ _ hidx hp), r3⟩
        · intro i hi0 hil hip
          rw [hlen] at hil
          rw [hk i hidx hp, hk ((i - 1) / 2) hidx hp]
          simp only [hip, if_false]
          by_cases hii : i = idx
          · subst hii
            simp only [↓reduceIte]
            omega
          · simp only [hii, if_false]
            have h1 := hrest i hi0 hil hii
            by_cases hq1 : (i - 1) / 2 = (idx - 1) / 2
            · simp only [hq1, if_true]
              rw [hq1] at h1
              omega
            · simp only [hq1, if_false]
              by_cases hq2 : (i - 1) / 2 = idx
              · simp only [hq2, if_true]
                exact hgrand h0 i hi0 hil hq2
              · simp only [hq2, if_false]
                exact h1
        · intro hp0 c hc0 hcl hcp
          rw [hlen] at hcl
          rw [hk c hidx hp, hk (((idx - 1) / 2 - 1) / 2) hidx hp]
          have hpp1 : ¬ ((idx - 1) / 2 - 1) / 2 = (idx - 1) / 2 := by omega
          have hpp2 : ¬ ((idx - 1) / 2 - 1) / 2 = idx := by omega
          have hcne : ¬ c = (idx - 1) / 2 := by omega
          simp only [hpp1, hpp2, hcne, if_false]
          have h2 := hrest ((idx - 1) / 2) hp0 hp (by omega)
          by_cases hci : c = idx
          · simp only [hci, if_true]
            exact h2
          · simp only [hci, if_false]
            have h3 := hrest c hc0 hcl hci
            rw [hcp] at h3
            omega
      · simp only [hc, Bool.false_eq_true, if_false]
        have hge : ¬ FileHeap.keyAt b l ((idx - 1) / 2) < FileHeap.keyAt b l idx :=
          fun hlt => hc ((FileHeap.compare_iff ⟨l, b⟩ _ _).mpr hlt)
        refine ⟨?_, List.Perm.refl _, trivial⟩
        intro i hi0 hil
        by_cases hii : i = idx
        · subst hii; omega
        · exact hrest i hi0 hil hii
    · simp only [h0, if_false]
      refine ⟨?_, List.Perm.refl _, trivial⟩
      intro i hi0 hil
      exact hrest i hi0 hil (by omega)

theorem FileHeap.keyAt_append_lt (b : Bool) (l : List Fileppt) (v : Fileppt) (i : Nat)
    (hi : i < l.length) : FileHeap.keyAt b (l ++ [v]) i = FileHeap.keyAt b l i := by
  unfold FileHeap.keyAt
  rw [getD_append_one]
  simp [hi]

/-- A push keeps the heap order and adds the record. -/
theorem FileHeap.push_spec (b : Bool) (l : List Fileppt) (v : Fileppt) (hl : FileHeap.IsHeap b l) :
    FileHeap.IsHeap b (FileHeap.push ⟨l, b⟩ v).heap ∧ (FileHeap.push ⟨l, b⟩ v).heap.Perm (v :: l) ∧
    (FileHeap.push ⟨l, b⟩ v).sort_by_recent = b := by
  unfold FileHeap.push FileHeap.heapifyUp
  simp only [List.length_append, List.length_singleton, Nat.add_sub_cancel]
  have := FileHeap.heapifyUpLoop_spec b l.length (l ++ [v]) l.length (le_refl _) (by simp) ?_ ?_
  · obtain ⟨r1, r2, r3⟩ := this
    exact ⟨r1, r2.trans (List.perm_append_singleton v l), r3⟩
  · intro i hi0 hil hine
    have hil' : i < l.length := by
      simp only [List.length_append, List.length_singleton] at hil
      omega
    rw [FileHeap.keyAt_append_lt b l v i hil', FileHeap.keyAt_append_lt b l v _ (by omega)]
    exact hl i hi0 hil'
  · intro _ c hc0 hcl hcp
    simp only [List.length_append, List.length_singleton] at hcl
    omega

/-- The index `heapifyDown` picks among `index` and its children in range:
one whose record ranks highest, and `index` itself only if no child ranks
above it. -/
theorem FileHeap.best_index_spec (b : Bool) (l : List Fileppt) (index : Nat) :
    ∃ best,
      (if 2 * index + 2 < l.length ∧
          FileHeap.compare ⟨l, b⟩ (l.getD (2 * index + 2) default)
            (l.getD (if 2 * index + 1 < l.length ∧
              FileHeap.compare ⟨l, b⟩ (l.getD (2 * index + 1) default) (l.getD index default) = true
              then 2 * index + 1 else index) default) = true
        then 2 * index + 2
        else (if 2 * index + 1 < l.length ∧
              FileHeap.compare ⟨l, b⟩ (l.getD (2 * index + 1) default) (l.getD index default) = true
              then 2 * index + 1 else index)) = best ∧
      (best = index ∨ best = 2 * index + 1 ∨ best = 2 * index + 2) ∧
      (best ≠ index → best < l.length ∧ FileHeap.keyAt b l index < FileHeap.keyAt b l best) ∧
      (2 * index + 1 < l.length → FileHeap.keyAt b l (2 * index + 1) ≤ FileHeap.keyAt b l best) ∧
      (2 * index + 2 < l.length → FileHeap.keyAt b l (2 * index + 2) ≤ FileHeap.keyAt b l best) := by
  have hcmp : ∀ i j, FileHeap.compare ⟨l, b⟩ (l.getD i default) (l.getD j default) = true ↔
      FileHeap.keyAt b l j < FileHeap.keyAt b l i :=
    fun i j => FileHeap.compare_iff ⟨l, b⟩ _ _
  refine ⟨_, rfl, ?_, ?_, ?_, ?_⟩
  all_goals
    by_cases c1 : 2 * index + 1 < l.length ∧
      FileHeap.compare ⟨l, b⟩ (l.getD (2 * index + 1) default) (l.getD index default) = true
    · by_cases c2 : 2 * index + 2 < l.length ∧
        FileHeap.compare ⟨l, b⟩ (l.getD (2 * index + 2) default)
          (l.getD (2 * index + 1) default) = true
      · simp only [c1, c2, and_self, if_true]
        have h1 := (hcmp _ _).mp c1.2
        have h2 := (hcmp _ _).mp c2.2
        have h4 := c1.1
        have h5 := c2.1
        first | omega | (simp; done) | (intro; constructor <;> first | trivial | omega)
      · simp only [c1, c2, and_self, if_true, if_false]
        have h1 := (hcmp _ _).mp c1.2
        have h4 := c1.1
        have h2 : 2 * index + 2 < l.length →
            ¬ FileHeap.keyAt b l (2 * index + 1) < FileHeap.keyAt b l (2 * index + 2) :=
          fun hlt hk => c2 ⟨hlt, (hcmp _ _).mpr hk⟩
        first | omega | (simp; done) | (intro; constructor <;> trivial)
    · by_cases c2 : 2 * index + 2 < l.length ∧
        FileHeap.compare ⟨l, b⟩ (l.getD (2 * index + 2) default) (l.getD index default) = true
      · simp only [c1, c2, and_self, if_true, if_false]
        have h1 : 2 * index + 1 < l.length →
            ¬ FileHeap.keyAt b l index < FileHeap.keyAt b l (2 * index + 1) :=
          fun hlt hk => c1 ⟨hlt, (hcmp _ _).mpr hk⟩
        have h2 := (hcmp _ _).mp c2.2
        have h5 := c2.1
        first | omega | (simp; done) | (intro; constructor <;> trivial)
      · simp only [c1, c2, if_false]
        have h1 : 2 * index + 1 < l.length →
            ¬ FileHeap.keyAt b l index < FileHeap.keyAt b l (2 * index + 1) :=
          fun hlt hk => c1 ⟨hlt, (hcmp _ _).mpr hk⟩
        have h2 : 2 * index + 2 < l.length →
            ¬ FileHeap.keyAt b l index < FileHeap.keyAt b l (2 * index + 2) :=
          fun hlt hk => c2 ⟨hlt, (hcmp _ _).mpr hk⟩
        first | omega | simp

/-- The recursion of `heapifyDown` restores the heap order when only the
children of `index` may rank above their parent. -/
theorem FileHeap.heapifyDownRec_spec (b : Bool) : ∀ (fuel : Nat) (l : List Fileppt) (index : Nat),
    l.length ≤ index + fuel →
    (∀ c, 0 < c → c < l.length → (c - 1) / 2 ≠ index →
      FileHeap.keyAt b l c ≤ FileHeap.keyAt b l ((c - 1) / 2)) →
    (0 < index → ∀ c, 0 < c → c < l.length → (c - 1) / 2 = index →
      FileHeap.keyAt b l c ≤ FileHeap.keyAt b l ((index - 1) / 2)) →
    FileHeap.IsHeap b (FileHeap.heapifyDownRec fuel ⟨l, b⟩ index).heap ∧
    (FileHeap.heapifyDownRec fuel ⟨l, b⟩ index).heap.Perm l ∧
    (FileHeap.heapifyDownRec fuel ⟨l, b⟩ index).sort_by_recent = b := by
  intro fuel
  induction fuel with
  | zero =>
    intro l index hfuel hrest _
    refine ⟨?_, List.Perm.refl _, rfl⟩
    intro i hi0 hil
    have hil' : i < l.length := hil
    exact hrest i hi0 hil' (by omega)
  | succ fuel ih =>
    intro l index hfuel hrest hgrand
    obtain ⟨best, hbest, hcases, hgt, hl, hr⟩ := FileHeap.best_index_spec b l index
    rw [FileHeap.heapifyDownRec]
    simp only [hbest]
    by_cases hbi : best = index
    · simp only [hbi, ne_eq, not_true_eq_false, if_false]
      subst hbi
      refine ⟨?_, List.Perm.refl _, trivial⟩
      intro i hi0 hil
      by_cases hpi : (i - 1) / 2 = best
      · have hi2 : i = 2 * best + 1 ∨ i = 2 * best + 2 := by omega
        rcases hi2 with rfl | rfl
        · rw [hpi]; exact hl hil
        · rw [hpi]; exact hr hil
      · exact hrest i hi0 hil hpi
    · simp only [ne_eq, hbi, not_false_eq_true, if_true]
      obtain ⟨hbl, hbk⟩ := hgt hbi
      have hil : index < l.length := by omega
      have hk := FileHeap.keyAt_swapList b l index best
      have hlen := FileHeap.length_swapList l index best
      have := ih (FileHeap.swapList l index best) best (by rw [hlen]; omega) ?_ ?_
      · obtain ⟨r1, r2, r3⟩ := this
        exact ⟨r1, r2.trans (FileHeap.perm_swapList l _ _ hil hbl), r3⟩
      · intro c hc0 hcl hcp
        rw [hlen] at hcl
        rw [hk c hil hbl, hk ((c - 1) / 2) hil hbl]
        simp only [hcp, if_false]
        by_cases hcb : c = best
        · subst hcb
          have hpc : (c - 1) / 2 = index := by omega
          simp only [↓reduceIte, hpc]
          omega
        · simp only [hcb, if_false]
          by_cases hci : c = index
          · subst hci
            simp only [if_true]
            have hpne : ¬ (c - 1) / 2 = c := by omega
            simp only [hpne, if_false]
            exact hgrand hc0 best (by omega) hbl (by omega)
          · simp only [hci, if_false]
            by_cases hpc : (c - 1) / 2 = index
            · simp only [hpc, if_true]
              have hc2 : c = 2 * index + 1 ∨ c = 2 * index + 2 := by omega
              rcases hc2 with rfl | rfl
              · exact hl hcl
              · exact hr hcl
            · simp only [hpc, if_false]
              exact hrest c hc0 hcl hpc
      · intro hb0 c hc0 hcl hcp
        rw [hlen] at hcl
        rw [hk c hil hbl, hk ((best - 1) / 2) hil hbl]
        have hpb : (best - 1) / 2 = index := by omega
        have hcb : ¬ c = best := by omega
        have hci : ¬ c = index := by omega
        have hib : ¬ index = best := fun e => hbi e.symm
        simp only [hpb, hcb, hci, hib, if_false, if_true]
        have := hrest c hc0 hcl (by omega)
        rw [hcp] at this
        exact this

/-- In a heap no record ranks above the root. -/
theorem FileHeap.IsHeap.le_root {b : Bool} {l : List Fileppt} (h : FileHeap.IsHeap b l) :
    ∀ i, i < l.length → FileHeap.keyAt b l i ≤ FileHeap.keyAt b l 0 := by
  intro i
  induction i using Nat.strong_induction_on with
  | _ i ih =>
    intro hi
    by_cases h0 : i = 0
    · subst h0; exact le_refl _
    · have h1 := h i (by omega) hi
      have h2 := ih ((i - 1) / 2) (by omega) (by omega)
      omega

/-- The array `pop` hands to `heapifyDown`: the last record moved to the
front. -/
theorem FileHeap.popped_list (a : Fileppt) (rest : List Fileppt) :
    (((a :: rest).set 0 ((a :: rest).getLastD default)).dropLast).Perm rest ∧
    (((a :: rest).set 0 ((a :: rest).getLastD default)).dropLast).length = rest.length ∧
    ∀ c, 0 < c → c < rest.length →
      (((a :: rest).set 0 ((a :: rest).getLastD default)).dropLast).getD c default
        = (a :: rest).getD c default := by
  cases rest with
  | nil => simp
  | cons x xs =>
    have hne : x :: xs ≠ [] := List.cons_ne_nil x xs
    have hlast : (a :: x :: xs).getLastD default = (x :: xs).getLast hne := by
      rw [List.getLastD_cons, List.getLastD_cons, List.getLast_eq_getLastD]
    rw [hlast, List.set_cons_zero, List.dropLast_cons_of_ne_nil hne]
    refine ⟨?_, ?_, ?_⟩
    · have := List.dropLast_append_getLast hne
      exact (List.perm_append_singleton _ _).symm.trans (List.Perm.of_eq this)
    · simp only [List.length_cons, List.length_dropLast]
      omega
    · intro c hc0 hcl
      obtain ⟨k, rfl⟩ := Nat.exists_eq_succ_of_ne_zero (Nat.pos_iff_ne_zero.mp hc0)
      simp only [List.getD_cons_succ]
      have hk : k < (x :: xs).dropLast.length := by
        rw [List.length_dropLast]; omega
      rw [List.getD_eq_getElem _ _ hk, List.getD_eq_getElem _ _ (by omega),
        List.getElem_dropLast]

theorem FileHeap.eq_mk (g : FileHeap) (b : Bool) (h : g.sort_by_recent = b) :
    g = ⟨g.heap, b⟩ := by
  subst h
  rfl

/-- A pop of a non-empty heap returns the root, which no record outranks, and
leaves a heap of the other records. -/
theorem FileHeap.pop_spec (b : Bool) (a : Fileppt) (rest : List Fileppt)
    (h : FileHeap.IsHeap b (a :: rest)) :
    (FileHeap.pop ⟨a :: rest, b⟩).1 = a ∧
    (FileHeap.pop ⟨a :: rest, b⟩).2.2 = [] ∧
    FileHeap.IsHeap b (FileHeap.pop ⟨a :: rest, b⟩).2.1.heap ∧
    (FileHeap.pop ⟨a :: rest, b⟩).2.1.heap.Perm rest ∧
    (FileHeap.pop ⟨a :: rest, b⟩).2.1.sort_by_recent = b ∧
    (∀ x ∈ rest, FileHeap.rankKey b x ≤ FileHeap.rankKey b a) := by
  obtain ⟨hperm, hlen, hget⟩ := FileHeap.popped_list a rest
  have hspec := FileHeap.heapifyDownRec_spec b
    (((a :: rest).set 0 ((a :: rest).getLastD default)).dropLast).length
    (((a :: rest).set 0 ((a :: rest).getLastD default)).dropLast) 0 (by omega) ?_ ?_
  · obtain ⟨r1, r2, r3⟩ := hspec
    refine ⟨rfl, rfl, r1, r2.trans hperm, r3, ?_⟩
    intro x hx
    obtain ⟨k, hk, rfl⟩ := List.getElem_of_mem hx
    have := h.le_root (k + 1) (by simpa using hk)
    simp only [FileHeap.keyAt, List.getD_cons_succ, List.getD_cons_zero] at this
    rw [List.getD_eq_getElem _ _ hk] at this
    exact this
  · intro c hc0 hcl hcp
    rw [hlen] at hcl
    unfold FileHeap.keyAt
    rw [hget c hc0 hcl, hget ((c - 1) / 2) (by omega) (by omega)]
    exact h c hc0 (by simp; omega)
  · intro h0
    exact absurd h0 (Nat.lt_irrefl 0)

/-- Popping at least as many times as there are records, from a heap: the
records come out in non-increasing rank, they are the records of the heap,
and the heap is left empty. -/
theorem FileHeap.popWhile_spec (b : Bool) : ∀ (n : Nat) (l : List Fileppt),
    FileHeap.IsHeap b l → l.length ≤ n →
    (FileHeap.popWhile n ⟨l, b⟩).1.Pairwise
      (fun x y => FileHeap.rankKey b y ≤ FileHeap.rankKey b x) ∧
    (FileHeap.popWhile n ⟨l, b⟩).1.Perm l ∧
    (FileHeap.popWhile n ⟨l, b⟩).2.heap = [] := by
  intro n
  induction n with
  | zero =>
    intro l _ hl
    have : l = [] := List.length_eq_zero.mp (by omega)
    subst this
    exact ⟨List.Pairwise.nil, List.Perm.refl _, rfl⟩
  | succ n ih =>
    intro l h hl
    cases l with
    | nil =>
      exact ⟨List.Pairwise.nil, List.Perm.refl _, rfl⟩
    | cons a rest =>
      obtain ⟨p1, -, p3, p4, p5, p6⟩ := FileHeap.pop_spec b a rest h
      rw [FileHeap.popWhile]
      have he : (FileHeap.empty ⟨a :: rest, b⟩) = false := rfl
      simp only [he, Bool.false_eq_true, if_false]
      obtain ⟨hp, hb⟩ : ∃ hp, (FileHeap.pop ⟨a :: rest, b⟩).2.1 = ⟨hp, b⟩ :=
        ⟨_, FileHeap.eq_mk _ b p5⟩
      rw [hb] at p3 p4 ⊢
      have hlen : hp.length ≤ n := by
        have : hp.length = rest.length := p4.length_eq
        simp only [List.length_cons] at hl
        omega
      obtain ⟨q1, q2, q3⟩ := ih hp p3 hlen
      rw [p1]
      refine ⟨?_, ?_, q3⟩
      · refine List.Pairwise.cons ?_ q1
        intro x hx
        exact p6 x (p4.subset (q2.subset hx))
      · exact (q2.trans p4).cons a

/-- Pushing records one after the other keeps the heap order and collects
the records. -/
theorem FileHeap.foldl_push_spec (b : Bool) : ∀ (vs l : List Fileppt), FileHeap.IsHeap b l →
    FileHeap.IsHeap b (vs.foldl FileHeap.push ⟨l, b⟩).heap ∧
    (vs.foldl FileHeap.push ⟨l, b⟩).heap.Perm (vs ++ l) ∧
    (vs.foldl FileHeap.push ⟨l, b⟩).sort_by_recent = b := by
  intro vs
  induction vs with
  | nil => intro l h; exact ⟨h, List.Perm.refl _, rfl⟩
  | cons v vs ih =>
    intro l h
    obtain ⟨p1, p2, p3⟩ := FileHeap.push_spec b l v h
    obtain ⟨hp, hb⟩ : ∃ hp, FileHeap.push ⟨l, b⟩ v = ⟨hp, b⟩ :=
      ⟨_, FileHeap.eq_mk _ b p3⟩
    rw [hb] at p1 p2
    obtain ⟨q1, q2, q3⟩ := ih hp p1
    simp only [List.foldl_cons, hb]
    refine ⟨q1, q2.trans ?_, q3⟩
    exact ((List.Perm.append_left vs p2).trans List.perm_middle)

/-- C9: for both orderings and every list of records pushed onto an empty
heap, popping until the heap is empty returns the records in non-increasing
order of the ranking key, and what is returned is a permutation of what was
pushed. -/
theorem C9_heap_drain_sorted_perm (sort_by_recent : Bool) (values : List Fileppt) :
    (FileHeap.pushAll sort_by_recent values).drain.1.Pairwise
      (fun x y => FileHeap.rankKey sort_by_recent y ≤ FileHeap.rankKey sort_by_recent x) ∧
    (FileHeap.pushAll sort_by_recent values).drain.1.Perm values ∧
    (FileHeap.pushAll sort_by_recent values).drain.2.empty = true := by
  have hnil : FileHeap.IsHeap sort_by_recent [] := by
    intro i _ hi
    exact absurd hi (Nat.not_lt_zero i)
  obtain ⟨p1, p2, p3⟩ := FileHeap.foldl_push_spec sort_by_recent values [] hnil
  obtain ⟨hp, hb⟩ : ∃ hp, FileHeap.pushAll sort_by_recent values = ⟨hp, sort_by_recent⟩ :=
    ⟨_, FileHeap.eq_mk _ sort_by_recent p3⟩
  have hheap : (values.foldl FileHeap.push ⟨[], sort_by_recent⟩) = ⟨hp, sort_by_recent⟩ := hb
  rw [hheap] at p1 p2
  obtain ⟨q1, q2, q3⟩ := FileHeap.popWhile_spec sort_by_recent hp.length hp p1 (le_refl _)
  unfold FileHeap.drain
  rw [hb]
  refine ⟨q1, q2.trans (by simpa using p2), ?_⟩
  unfold FileHeap.empty
  rw [q3]
  rfl

/-- C10 (as amended): `pop` on an empty heap prints a notice on the standard
output, not an error, returns the value-initialised record (empty name, both
numbers 0) and leaves the heap empty. -/
theorem C10_pop_empty_returns_default (sort_by_recent : Bool) :
    (FileHeap.init sort_by_recent).pop =
      (⟨"", 0, 0⟩, FileHeap.init sort_by_recent, [.heapEmptyDefault]) ∧
    Report.isError .heapEmptyDefault = false :=
  ⟨rfl, rfl⟩

/-- C10, as stated, fails: on the empty heap `pop` produces the
default-constructed record, and what it prints is not an error. -/
theorem C10_counterexample :
    (FileHeap.init true).pop.1 = (default : Fileppt) ∧
    (FileHeap.init true).pop.2.2.all (fun r => !r.isError) = true := by
  decide

/-! ## Snapshot of a snapshot, and the full version table -/

/-- C12 (as amended): on a file whose active version is already a snapshot,
`snapshot(msg)` leaves the snapshot time, the message, the content and every
other part of the file as they are, except that it sets the last-modified
time (`created_timestamp`) of the active node to the clock reading. -/
theorem C12_snapshot_of_snapshot (f : File) (a : Nat) (ha : f.active_version = some a)
    (hal : a < f.nodes.length) (hs : (f.node a).isSnapshot = true) (msg : String)
    (tSnap tUpd : Int) :
    f.snapshot msg tSnap tUpd =
      (f.modifyNode a (fun n => { n with created_timestamp := tUpd }),
        [.alreadySnapshot (f.node a).version_id]) ∧
    File.SameExceptContent f (f.snapshot msg tSnap tUpd).1 a ∧
    ((f.snapshot msg tSnap tUpd).1.node a).content = (f.node a).content ∧
    ((f.snapshot msg tSnap tUpd).1.node a).created_timestamp = tUpd := by
  have h1 : f.snapshot msg tSnap tUpd =
      (f.modifyNode a (fun n => { n with created_timestamp := tUpd }),
        [.alreadySnapshot (f.node a).version_id]) := by
    unfold File.snapshot File.updateTime
    simp only [ha, hs, if_true]
  have hn : ∀ q, (f.modifyNode a (fun n => { n with created_timestamp := tUpd })).node q =
      if q = a then { f.node a with created_timestamp := tUpd } else f.node q := by
    intro q
    rw [File.node_modifyNode]
    by_cases hq : q = a
    · subst hq; simp [hal]
    · have hq' : ¬ a = q := fun e => hq e.symm
      simp [hq, hq']
  have hna : (f.modifyNode a (fun n => { n with created_timestamp := tUpd })).node a =
      { f.node a with created_timestamp := tUpd } := by
    rw [hn a]; simp
  rw [h1]
  refine ⟨rfl, ⟨File.length_modifyNode _ _ _, rfl, rfl, rfl, rfl, ?_, ?_, ?_, ?_, ?_, ?_⟩, ?_, ?_⟩
  · intro q hq
    show (f.modifyNode a _).node q = f.node q
    rw [hn q]; simp [hq]
  · show ((f.modifyNode a _).node a).version_id = _
    rw [hna]
  · show ((f.modifyNode a _).node a).message = _
    rw [hna]
  · show ((f.modifyNode a _).node a).snapshot_timestamp = _
    rw [hna]
  · show ((f.modifyNode a _).node a).parent = _
    rw [hna]
  · show ((f.modifyNode a _).node a).children = _
    rw [hna]
  · show ((f.modifyNode a _).node a).content = _
    rw [hna]
  · show ((f.modifyNode a _).node a).created_timestamp = _
    rw [hna]

/-- The check of C12 on a freshly created file, whose root is a snapshot. -/
theorem C12_snapshot_of_snapshot_witness :
    File.fresh.active_version = some 0 ∧ 0 < File.fresh.nodes.length ∧
    (File.fresh.node 0).isSnapshot = true ∧
    File.fresh.snapshot "again" 7 9 =
      (File.fresh.modifyNode 0 (fun n => { n with created_timestamp := 9 }),
        [.alreadySnapshot (File.fresh.node 0).version_id]) ∧
    ((File.fresh.snapshot "again" 7 9).1.node 0).created_timestamp = 9 :=
  ⟨rfl, by decide, rfl,
    (C12_snapshot_of_snapshot File.fresh 0 rfl (by decide) rfl "again" 7 9).1,
    (C12_snapshot_of_snapshot File.fresh 0 rfl (by decide) rfl "again" 7 9).2.2.2⟩

/-- C12, as stated, fails: a second `snapshot` on the root of a freshly
created file, which is a snapshot last modified at time 1, sets the
last-modified time to the clock reading 9, so the file is not the same. -/
theorem C12_counterexample :
    (File.fresh.node 0).isSnapshot = true ∧
    (File.fresh.node 0).created_timestamp = 1 ∧
    ((File.fresh.snapshot "again" 7 9).1.node 0).created_timestamp = 9 ∧
    (File.fresh.snapshot "again" 7 9).1 ≠ File.fresh := by
  decide

/-- C13 fails on the code: on the version table whose 101 slots are all in
use, the loop of `VersionMap::insert` for the absent key 101 does not exit,
whatever the number of iterations, so the call does not return. -/
theorem C13_insert_full_table_never_exits :
    (∀ fuel, VersionMap.fullExample.insertProbe 101 fuel
      (VersionMap.fullExample.hashFunction 101) = none) ∧
    VersionMap.fullExample.insert 101 (some 101) = none := by
  have hfull : ∀ i, i < VersionMap.fullExample.capacity →
      (VersionMap.fullExample.entries.getD i default).is_empty = false ∧
      (VersionMap.fullExample.entries.getD i default).key ≠ 101 := by
    intro i hi
    have hi' : i < 101 := hi
    have hlen : i < ((List.range 101).map
        (fun (i : Nat) => (⟨(i : Int), some i, false, false⟩ : VersionMap.Entry))).length := by
      simpa using hi'
    unfold VersionMap.fullExample
    simp only
    rw [List.getD_eq_getElem _ _ hlen, List.getElem_map, List.getElem_range]
    exact ⟨rfl, by simp only; omega⟩
  have hall := VersionMap.insertProbe_none_of_full VersionMap.fullExample 101 (by decide) hfull
  refine ⟨fun fuel => hall fuel _ (by decide), ?_⟩
  unfold VersionMap.insert
  rw [hall _ _ (by decide)]

/-! ## Inserting into a table full of live entries -/

set_option maxRecDepth 100000 in
/-- C14 fails on the code: in the table whose 101 slots all hold live entries,
where `get` of `n101` returns null and `get` of `n087` returns file 87,
`insert` of the absent key `n101` stores the key, in the slot of its hash,
and the key `n087` that was there is lost: afterwards `get` of `n101` returns
the new file and `get` of `n087` returns null. -/
theorem C14_insert_full_overwrites :
    FileMap.fullExample.map (fun m =>
      (m.entries.all (fun e => e.live), m.entries.length, m.get "n101", m.get "n087")) =
      some (true, 101, some none, some (some 87)) ∧
    FileMap.fullExample.bind (fun m => (m.insert "n101" (some 101)).map (fun g =>
      (g.get "n101", g.get "n087"))) = some (some (some 101), some none) := by
  decide

/-! ## More files than the table has slots -/

set_option maxRecDepth 100000 in
/-- C18 fails on the code: after `CREATE` of 102 distinct names the
insertion-order list has 102 names, among them `n087`, but the table has only
101 live entries and `get` of `n087` is null. -/
theorem C18_order_list_outgrows_table :
    FileSystem.overfullExample.map (fun s =>
      (s.file_order.length, s.file_order.contains "n087", s.file_map.get "n087",
        s.file_map.keys.length)) = some (102, true, some none, 101) := by
  decide

set_option maxRecDepth 100000 in
/-- C11 fails on the code: after `CREATE` of 102 distinct names and a second
`CREATE n087`, the name `n087` is twice in the insertion-order list, and
`RECENT_FILES 2` lists the file `n087` twice. -/
theorem C11_ranking_lists_file_twice :
    FileSystem.recreatedExample.map (fun s =>
      (s.file_order.count "n087", s.file_map.keys.length, s.handleRecentFiles 2)) =
      some (2, 101, some [.recentHeader, .recentLine "n087", .recentLine "n087"]) := by
  decide

/-! ## Failing commands -/

theorem FileSystem.parseVersion_none (cs : List Char) :
    ∀ acc, (∃ c ∈ cs, c.toNat < 48 ∨ c.toNat > 57) → FileSystem.parseVersion cs acc = none := by
  induction cs with
  | nil => intro acc h; obtain ⟨c, hc, -⟩ := h; cases hc
  | cons d ds ih =>
    intro acc h
    rw [FileSystem.parseVersion]
    by_cases hd : d.toNat < 48 ∨ d.toNat > 57
    · simp only [hd, if_true]
    · simp only [hd, if_false]
      apply ih
      obtain ⟨c, hc, hcn⟩ := h
      rcases List.mem_cons.mp hc with rfl | hc'
      · exact absurd hcn hd
      · exact ⟨c, hc', hcn⟩

theorem FileSystem.set_file_self (s : FileSystem) (p : Nat) (f : File) (h : s.file p = some f) :
    ({ s with files := s.files.set p f } : FileSystem) = s := by
  have : s.files.set p f = s.files := by
    unfold FileSystem.file at h
    apply List.ext_getElem?
    intro i
    rw [List.getElem?_set]
    split
    · rename_i hpi
      subst hpi
      split
      · rw [← h, List.get?_eq_getElem?]
      · rename_i hlt
        rw [List.getElem?_eq_none (by omega)]
    · rfl
  rw [this]

theorem wrapInt_step (a d : Int) : wrapInt (wrapInt a * 10 + d) = wrapInt (a * 10 + d) := by
  unfold wrapInt
  omega

/-- The digit loop on a string of digits: the value of the digits, reduced to
32 bits. -/
theorem FileSystem.parseVersion_digits (cs : List Char)
    (hd : ∀ c ∈ cs, 48 ≤ c.toNat ∧ c.toNat ≤ 57) : ∀ acc : Nat,
    FileSystem.parseVersion cs (wrapInt (acc : Int)) =
      some (wrapInt ((cs.foldl (fun acc c => acc * 10 + (c.toNat - 48)) acc : Nat) : Int)) := by
  induction cs with
  | nil => intro acc; rfl
  | cons c cs ih =>
    intro acc
    have hc := hd c (List.mem_cons_self _ _)
    have hnot : ¬ (c.toNat < 48 ∨ c.toNat > 57) := by omega
    rw [FileSystem.parseVersion]
    simp only [hnot, if_false, List.foldl_cons]
    rw [wrapInt_step]
    have hcast : ((acc : Int) * 10 + ((c.toNat : Int) - 48)) =
        ((acc * 10 + (c.toNat - 48) : Nat) : Int) := by
      push_cast
      omega
    rw [hcast]
    exact ih (fun d hd2 => hd d (List.mem_cons_of_mem _ hd2)) _

/-- Failing commands that keep the state: each of these commands returns the
unchanged state together with its error. A read, insert, update, snapshot, rollback or
history with a name whose lookup returns null, as it does for every
unregistered name of character codes at most 127 (for such a name in a table
of capacity 101 the lookup has a defined result); a create of a registered
name; a rollback whose id string has a character that is not a digit; a
rollback whose id string is made of digits, when the id the digit loop
computes, which is the value of the digits reduced to 32 bits, is not in the
version table of the file, in particular when the value is below `2^31` and
not in the table; `recentFiles` and `biggestTrees` with a negative count. -/
theorem FileSystem.failing_commands_keep_state (s : FileSystem) :
    (∀ name, s.file_map.get name = some none →
      s.handleRead name = some [.errFileNotFound name] ∧
      s.handleHistory name = some [.errFileNotFound name] ∧
      (∀ text t1 t2, s.handleInsert name text t1 t2 = some (s, [.errFileNotFound name])) ∧
      (∀ text t1 t2, s.handleUpdate name text t1 t2 = some (s, [.errFileNotFound name])) ∧
      (∀ msg t1 t2, s.handleSnapshot name msg t1 t2 = some (s, [.errFileNotFound name])) ∧
      (∀ v, s.handleRollback name v = some (s, [.errFileNotFound name]))) ∧
    (s.file_map.capacity = 101 → ∀ name, (∀ c ∈ name.data, c.toNat ≤ 127) →
      ∃ r, s.file_map.get name = some r) ∧
    (∀ name t1 t2, s.file_map.contains name = some true →
      s.handleCreate name t1 t2 = some (s, [.errFileExists name])) ∧
    (∀ name p f v, s.file_map.get name = some (some p) → s.file p = some f →
      (∃ c ∈ v.data, c.toNat < 48 ∨ c.toNat > 57) →
      s.handleRollback name v = some (s, [.errInvalidVersion])) ∧
    (∀ name p f v, s.file_map.get name = some (some p) → s.file p = some f →
      v.isEmpty = false → (∀ c ∈ v.data, 48 ≤ c.toNat ∧ c.toNat ≤ 57) →
      f.version_map.get (wrapInt (digitsValue v.data : Int)) = none →
      s.handleRollback name v =
        some (s, [.errVersionNotFound (wrapInt (digitsValue v.data : Int))])) ∧
    (∀ name p f v, s.file_map.get name = some (some p) → s.file p = some f →
      v.isEmpty = false → (∀ c ∈ v.data, 48 ≤ c.toNat ∧ c.toNat ≤ 57) →
      digitsValue v.data < 2 ^ 31 →
      f.version_map.get (digitsValue v.data : Int) = none →
      s.handleRollback name v = some (s, [.errVersionNotFound (digitsValue v.data : Int)])) ∧
    (∀ n : Int, n < 0 →
      s.handleRecentFiles n = some [.errNegativeCount] ∧
      s.handleBiggestTrees n = some [.errNegativeCount]) := by
  have hroll : ∀ name p f v, s.file_map.get name = some (some p) → s.file p = some f →
      v.isEmpty = false → (∀ c ∈ v.data, 48 ≤ c.toNat ∧ c.toNat ≤ 57) →
      f.version_map.get (wrapInt (digitsValue v.data : Int)) = none →
      s.handleRollback name v =
        some (s, [.errVersionNotFound (wrapInt (digitsValue v.data : Int))]) := by
    intro name p f v hget hfile hne hdig hmiss
    have hparse := FileSystem.parseVersion_digits v.data hdig 0
    have h0 : wrapInt ((0 : Nat) : Int) = 0 := by decide
    rw [h0] at hparse
    unfold FileSystem.handleRollback
    simp only [hget, hfile, hne, Bool.false_eq_true, if_false, hparse]
    unfold File.rollback
    unfold digitsValue at hmiss
    simp only [hmiss]
    rw [FileSystem.set_file_self s p f hfile]
    rfl
  refine ⟨?_, ?_, ?_, ?_, hroll, ?_, ?_⟩
  · intro name hget
    refine ⟨?_, ?_, ?_, ?_, ?_, ?_⟩
    · unfold FileSystem.handleRead; rw [hget]
    · unfold FileSystem.handleHistory; rw [hget]
    · intro text t1 t2; unfold FileSystem.handleInsert; rw [hget]
    · intro text t1 t2; unfold FileSystem.handleUpdate; rw [hget]
    · intro msg t1 t2; unfold FileSystem.handleSnapshot; rw [hget]
    · intro v; unfold FileSystem.handleRollback; rw [hget]
  · intro hcap name hascii
    exact ⟨_, FileMap.get_eq _ name (FileMap.outside_ascii _ hcap name hascii)⟩
  · intro name t1 t2 hcont
    unfold FileSystem.handleCreate
    simp only [hcont]
  · intro name p f v hget hfile hbad
    have hne : v.isEmpty = false := by
      cases hb : v.isEmpty
      · rfl
      · exfalso
        have := (String.isEmpty_iff v).mp hb
        subst this
        obtain ⟨c, hc, -⟩ := hbad
        cases hc
    unfold FileSystem.handleRollback
    simp only [hget, hfile, hne, Bool.false_eq_true, if_false,
      FileSystem.parseVersion_none v.data 0 hbad]
  · intro name p f v hget hfile hne hdig hsmall hmiss
    have hw : wrapInt (digitsValue v.data : Int) = (digitsValue v.data : Int) :=
      wrapInt_of_small _ (by omega) (by exact_mod_cast hsmall)
    have := hroll name p f v hget hfile hne hdig (by rw [hw]; exact hmiss)
    rw [hw] at this
    exact this
  · intro n hn
    unfold FileSystem.handleRecentFiles FileSystem.handleBiggestTrees
    simp only [hn, if_true, and_self]

set_option maxRecDepth 100000 in
/-- Failing commands on the file system whose file `a.txt` has the versions 0
and 1. -/
theorem FileSystem.failing_commands_keep_state_example :
    FileSystem.draftExample.file_map.get "b.txt" = some none ∧
    FileSystem.draftExample.handleInsert "b.txt" "x" 2 3 =
      some (FileSystem.draftExample, [.errFileNotFound "b.txt"]) ∧
    FileSystem.draftExample.handleRollback "b.txt" "0" =
      some (FileSystem.draftExample, [.errFileNotFound "b.txt"]) ∧
    FileSystem.draftExample.handleCreate "a.txt" 2 3 =
      some (FileSystem.draftExample, [.errFileExists "a.txt"]) ∧
    FileSystem.draftExample.handleRollback "a.txt" "1x" =
      some (FileSystem.draftExample, [.errInvalidVersion]) ∧
    FileSystem.draftExample.handleRollback "a.txt" "7" =
      some (FileSystem.draftExample, [.errVersionNotFound 7]) ∧
    FileSystem.draftExample.handleRollback "a.txt" "4294967303" =
      some (FileSystem.draftExample, [.errVersionNotFound 7]) ∧
    FileSystem.draftExample.handleRecentFiles (-1) = some [.errNegativeCount] :=
  ⟨by decide,
    ((FileSystem.failing_commands_keep_state FileSystem.draftExample).1 "b.txt" (by decide)).2.2.1
      "x" 2 3,
    ((FileSystem.failing_commands_keep_state FileSystem.draftExample).1 "b.txt" (by decide)).2.2.2.2.2
      "0",
    (FileSystem.failing_commands_keep_state FileSystem.draftExample).2.2.1 "a.txt" 2 3 (by decide),
    (FileSystem.failing_commands_keep_state FileSystem.draftExample).2.2.2.1 "a.txt" 0
      File.exampleDraft "1x" (by decide) rfl ⟨'x', by decide, by decide⟩,
    (FileSystem.failing_commands_keep_state FileSystem.draftExample).2.2.2.2.2.1 "a.txt" 0
      File.exampleDraft "7" (by decide) rfl (by decide) (by decide) (by decide) (by decide),
    (FileSystem.failing_commands_keep_state FileSystem.draftExample).2.2.2.2.1 "a.txt" 0
      File.exampleDraft "4294967303" (by decide) rfl (by decide) (by decide) (by decide),
    ((FileSystem.failing_commands_keep_state FileSystem.draftExample).2.2.2.2.2.2 (-1) (by decide)).1⟩

set_option maxRecDepth 100000 in
/-- C15 fails on the code, in two of its cases. After `CREATE a.txt` and
`INSERT a.txt hello` the file `a.txt` has the versions 0 and 1, and version 1
is active: the id 4294967296 is not in its
version index, but `ROLLBACK a.txt 4294967296` makes version 0 the active
one, since the digit loop computes the id in an `int`, where it is 0. And the
name `é` is not registered in the empty file system, but its hash is
negative, so `READ é` indexes the name table outside the vector and has no
defined result. -/
theorem C15_rollback_overflow_changes_state :
    ((FileSystem.init.handleCreate "a.txt" 1 1).bind
        (fun r => r.1.handleInsert "a.txt" "hello" 2 3)).map Prod.fst =
      some FileSystem.draftExample ∧
    (File.exampleDraft.nodes.map (fun n => n.version_id) = [0, 1] ∧
      File.exampleDraft.active_version = some 1 ∧
      File.exampleDraft.version_map.get 4294967296 = none) ∧
    (FileSystem.draftExample.handleRollback "a.txt" "4294967296").map
      (fun r => (r.1.files.map (fun f => f.active_version), r.2)) =
      some ([some 0], [.rolledBack 0]) ∧
    (FileSystem.draftExample.handleRollback "a.txt" "4294967296").map
      (fun r => decide (r.1 = FileSystem.draftExample)) = some false ∧
    (FileSystem.init.file_order = [] ∧ FileSystem.init.file_map.keys = [] ∧
      FileSystem.init.file_map.hashFunction "é" = -59 ∧
      FileSystem.init.handleRead "é" = none) ∧
    (FileSystem.draftExample.processCommand "ROLLBACK a.txt 4294967296" 0 0 =
        .ofHandler (FileSystem.draftExample.handleRollback "a.txt" "4294967296") ∧
      FileSystem.init.processCommand "READ é" 0 0 = .noReturn) := by
  decide

/-- C16 fails on the code: `RECENT_FILES` and `BIGGEST_TREES` followed by a
count that is not a number, or that is not an `int`, end with the exception of
`std::stoi`, which nothing catches; the command does not return. -/
theorem C16_count_argument_throws :
    FileSystem.init.processCommand "RECENT_FILES abc" 0 0 = .uncaught .invalid_argument ∧
    FileSystem.init.processCommand "BIGGEST_TREES abc" 0 0 = .uncaught .invalid_argument ∧
    FileSystem.init.processCommand "RECENT_FILES 99999999999" 0 0 = .uncaught .out_of_range ∧
    FileSystem.init.processCommand "BIGGEST_TREES 99999999999" 0 0 = .uncaught .out_of_range := by
  decide

/-! ## Invariants of reachable files -/

theorem File.Linked.of_modifyNode {f : File} (h : f.Linked) (a : Nat) (g : TreeNode → TreeNode)
    (hpar : ∀ n, (g n).parent = n.parent) (hch : ∀ n, (g n).children = n.children) :
    (f.modifyNode a g).Linked := by
  have hn : ∀ q, ((f.modifyNode a g).node q).parent = (f.node q).parent ∧
      ((f.modifyNode a g).node q).children = (f.node q).children := by
    intro q
    rw [File.node_modifyNode]
    split
    · rename_i hc
      rw [← hc.1]
      exact ⟨hpar _, hch _⟩
    · exact ⟨rfl, rfl⟩
  constructor
  intro p q hp hpq
  rw [File.length_modifyNode] at hp
  rw [(hn p).1] at hpq
  rw [(hn q).2]
  exact h.child_of_parent p q hp hpq

theorem File.Linked.of_updateTime {f : File} (h : f.Linked) (t : Int) : (f.updateTime t).Linked := by
  unfold File.updateTime
  cases ha : f.active_version with
  | none => simpa using h
  | some a => exact h.of_modifyNode a _ (fun _ => rfl) (fun _ => rfl)

theorem File.Linked.of_setActive {f : File} (h : f.Linked) (a : Option Nat) :
    File.Linked { f with active_version := a } :=
  ⟨h.child_of_parent⟩

theorem File.Linked.of_createNewVersion {f g : File} (hi : f.Inv) (h : f.Linked) (t : Int)
    (hg : f.createNewVersion t = some g) : g.Linked := by
  obtain ⟨a, ha, hal⟩ := hi.active
  by_cases hlt : f.nodes.length < 101
  · obtain ⟨g', hg', -, hlen, -, -, -, hnew, hold, hrest⟩ :=
      File.createNewVersion_spec hi a ha hlt t
    rw [hg'] at hg
    cases hg
    constructor
    intro p q hp hpq
    rw [hlen] at hp
    by_cases hpn : p = f.nodes.length
    · subst hpn
      rw [hnew] at hpq
      simp only [TreeNode.ofParent, Option.some.injEq] at hpq
      subst hpq
      rw [hold]
      simp
    · have hp' : p < f.nodes.length := by omega
      have hpar : (g.node p).parent = (f.node p).parent := by
        by_cases hpa : p = a
        · subst hpa; rw [hold]
        · rw [hrest p hpa hpn]
      rw [hpar] at hpq
      have hmem := h.child_of_parent p q hp' hpq
      have hq : q < f.nodes.length := by
        by_cases hp0 : p = 0
        · subst hp0
          rw [hi.parent_root] at hpq
          cases hpq
        · obtain ⟨q', hq', hlt'⟩ := hi.parent_lt p (by omega) hp'
          rw [hq'] at hpq
          cases hpq
          omega
      by_cases hqa : q = a
      · subst hqa
        rw [hold]
        simp [hmem]
      · rw [hrest q hqa (by omega)]
        exact hmem
  · have hfull : f.nodes.length = 101 := by have := hi.le_cap; omega
    rw [File.createNewVersion_full hi hfull] at hg
    cases hg

theorem File.Linked.of_create (msg : String) (t1 t2 : Int) (f : File)
    (hf : File.create msg t1 t2 = some f) : f.Linked := by
  rw [File.create_eq] at hf
  cases hf
  constructor
  intro p q hp hpq
  have hp0 : p = 0 := by
    have : p < 1 := hp
    omega
  subst hp0
  cases hpq

theorem File.Linked.of_step {f g : File} (hi : f.Inv) (h : f.Linked) (op : Op)
    (hg : f.step op = some g) : g.Linked := by
  have hedit : ∀ (k : TreeNode → TreeNode) (tNew tUpd : Int) (g : File),
      (∀ n, (k n).parent = n.parent) → (∀ n, (k n).children = n.children) →
      (match f.active_version with
        | none => some (f, [Report.errNoActiveModify])
        | some a =>
          match (if (f.node a).isSnapshot then f.createNewVersion tNew else some f) with
          | none => none
          | some f1 =>
            match f1.active_version with
            | none => none
            | some a1 => some ((f1.modifyNode a1 k).updateTime tUpd, [])).map Prod.fst = some g →
      g.Linked := by
    intro k tNew tUpd g hk1 hk2 hg
    obtain ⟨a, ha, hal⟩ := hi.active
    simp only [ha] at hg
    split at hg
    · cases hg
    · rename_i f1 hf1
      have h1 : f1.Linked := by
        split at hf1
        · exact h.of_createNewVersion hi tNew hf1
        · cases hf1; exact h
      split at hg
      · cases hg
      · simp only [Option.map_some', Option.some.injEq] at hg
        subst hg
        exact (h1.of_modifyNode _ k hk1 hk2).of_updateTime _
  cases op with
  | insert c tNew tUpd =>
    exact hedit (fun n => { n with content := n.content ++ c }) tNew tUpd g (fun _ => rfl)
      (fun _ => rfl) hg
  | update c tNew tUpd =>
    exact hedit (fun n => { n with content := c }) tNew tUpd g (fun _ => rfl) (fun _ => rfl) hg
  | snapshot msg tSnap tUpd =>
    simp only [File.step, Option.some.injEq] at hg
    subst hg
    unfold File.snapshot
    cases ha : f.active_version with
    | none => simpa using h
    | some a =>
      simp only
      split
      · exact h.of_updateTime _
      · exact (h.of_modifyNode a (fun n => { n with snapshot_timestamp := tSnap, message := msg })
          (fun _ => rfl) (fun _ => rfl)).of_updateTime _
  | rollback id =>
    simp only [File.step, Option.some.injEq] at hg
    subst hg
    unfold File.rollback
    split
    · exact h.of_setActive _
    · exact h
  | rollbackToParent =>
    simp only [File.step, Option.some.injEq] at hg
    subst hg
    unfold File.rollbackToParent
    split
    · exact h
    · split
      · exact h.of_setActive _
      · exact h

/-- In every reachable file the child lists agree with the parent links. -/
theorem File.Reachable.linked {f : File} (h : f.Reachable) : f.Linked := by
  induction h with
  | create msg t1 t2 f hf => exact File.Linked.of_create msg t1 t2 f hf
  | step f g op hf hg ih => exact ih.of_step hf.inv op hg

/-- Every node of a well-shaped file is reached from the root through child
links. -/
theorem File.Inv.fromRoot {f : File} (hi : f.Inv) (hl : f.Linked) :
    ∀ p, p < f.nodes.length → f.FromRoot p := by
  intro p
  induction p using Nat.strong_induction_on with
  | _ p ih =>
    intro hp
    by_cases h0 : p = 0
    · subst h0
      have := File.FromRoot.root (f := f)
      rwa [hi.root_eq] at this
    · obtain ⟨q, hq, hqp⟩ := hi.parent_lt p (by omega) hp
      exact File.FromRoot.child q p (ih q hqp (by omega)) (hl.child_of_parent p q hp hq)

theorem File.length_updateTime (f : File) (t : Int) :
    (f.updateTime t).nodes.length = f.nodes.length := by
  unfold File.updateTime
  split
  · rfl
  · exact File.length_modifyNode _ _ _

/-- No call makes the list of allocated nodes shorter. -/
theorem File.step_length_le {f g : File} (hi : f.Inv) (op : Op) (hg : f.step op = some g) :
    f.nodes.length ≤ g.nodes.length := by
  have hedit : ∀ (k : TreeNode → TreeNode) (tNew tUpd : Int) (g : File),
      (match f.active_version with
        | none => some (f, [Report.errNoActiveModify])
        | some a =>
          match (if (f.node a).isSnapshot then f.createNewVersion tNew else some f) with
          | none => none
          | some f1 =>
            match f1.active_version with
            | none => none
            | some a1 => some ((f1.modifyNode a1 k).updateTime tUpd, [])).map Prod.fst = some g →
      f.nodes.length ≤ g.nodes.length := by
    intro k tNew tUpd g hg
    obtain ⟨a, ha, hal⟩ := hi.active
    simp only [ha] at hg
    split at hg
    · cases hg
    · rename_i f1 hf1
      have h1 : f.nodes.length ≤ f1.nodes.length := by
        split at hf1
        · by_cases hlt : f.nodes.length < 101
          · obtain ⟨g', hg', -, hlen, -⟩ := File.createNewVersion_spec hi a ha hlt tNew
            rw [hg'] at hf1
            cases hf1
            omega
          · have hfull : f.nodes.length = 101 := by have := hi.le_cap; omega
            rw [File.createNewVersion_full hi hfull] at hf1
            cases hf1
        · cases hf1; exact le_refl _
      split at hg
      · cases hg
      · simp only [Option.map_some', Option.some.injEq] at hg
        subst hg
        rw [File.length_updateTime, File.length_modifyNode]
        exact h1
  cases op with
  | insert c tNew tUpd => exact hedit _ tNew tUpd g hg
  | update c tNew tUpd => exact hedit _ tNew tUpd g hg
  | snapshot msg tSnap tUpd =>
    simp only [File.step, Option.some.injEq] at hg
    subst hg
    unfold File.snapshot
    split
    · exact le_refl _
    · split
      · simp only [File.length_updateTime]; exact le_refl _
      · simp only [File.length_updateTime, File.length_modifyNode]; exact le_refl _
  | rollback id =>
    simp only [File.step, Option.some.injEq] at hg
    subst hg
    unfold File.rollback
    split <;> exact le_refl _
  | rollbackToParent =>
    simp only [File.step, Option.some.injEq] at hg
    subst hg
    unfold File.rollbackToParent
    split
    · exact le_refl _
    · split <;> exact le_refl _

/-- C17: in every reachable file the active version is non-null and is a node
reached from the root through child links, as is every node ever created;
the node ids are pairwise distinct and are exactly `0 .. total_versions - 1`,
`total_versions` being the number of nodes created; and no call lowers
`total_versions` or removes a node: the nodes of the file before the call
keep their ids and are still reached from the root. -/
theorem C17_reachable_file_invariants (f : File) (hr : f.Reachable) :
    (∃ a, f.active_version = some a ∧ a < f.nodes.length ∧ f.FromRoot a) ∧
    (∀ p, p < f.nodes.length → f.FromRoot p) ∧
    f.total_versions = (f.nodes.length : Int) ∧
    (∀ p, p < f.nodes.length → (f.node p).version_id = (p : Int)) ∧
    (∀ p q, p < f.nodes.length → q < f.nodes.length →
      (f.node p).version_id = (f.node q).version_id → p = q) ∧
    (∀ id : Int, 0 ≤ id → id < f.total_versions →
      ∃ p, p < f.nodes.length ∧ (f.node p).version_id = id) ∧
    (∀ op g, f.step op = some g →
      f.total_versions ≤ g.total_versions ∧ f.nodes.length ≤ g.nodes.length ∧
      ∀ p, p < f.nodes.length →
        (g.node p).version_id = (f.node p).version_id ∧ g.FromRoot p) := by
  have hi := hr.inv
  have hl := hr.linked
  obtain ⟨a, ha, hal⟩ := hi.active
  refine ⟨⟨a, ha, hal, hi.fromRoot hl a hal⟩, hi.fromRoot hl, hi.total, hi.ids, ?_, ?_, ?_⟩
  · intro p q hp hq hpq
    rw [hi.ids p hp, hi.ids q hq] at hpq
    exact_mod_cast hpq
  · intro id h0 h1
    obtain ⟨p, rfl⟩ := Int.eq_ofNat_of_zero_le h0
    have hp : p < f.nodes.length := by
      have := hi.total
      omega
    exact ⟨p, hp, hi.ids p hp⟩
  · intro op g hg
    have hgr : g.Reachable := File.Reachable.step f g op hr hg
    have hgi := hgr.inv
    have hlen := File.step_length_le hi op hg
    refine ⟨?_, hlen, ?_⟩
    · rw [hi.total, hgi.total]
      exact_mod_cast hlen
    · intro p hp
      have hp' : p < g.nodes.length := by omega
      exact ⟨by rw [hi.ids p hp, hgi.ids p hp'], hgi.fromRoot hgr.linked p hp'⟩

/-- The check of C17 on the branched file `File.exampleBranches`, with the
versions 0 to 3, and on the call `insert("d")`, which creates version 4 and
leads to `File.exampleTip`: version 2, off the path of the active version, is
reached from the root, the ids are the positions, and the call keeps the
nodes. -/
theorem C17_reachable_file_invariants_witness :
    (∃ a, File.exampleBranches.active_version = some a ∧ a < File.exampleBranches.nodes.length ∧
      File.exampleBranches.FromRoot a) ∧
    File.exampleBranches.FromRoot 2 ∧
    (File.exampleBranches.total_versions = (File.exampleBranches.nodes.length : Int) ∧
      File.exampleBranches.nodes.length = 4) ∧
    ((File.exampleBranches.node 1).version_id = 1 ∧
      (File.exampleBranches.node 3).version_id = 3) ∧
    (∃ p, p < File.exampleBranches.nodes.length ∧ (File.exampleBranches.node p).version_id = 2) ∧
    File.exampleBranches.step (.insert "d" 14 15) = some File.exampleTip ∧
    (File.exampleBranches.total_versions ≤ File.exampleTip.total_versions ∧
      File.exampleTip.total_versions = 5 ∧
      File.exampleBranches.nodes.length ≤ File.exampleTip.nodes.length) ∧
    ((File.exampleTip.node 2).version_id = (File.exampleBranches.node 2).version_id ∧
      File.exampleTip.FromRoot 2) :=
  have h := C17_reachable_file_invariants File.exampleBranches File.exampleBranches_reachable
  have hstep : File.exampleBranches.step (.insert "d" 14 15) = some File.exampleTip := by decide
  have hs := h.2.2.2.2.2.2 (.insert "d" 14 15) File.exampleTip hstep
  ⟨h.1, h.2.1 2 (by decide), ⟨h.2.2.1, by decide⟩,
    ⟨h.2.2.2.1 1 (by decide), h.2.2.2.1 3 (by decide)⟩,
    h.2.2.2.2.2.1 2 (by decide) (by decide), hstep, ⟨hs.1, by decide, hs.2.1⟩,
    hs.2.2 2 (by decide)⟩

/-! ## The hash of a file name -/

theorem FileMap.foldl_mod (capacity : Nat) (l : List Char) : ∀ a : Nat,
    l.foldl (fun hash c => (hash * 31 + c.toNat) % capacity) (a % capacity) =
      (l.foldl (fun hash c => hash * 31 + c.toNat) a) % capacity := by
  induction l with
  | nil => intro a; rfl
  | cons c cs ih =>
    intro a
    simp only [List.foldl_cons]
    rw [← ih (a * 31 + c.toNat)]
    congr 1
    rw [Nat.add_mod, Nat.mul_mod, Nat.mod_mod, ← Nat.mul_mod, ← Nat.add_mod]

theorem FileMap.range_sum_shift (n : Nat) (g : Nat → Nat) :
    ((List.range (n + 1)).map g).sum = g 0 + ((List.range n).map (fun i => g (i + 1))).sum := by
  rw [List.range_succ_eq_map, List.map_cons, List.sum_cons, List.map_map]
  rfl

theorem FileMap.foldl_horner (l : List Char) : ∀ a : Nat,
    l.foldl (fun hash c => hash * 31 + c.toNat) a =
      a * 31 ^ l.length +
        ((List.range l.length).map
          (fun i => (l.getD i default).toNat * 31 ^ (l.length - 1 - i))).sum := by
  induction l with
  | nil => intro a; simp
  | cons c cs ih =>
    intro a
    simp only [List.foldl_cons, List.length_cons]
    rw [ih, FileMap.range_sum_shift]
    simp only [List.getD_cons_zero, List.getD_cons_succ, Nat.add_sub_cancel, Nat.sub_zero]
    have hmap : (List.range cs.length).map
          (fun i => (cs.getD i default).toNat * 31 ^ (cs.length - (i + 1))) =
        (List.range cs.length).map
          (fun i => (cs.getD i default).toNat * 31 ^ (cs.length - 1 - i)) := by
      apply List.map_congr_left
      intro i _
      rw [show cs.length - (i + 1) = cs.length - 1 - i by omega]
    rw [hmap]
    ring

/-- One step of the hash loop from a hash in `[0, 101)` on a byte below 128:
the value before the reduction is in `[0, 3227]` and the reduction is the
remainder. -/
theorem FileMap.hash_step_small (hash : Int) (b : Nat) (h0 : 0 ≤ hash) (h1 : hash < 101)
    (hb : b ≤ 127) :
    0 ≤ hash * 31 + charValue b ∧ hash * 31 + charValue b ≤ 3227 ∧
    Int.tmod (wrapInt (hash * 31 + charValue b)) ((101 : Nat) : Int) =
      (hash * 31 + charValue b) % 101 := by
  have hv : charValue b = (b : Int) := by
    unfold charValue
    rw [if_pos (by omega)]
  rw [hv, wrapInt_of_small _ (by omega) (by omega)]
  refine ⟨by omega, by omega, ?_⟩
  rw [Int.tmod_eq_emod (by omega) (by omega)]
  rfl

theorem FileMap.hashTrace_bound (l : List Nat) (hl : ∀ b ∈ l, b ≤ 127) :
    ∀ hash : Int, 0 ≤ hash → hash < 101 →
      ∀ v ∈ FileMap.hashTrace 101 l hash, 0 ≤ v ∧ v ≤ 3227 := by
  induction l with
  | nil => intro hash _ _ v hv; cases hv
  | cons c cs ih =>
    intro hash h0 h1 v hv
    rw [FileMap.hashTrace] at hv
    obtain ⟨s0, s1, s2⟩ := FileMap.hash_step_small hash c h0 h1 (hl c (List.mem_cons_self _ _))
    rcases List.mem_cons.mp hv with rfl | hv2
    · exact ⟨s0, s1⟩
    · refine ih (fun d hd => hl d (List.mem_cons_of_mem _ hd)) _ ?_ ?_ v hv2
      · rw [s2]; omega
      · rw [s2]; omega

theorem FileMap.hashTrace_last (l : List Nat) (hl : ∀ b ∈ l, b ≤ 127) :
    ∀ hash : Int, 0 ≤ hash → hash < 101 →
      l.foldl (fun hash b => Int.tmod (wrapInt (hash * 31 + charValue b)) ((101 : Nat) : Int)) hash =
        (FileMap.hashTrace 101 l hash).getLastD hash % 101 := by
  induction l with
  | nil =>
    intro hash h0 h1
    show hash = hash % 101
    omega
  | cons c cs ih =>
    intro hash h0 h1
    obtain ⟨s0, s1, s2⟩ := FileMap.hash_step_small hash c h0 h1 (hl c (List.mem_cons_self _ _))
    simp only [List.foldl_cons, FileMap.hashTrace]
    rw [ih (fun d hd => hl d (List.mem_cons_of_mem _ hd)) _ (by rw [s2]; omega)
      (by rw [s2]; omega)]
    cases hcs : cs with
    | nil =>
      simp only [FileMap.hashTrace, List.getLastD_nil, List.getLastD_cons]
      rw [s2]
      omega
    | cons d ds =>
      simp only [FileMap.hashTrace, List.getLastD_cons]

/-- C19: for the capacity 101 and a key whose character codes are at most
127, `hashFunction`, which reduces after every step, returns the polynomial
rolling hash `sum of c_i * 31^(n-1-i)` reduced once; the result is in
`[0, 101)`, a slot index; and every value of `hash*31 + key[i]` computed on
the way is in `[0, 3227]`, far below `2^31`, the last of them giving the
result. -/
theorem C19_hash_is_polynomial_mod (m : FileMap) (hcap : m.capacity = 101) (key : String)
    (hascii : ∀ c ∈ key.data, c.toNat ≤ 127) :
    m.hashFunction key = ((FileMap.polynomial key % 101 : Nat) : Int) ∧
    (0 ≤ m.hashFunction key ∧ m.hashFunction key < 101) ∧
    (∀ v ∈ FileMap.hashTrace 101 (stringBytes key) 0, 0 ≤ v ∧ v ≤ 3227 ∧ v < 2 ^ 31) ∧
    m.hashFunction key = (FileMap.hashTrace 101 (stringBytes key) 0).getLastD 0 % 101 := by
  have hbytes : ∀ b ∈ stringBytes key, b ≤ 127 := by
    rw [stringBytes_ascii key hascii]
    intro b hb
    obtain ⟨c, hc, rfl⟩ := List.mem_map.mp hb
    exact hascii c hc
  have h1 := FileMap.foldl_mod 101 key.data 0
  rw [Nat.zero_mod] at h1
  have hnat := FileMap.hashFunction_ascii m hcap key hascii
  rw [h1] at hnat
  refine ⟨?_, ?_, ?_, ?_⟩
  · rw [hnat]
    unfold FileMap.polynomial
    rw [FileMap.foldl_horner, Nat.zero_mul, Nat.zero_add]
  · rw [hnat]
    have := Nat.mod_lt (List.foldl (fun hash c => hash * 31 + c.toNat) 0 key.data)
      (show 0 < 101 by decide)
    omega
  · intro v hv
    have := FileMap.hashTrace_bound (stringBytes key) hbytes 0 (le_refl 0) (by decide) v hv
    exact ⟨this.1, this.2, by omega⟩
  · unfold FileMap.hashFunction
    rw [hcap]
    exact FileMap.hashTrace_last (stringBytes key) hbytes 0 (le_refl 0) (by decide)

/-- The check of C19 on the key `a.txt`. -/
theorem C19_hash_is_polynomial_mod_witness :
    (FileMap.init 101).capacity = 101 ∧ (∀ c ∈ ("a.txt" : String).data, c.toNat ≤ 127) ∧
    (FileMap.init 101).hashFunction "a.txt" = ((FileMap.polynomial "a.txt" % 101 : Nat) : Int) ∧
    (0 ≤ (FileMap.init 101).hashFunction "a.txt" ∧ (FileMap.init 101).hashFunction "a.txt" < 101) :=
  ⟨rfl, by decide,
    (C19_hash_is_polynomial_mod (FileMap.init 101) rfl "a.txt" (by decide)).1,
    (C19_hash_is_polynomial_mod (FileMap.init 101) rfl "a.txt" (by decide)).2.1⟩

/-! ## FileMap as a finite map -/

/-- In a well-shaped table `get` returns the value of the slot holding the
key. -/
theorem FileMap.Inv.get_of_holds {m : FileMap} (h : m.Inv) (k : String)
    (hne : k.isEmpty = false) (i : Nat) (hh : (m.slot i).holds k = true) :
    m.getIn k = (m.slot i).value := by
  obtain ⟨hl, hk⟩ := FileMap.Entry.live_of_holds _ _ hh
  obtain ⟨D, hD, hi, hchain⟩ := h.chain i hl
  rw [hk] at hi hchain
  have hbefore : ∀ d, d < D → (m.slot (m.pos (m.index k) d)).occupied = true ∧
      (m.slot (m.pos (m.index k) d)).holds k = false := by
    intro d hd
    refine ⟨hchain d hd, ?_⟩
    cases hc : (m.slot (m.pos (m.index k) d)).holds k with
    | false => rfl
    | true =>
      exfalso
      obtain ⟨hl2, hk2⟩ := FileMap.Entry.live_of_holds _ _ hc
      have := h.uniq _ i hl2 hl (hk2.trans hk.symm)
      rw [hi] at this
      have := FileMap.pos_inj m _ d D (by omega) hD this
      omega
  have hfind := FileMap.find_hit m k h.cap_pos D hD (by rw [← hi]; exact hh) hbefore
  unfold FileMap.getIn
  simp only [hne, Bool.false_eq_true, if_false, hfind]
  rw [← hi]

/-- In a table no slot of which holds the key, `get` returns null. -/
theorem FileMap.get_none_of_no_holds (m : FileMap) (hc : 0 < m.capacity) (k : String)
    (hno : ∀ i, (m.slot i).holds k = false) : m.getIn k = none := by
  unfold FileMap.getIn
  split
  · rfl
  · cases hf : m.find k with
    | none => rfl
    | some j =>
      have := (FileMap.find_sound m k hc j hf).2
      rw [hno j] at this
      cases this

theorem FileMap.Inv.no_holds_of_get_none {m : FileMap} (h : m.Inv) (k : String)
    (hg : m.getIn k = none) : ∀ i, (m.slot i).holds k = false := by
  intro i
  cases hc : (m.slot i).holds k with
  | false => rfl
  | true =>
    exfalso
    obtain ⟨hl, hk⟩ := FileMap.Entry.live_of_holds _ _ hc
    have hne := (h.key_ne i hl).1
    rw [hk] at hne
    have := h.get_of_holds k hne i hc
    rw [hg] at this
    exact (h.key_ne i hl).2 this.symm

/-- Two well-shaped tables whose slots hold a key at the same places, with
the same values, give the same `get` for the key. -/
theorem FileMap.Inv.get_congr {m m' : FileMap} (h : m.Inv) (h' : m'.Inv) (k : String)
    (hsame : ∀ i, (m'.slot i).holds k = (m.slot i).holds k ∧
      ((m.slot i).holds k = true → (m'.slot i).value = (m.slot i).value)) :
    m'.getIn k = m.getIn k := by
  by_cases hne : k.isEmpty = true
  · unfold FileMap.getIn
    simp only [hne, if_true]
  · have hne' : k.isEmpty = false := by
      cases hb : k.isEmpty
      · rfl
      · exact absurd hb hne
    by_cases hex : ∃ i, (m.slot i).holds k = true
    · obtain ⟨i, hi⟩ := hex
      rw [h.get_of_holds k hne' i hi, h'.get_of_holds k hne' i ((hsame i).1.trans hi)]
      exact (hsame i).2 hi
    · have hno : ∀ i, (m.slot i).holds k = false := by
        intro i
        cases hc : (m.slot i).holds k
        · rfl
        · exact absurd ⟨i, hc⟩ hex
      rw [FileMap.get_none_of_no_holds m h.cap_pos k hno,
        FileMap.get_none_of_no_holds m' h'.cap_pos k (fun i => (hsame i).1.trans (hno i))]

/-- A write to a slot that does not hold the key, of an entry that does not
hold it, does not change `get` of the key. -/
theorem FileMap.Inv.get_write_other {m : FileMap} (h : m.Inv) (s : Nat) (e : FileMap.Entry)
    (h' : (m.write s e).Inv) (k : String) (hold : (m.slot s).holds k = false)
    (hnew : e.holds k = false) : (m.write s e).getIn k = m.getIn k := by
  apply h.get_congr h' k
  intro i
  rw [FileMap.slot_write]
  split
  · rename_i hc
    rw [← hc.1, hnew, hold]
    exact ⟨rfl, fun hf => by cases hf⟩
  · exact ⟨rfl, fun _ => rfl⟩

theorem FileMap.hasRoom_iff (m : FileMap) :
    m.hasRoom = true ↔ ∃ i, i < m.entries.length ∧ (m.slot i).live = false := by
  unfold FileMap.hasRoom
  rw [List.any_eq_true]
  constructor
  · rintro ⟨e, he, hl⟩
    obtain ⟨i, hi, rfl⟩ := List.getElem_of_mem he
    refine ⟨i, hi, ?_⟩
    unfold FileMap.slot
    rw [List.getD_eq_getElem _ _ hi]
    simpa using hl
  · rintro ⟨i, hi, hl⟩
    refine ⟨m.entries[i], List.getElem_mem hi, ?_⟩
    unfold FileMap.slot at hl
    rw [List.getD_eq_getElem _ _ hi] at hl
    simp [hl]

/-- What `insert` of a non-empty key with a non-null value does to a
well-shaped table that has room for a new key: it writes one slot with a live
entry of the key; that slot held the key before, and then only its value
changes, or it held no live entry. -/
theorem FileMap.Inv.insert_eq_write {m : FileMap} (h : m.Inv) (k : String)
    (hne : k.isEmpty = false) (v : Option Nat) (hv : v ≠ none)
    (hroom : m.getIn k = none → m.hasRoom = true) :
    ∃ s e, m.insertIn k v = m.write s e ∧ e.holds k = true ∧ e.value = v ∧
      (((m.slot s).holds k = true ∧ e = { m.slot s with value := v }) ∨
        ((m.slot s).live = false ∧ m.getIn k = none)) := by
  obtain ⟨exit, hexit, hspec⟩ := FileMap.insertProbe_start m k h.cap_pos
  have hv' : (v == none) = false := by
    cases v with
    | none => exact absurd rfl hv
    | some _ => rfl
  have hnew : (⟨k, v, false, false⟩ : FileMap.Entry).holds k = true := by
    simp [FileMap.Entry.holds]
  unfold FileMap.insertIn
  simp only [hne, hv', Bool.or_self, Bool.false_eq_true, if_false, hexit]
  cases exit with
  | overwrite i =>
    obtain ⟨D, hD, hi, hhold, -⟩ := hspec
    exact ⟨i, _, rfl, hhold, rfl, Or.inl ⟨hhold, rfl⟩⟩
  | place idx fd =>
    have hno := h.no_holds_of_place k idx fd hspec
    have hgn : m.getIn k = none := FileMap.get_none_of_no_holds m h.cap_pos k hno
    obtain ⟨E, hE, hidx, hbefore, hstop, hfd, hnd⟩ := hspec
    cases fd with
    | some s =>
      obtain ⟨D, hD, hs, hdel⟩ := hfd s rfl
      refine ⟨s, _, rfl, hnew, rfl, Or.inr ⟨?_, hgn⟩⟩
      unfold FileMap.Entry.live
      rw [hdel]
      simp
    | none =>
      refine ⟨idx, _, rfl, hnew, rfl, Or.inr ⟨?_, hgn⟩⟩
      rcases hstop with hc | hno'
      · -- the whole cycle was probed and no slot is a tombstone: no room
        exfalso
        obtain ⟨i, hi, hl⟩ := (FileMap.hasRoom_iff m).mp (hroom hgn)
        rw [h.len] at hi
        obtain ⟨d, hd, hdi⟩ := VersionMap.probe_cover m.capacity (m.index k) i
          (m.index_lt h.cap_pos k) hi
        have ho := (hbefore d (by omega)).1
        have hdl := hnd rfl d (by omega)
        have hpos : m.pos (m.index k) d = i := hdi
        rw [hpos] at ho hdl
        unfold FileMap.Entry.live at hl
        unfold FileMap.Entry.occupied at ho
        rw [hdl] at ho hl
        simp at ho hl
        rw [ho] at hl
        cases hl
      · cases hl : (m.slot idx).live with
        | false => rfl
        | true =>
          rw [FileMap.Entry.occupied_of_live _ hl] at hno'
          cases hno'

/-- An insert that has room does not change `get` of any other key. -/
theorem FileMap.Inv.get_insert_other {m : FileMap} (h : m.Inv) (k : String) (v : Option Nat)
    (hroom : k.isEmpty = false → v ≠ none → m.getIn k = none → m.hasRoom = true)
    (k' : String) (hkk : k' ≠ k) : (m.insertIn k v).getIn k' = m.getIn k' := by
  by_cases hg : (k.isEmpty || v == none) = true
  · unfold FileMap.insertIn
    simp only [hg, if_true]
  · have hne : k.isEmpty = false := by
      cases hb : k.isEmpty
      · rfl
      · exfalso; apply hg; rw [hb]; rfl
    have hv : v ≠ none := by
      intro hv
      apply hg
      rw [hv]
      simp
    obtain ⟨s, e, hw, he, -, hcase⟩ := h.insert_eq_write k hne v hv (hroom hne hv)
    have hinv := h.after_insert k v
    rw [hw] at hinv ⊢
    have hek : e.key = k := (FileMap.Entry.live_of_holds _ _ he).2
    apply h.get_write_other s e hinv k'
    · rcases hcase with ⟨hh, -⟩ | ⟨hl, -⟩
      · have hsk := (FileMap.Entry.live_of_holds _ _ hh).2
        rw [FileMap.Entry.holds_eq, hsk]
        simp [Ne.symm hkk]
      · rw [FileMap.Entry.holds_eq, hl]
        rfl
    · rw [FileMap.Entry.holds_eq, hek]
      simp [Ne.symm hkk]

/-- An erase does not change `get` of any other key. -/
theorem FileMap.Inv.get_erase_other {m : FileMap} (h : m.Inv) (k k' : String) (hkk : k' ≠ k) :
    (m.eraseIn k).getIn k' = m.getIn k' := by
  have hinv := h.after_erase k
  unfold FileMap.eraseIn at hinv ⊢
  split
  · rfl
  · cases hf : m.find k with
    | none => rfl
    | some s =>
      rename_i hne
      simp only [hne, if_false, hf] at hinv
      simp only
      have hh := (FileMap.find_sound m k h.cap_pos s hf).2
      have hsk := (FileMap.Entry.live_of_holds _ _ hh).2
      apply h.get_write_other s _ hinv k'
      · rw [FileMap.Entry.holds_eq, hsk]
        simp [Ne.symm hkk]
      · rfl
theorem FileMap.slot_of_ge (m : FileMap) (i : Nat) (hi : m.entries.length ≤ i) :
    m.slot i = default := by
  unfold FileMap.slot
  exact List.getD_eq_default _ _ hi

theorem FileMap.lt_of_holds (m : FileMap) (k : String) (i : Nat)
    (hh : (m.slot i).holds k = true) : i < m.entries.length := by
  by_contra hc
  rw [FileMap.slot_of_ge m i (by omega)] at hh
  cases hh

theorem FileMap.mem_keys (m : FileMap) (k : String) :
    k ∈ m.keys ↔ ∃ i, (m.slot i).holds k = true := by
  unfold FileMap.keys
  rw [List.mem_map]
  constructor
  · rintro ⟨e, he, rfl⟩
    rw [List.mem_filter] at he
    obtain ⟨i, hi, hie⟩ := List.getElem_of_mem he.1
    refine ⟨i, ?_⟩
    unfold FileMap.slot
    rw [List.getD_eq_getElem _ _ hi, hie]
    unfold FileMap.Entry.holds
    have := he.2
    simp only [Bool.and_eq_true] at this ⊢
    exact ⟨this, by simp⟩
  · rintro ⟨i, hh⟩
    have hi := FileMap.lt_of_holds m k i hh
    unfold FileMap.slot at hh
    rw [List.getD_eq_getElem _ _ hi] at hh
    refine ⟨m.entries[i], ?_, ?_⟩
    · rw [List.mem_filter]
      refine ⟨List.getElem_mem hi, ?_⟩
      unfold FileMap.Entry.holds at hh
      simp only [Bool.and_eq_true] at hh ⊢
      exact hh.1
    · unfold FileMap.Entry.holds at hh
      simp only [Bool.and_eq_true, beq_iff_eq] at hh
      exact hh.2

theorem FileMap.Inv.mem_keys_iff {m : FileMap} (h : m.Inv) (k : String) :
    k ∈ m.keys ↔ m.getIn k ≠ none := by
  rw [FileMap.mem_keys]
  constructor
  · rintro ⟨i, hh⟩ hg
    have := h.no_holds_of_get_none k hg i
    rw [hh] at this
    cases this
  · intro hg
    by_contra hno
    apply hg
    apply FileMap.get_none_of_no_holds m h.cap_pos k
    intro i
    cases hc : (m.slot i).holds k
    · rfl
    · exact absurd ⟨i, hc⟩ hno

theorem FileMap.Inv.keys_nodup {m : FileMap} (h : m.Inv) : m.keys.Nodup := by
  unfold FileMap.keys
  have hp : List.Pairwise (fun (a b : FileMap.Entry) => a.live = true → b.live = true → a.key ≠ b.key)
      m.entries := by
    rw [List.pairwise_iff_getElem]
    intro i j hi hj hij ha hb hk
    have hsi : m.slot i = m.entries[i] := by
      unfold FileMap.slot
      exact List.getD_eq_getElem _ _ hi
    have hsj : m.slot j = m.entries[j] := by
      unfold FileMap.slot
      exact List.getD_eq_getElem _ _ hj
    have := h.uniq i j (by rw [hsi]; exact ha) (by rw [hsj]; exact hb) (by rw [hsi, hsj]; exact hk)
    omega
  have hf := List.Pairwise.filter (fun (e : FileMap.Entry) => !e.is_empty && !e.is_deleted) hp
  unfold List.Nodup
  rw [List.pairwise_map]
  refine List.Pairwise.imp_of_mem ?_ hf
  intro a b ha hb hab
  exact hab (List.mem_filter.mp ha).2 (List.mem_filter.mp hb).2

theorem FileMap.keys_set_aux (l : List FileMap.Entry) (s : Nat) (e : FileMap.Entry)
    (hs : s < l.length) (hl : e.live = (l.getD s default).live)
    (hk : e.key = (l.getD s default).key) :
    ((l.set s e).filter (fun e => !e.is_empty && !e.is_deleted)).map (fun e => e.key) =
      (l.filter (fun e => !e.is_empty && !e.is_deleted)).map (fun e => e.key) := by
  induction l generalizing s with
  | nil => rfl
  | cons a l ih =>
    cases s with
    | zero =>
      have hl' : e.live = a.live := hl
      have hk' : e.key = a.key := hk
      unfold FileMap.Entry.live at hl'
      simp only [List.set_cons_zero, List.filter_cons, hl']
      split
      · simp only [List.map_cons, hk']
      · rfl
    | succ s =>
      have ih' := ih s (by simpa using hs) hl hk
      simp only [List.set_cons_succ, List.filter_cons]
      split
      · simp only [List.map_cons, ih']
      · exact ih'

theorem FileMap.outside_of_insert (m g : FileMap) (k : String) (v : Option Nat)
    (hk : k.isEmpty = false) (hv : v ≠ none) (h : m.insert k v = some g) :
    m.outside k = false := by
  have hv2 : (v == none) = false := by
    cases v with
    | none => exact absurd rfl hv
    | some _ => rfl
  unfold FileMap.insert at h
  cases ho : m.outside k
  · rfl
  · simp [hk, hv2, ho] at h

/-- The invariant of the refinement: the table is well shaped, has the
capacity 101, the probe from the slot `index k` finds what the finite map
holds for `k`, and the keys of the finite map have a hash that is not
negative. -/
theorem FileMap.RoomyRun.refines {m : FileMap} {M : FiniteMap} (hr : FileMap.RoomyRun m M) :
    m.Inv ∧ m.capacity = 101 ∧ (∀ k, m.getIn k = M k) ∧
      (∀ k, M k ≠ none → m.outside k = false) := by
  induction hr with
  | init =>
    exact ⟨FileMap.Inv.of_init 101 (by decide), rfl, fun k => FileMap.get_init 101 (by decide) k,
      fun k hk => absurd rfl hk⟩
  | insert m g M k v _ hins hroom ih =>
    obtain ⟨hinv, hcap, hget, hout⟩ := ih
    have hg' := FileMap.insertIn_of_insert m g k v hins
    subst hg'
    have hcap2 := (FileMap.capacity_insertIn m k v).trans hcap
    refine ⟨hinv.after_insert k v, hcap2, ?_, ?_⟩
    · intro k'
      by_cases hg : (k.isEmpty || v == none) = true
      · unfold FileMap.insertIn FiniteMap.insert
        simp only [hg, if_true]
        exact hget k'
      · have hne : k.isEmpty = false := by
          cases hb : k.isEmpty
          · rfl
          · exfalso; apply hg; rw [hb]; rfl
        have hv : v ≠ none := by
          intro hv
          apply hg
          rw [hv]
          simp
        have hin := FileMap.outside_of_insert m _ k v hne hv hins
        have hroom2 : k.isEmpty = false → v ≠ none → m.getIn k = none → m.hasRoom = true := by
          intro h1 h2 h3
          apply hroom h1 h2
          rw [FileMap.get_eq m k hin, h3]
        by_cases hkk : k' = k
        · rw [hkk, FileMap.get_insert m hinv.cap_pos hinv.len k hne v hv]
          unfold FiniteMap.insert
          simp only [hg, Bool.false_eq_true, if_false, if_true]
        · rw [hinv.get_insert_other k v hroom2 k' hkk, hget k']
          unfold FiniteMap.insert
          simp only [hg, Bool.false_eq_true, if_false, hkk]
    · intro k' hk'
      rw [FileMap.outside_congr m _ (FileMap.capacity_insertIn m k v) k']
      by_cases hg : (k.isEmpty || v == none) = true
      · unfold FiniteMap.insert at hk'
        simp only [hg, if_true] at hk'
        exact hout k' hk'
      · have hne : k.isEmpty = false := by
          cases hb : k.isEmpty
          · rfl
          · exfalso; apply hg; rw [hb]; rfl
        have hv : v ≠ none := by
          intro hv
          apply hg
          rw [hv]
          simp
        by_cases hkk : k' = k
        · rw [hkk]
          exact FileMap.outside_of_insert m _ k v hne hv hins
        · unfold FiniteMap.insert at hk'
          simp only [hg, Bool.false_eq_true, if_false, hkk] at hk'
          exact hout k' hk'
  | erase m g M k _ her ih =>
    obtain ⟨hinv, hcap, hget, hout⟩ := ih
    have hg' := FileMap.eraseIn_of_erase m g k her
    subst hg'
    refine ⟨hinv.after_erase k, (FileMap.capacity_eraseIn m k).trans hcap, ?_, ?_⟩
    · intro k'
      by_cases hne : k.isEmpty = true
      · unfold FileMap.eraseIn FiniteMap.erase
        simp only [hne, if_true]
        exact hget k'
      · by_cases hkk : k' = k
        · rw [hkk, hinv.get_erase k]
          unfold FiniteMap.erase
          simp only [hne, Bool.false_eq_true, if_false, if_true]
        · rw [hinv.get_erase_other k k' hkk, hget k']
          unfold FiniteMap.erase
          simp only [hne, Bool.false_eq_true, if_false, hkk]
    · intro k' hk'
      rw [FileMap.outside_congr m _ (FileMap.capacity_eraseIn m k) k']
      apply hout k'
      intro hM
      apply hk'
      unfold FiniteMap.erase
      split
      · exact hM
      · simp only
        split
        · rfl
        · exact hM

/-- The result of `get` is the same in two tables of one capacity in which
the probe from the slot `index k` finds the same. -/
theorem FileMap.get_congr_of_getIn (m g : FileMap) (hcap : g.capacity = m.capacity) (k : String)
    (h : g.getIn k = m.getIn k) : g.get k = m.get k := by
  unfold FileMap.get
  rw [FileMap.outside_congr m g hcap k, h]

/-- An insert of a key that is present, with a non-null value, rewrites the
value of the slot holding the key and nothing else. -/
theorem FileMap.Inv.insert_present {m : FileMap} (h : m.Inv) (k : String) (v : Option Nat)
    (hp : m.getIn k ≠ none) (hv : v ≠ none) :
    ∃ s, s < m.entries.length ∧ (m.slot s).holds k = true ∧
      m.insertIn k v = m.write s { m.slot s with value := v } ∧
      (m.insertIn k v).keys = m.keys := by
  have hne : k.isEmpty = false := by
    cases hb : k.isEmpty
    · rfl
    · exfalso
      apply hp
      unfold FileMap.getIn
      simp only [hb, if_true]
  obtain ⟨s, e, hw, -, -, hcase⟩ := h.insert_eq_write k hne v hv (fun hg => absurd hg hp)
  rcases hcase with ⟨hh, he⟩ | ⟨-, hg⟩
  · have hs := FileMap.lt_of_holds m k s hh
    refine ⟨s, hs, hh, by rw [hw, he], ?_⟩
    rw [hw, he]
    unfold FileMap.keys FileMap.write
    exact FileMap.keys_set_aux m.entries s _ hs rfl rfl
  · exact absurd hg hp

/-- The refinement: `FileMap` refines a finite map from non-empty strings to
non-null values, for the keys whose hash is not negative, while no insert of
a new key finds the table full of live entries. After every sequence of
`insert` and `erase` calls from the empty table of capacity 101 in which
every call has a defined result and each insert of a new key finds an empty
or tombstoned slot, with `M` the finite map after the same calls: the hash of
every key of character codes at most 127, and of every key of `M`, is not
negative; for a key whose hash is not negative `get k` is the lookup of `k`
in `M`, `contains k` is true exactly for the keys of `M`, and `insert` and
`erase` have a defined result; the empty key is no key of `M`; `keys()` has
no duplicate and lists exactly the keys of `M`; an insert of a present key
with a non-null value rewrites the value of the slot that holds the key,
leaves `keys()` as it is and makes `get k` the new value; an insert that has
room, and any erase, of `k` leaves `get` of every other key unchanged. -/
theorem FileMap.refines_finite_map (m : FileMap) (M : FiniteMap)
    (hr : FileMap.RoomyRun m M) :
    ((∀ k : String, (∀ c ∈ k.data, c.toNat ≤ 127) → m.outside k = false) ∧
      (∀ k, M k ≠ none → m.outside k = false)) ∧
    (∀ k, m.outside k = false →
      m.get k = some (M k) ∧ m.contains k = some (M k != none) ∧
      (∀ v, ∃ g, m.insert k v = some g) ∧ (∃ g, m.erase k = some g)) ∧
    (∀ k, k.isEmpty = true → M k = none) ∧
    m.keys.Nodup ∧
    (∀ k, k ∈ m.keys ↔ M k ≠ none) ∧
    (∀ k v, M k ≠ none → v ≠ none →
      ∃ g, m.insert k v = some g ∧
        (∃ s, s < m.entries.length ∧ (m.slot s).holds k = true ∧
          g = m.write s { m.slot s with value := v }) ∧
        g.keys = m.keys ∧ g.get k = some v) ∧
    (∀ k v g k', k' ≠ k → m.insert k v = some g →
      (k.isEmpty = false → v ≠ none → m.get k = some none → m.hasRoom = true) →
      g.get k' = m.get k') ∧
    (∀ k g k', k' ≠ k → m.erase k = some g → g.get k' = m.get k') := by
  obtain ⟨hinv, hcap, hget, hout⟩ := hr.refines
  have hempty : ∀ k : String, k.isEmpty = true → M k = none := by
    intro k hk
    rw [← hget k]
    unfold FileMap.getIn
    simp only [hk, if_true]
  refine ⟨⟨fun k hk => FileMap.outside_ascii m hcap k hk, hout⟩, ?_, hempty, hinv.keys_nodup,
    ?_, ?_, ?_, ?_⟩
  · intro k hk
    refine ⟨?_, ?_, fun v => ⟨_, FileMap.insert_eq m k v hk⟩, ⟨_, FileMap.erase_eq m k hk⟩⟩
    · rw [FileMap.get_eq m k hk, hget k]
    · rw [FileMap.contains_eq m k hk]
      unfold FileMap.containsIn
      rw [hget k]
  · intro k
    rw [hinv.mem_keys_iff k, hget k]
  · intro k v hk hv
    have hin := hout k hk
    rw [← hget k] at hk
    obtain ⟨s, hs, hh, hw, hkeys⟩ := hinv.insert_present k v hk hv
    have hne : k.isEmpty = false := by
      cases hb : k.isEmpty
      · rfl
      · exfalso
        apply hk
        unfold FileMap.getIn
        simp only [hb, if_true]
    have hin2 : (m.insertIn k v).outside k = false :=
      (FileMap.outside_congr m _ (FileMap.capacity_insertIn m k v) k).trans hin
    refine ⟨m.insertIn k v, FileMap.insert_eq m k v hin, ⟨s, hs, hh, hw⟩, hkeys, ?_⟩
    rw [FileMap.get_eq _ k hin2, FileMap.get_insert m hinv.cap_pos hinv.len k hne v hv]
  · intro k v g k' hkk hins hroom
    have hg' := FileMap.insertIn_of_insert m g k v hins
    subst hg'
    apply FileMap.get_congr_of_getIn m _ (FileMap.capacity_insertIn m k v) k'
    apply hinv.get_insert_other k v ?_ k' hkk
    intro h1 h2 h3
    apply hroom h1 h2
    rw [FileMap.get_eq m k (FileMap.outside_of_insert m _ k v h1 h2 hins), h3]
  · intro k g k' hkk her
    have hg' := FileMap.eraseIn_of_erase m g k her
    subst hg'
    exact FileMap.get_congr_of_getIn m _ (FileMap.capacity_eraseIn m k) k'
      (hinv.get_erase_other k k' hkk)

/-- The refinement on the table of capacity 101 after `insert("a.txt", 0)`,
`insert("b.txt", 1)` and `erase("a.txt")`, for the keys `a.txt` and
`b.txt`. -/
theorem FileMap.refines_finite_map_example :
    FileMap.RoomyRun
      ((((FileMap.init 101).insertIn "a.txt" (some 0)).insertIn "b.txt" (some 1)).eraseIn "a.txt")
      (((FiniteMap.empty.insert "a.txt" (some 0)).insert "b.txt" (some 1)).erase "a.txt") ∧
    ((((FileMap.init 101).insertIn "a.txt" (some 0)).insertIn "b.txt" (some 1)).eraseIn
      "a.txt").get "a.txt" = some none ∧
    ((((FileMap.init 101).insertIn "a.txt" (some 0)).insertIn "b.txt" (some 1)).eraseIn
      "a.txt").get "b.txt" = some (some 1) ∧
    ((((FileMap.init 101).insertIn "a.txt" (some 0)).insertIn "b.txt" (some 1)).eraseIn
      "a.txt").keys.Nodup ∧
    ("b.txt" ∈ ((((FileMap.init 101).insertIn "a.txt" (some 0)).insertIn "b.txt"
      (some 1)).eraseIn "a.txt").keys) :=
  have hrun : FileMap.RoomyRun
      ((((FileMap.init 101).insertIn "a.txt" (some 0)).insertIn "b.txt" (some 1)).eraseIn "a.txt")
      (((FiniteMap.empty.insert "a.txt" (some 0)).insert "b.txt" (some 1)).erase "a.txt") :=
    FileMap.RoomyRun.erase (((FileMap.init 101).insertIn "a.txt" (some 0)).insertIn "b.txt" (some 1))
      _ _ "a.txt"
      (FileMap.RoomyRun.insert ((FileMap.init 101).insertIn "a.txt" (some 0)) _ _ "b.txt" (some 1)
        (FileMap.RoomyRun.insert (FileMap.init 101) _ _ "a.txt" (some 0) FileMap.RoomyRun.init
          (by decide) (fun _ _ _ => by decide))
        (by decide) (fun _ _ _ => by decide))
      (by decide)
  have h := FileMap.refines_finite_map _ _ hrun
  ⟨hrun, (h.2.1 "a.txt" (by decide)).1, (h.2.1 "b.txt" (by decide)).1, h.2.2.2.1,
    (h.2.2.2.2.1 "b.txt").mpr (by decide)⟩

/-- C20 fails on the code: in the empty table of capacity 101 the key `é` is
not a key of the finite map, but its hash is -59, so `get` indexes `entries`
outside the vector and has no defined result, where the finite map answers
that the key is absent; and so has `insert`, after which the finite map holds
the key. -/
theorem C20_negative_hash_breaks_refinement :
    FileMap.RoomyRun (FileMap.init 101) FiniteMap.empty ∧
    (FileMap.init 101).hashFunction "é" = -59 ∧
    FiniteMap.empty "é" = none ∧
    (FileMap.init 101).get "é" = none ∧
    (FileMap.init 101).contains "é" = none ∧
    (FileMap.init 101).insert "é" (some 0) = none ∧
    (FiniteMap.empty.insert "é" (some 0)) "é" = some 0 :=
  ⟨FileMap.RoomyRun.init, by decide, rfl, by decide, by decide, by decide, by decide⟩

/-! ## The root of a file -/

theorem TreeNode.SameCore.chain {a b c : TreeNode} (h1 : TreeNode.SameCore a b)
    (h2 : TreeNode.SameCore b c) : TreeNode.SameCore a c :=
  ⟨h2.1.trans h1.1, h2.2.1.trans h1.2.1, h2.2.2.1.trans h1.2.2.1,
    h2.2.2.2.1.trans h1.2.2.2.1, h2.2.2.2.2.trans h1.2.2.2.2⟩

theorem File.lt_of_isSnapshot (f : File) (q : Nat) (hs : (f.node q).isSnapshot = true) :
    q < f.nodes.length := by
  by_contra hc
  have : f.node q = default := by
    unfold File.node
    exact List.getD_eq_default _ _ (by omega)
  rw [this] at hs
  cases hs

theorem File.node_updateTime (f : File) (a : Nat) (ha : f.active_version = some a)
    (hal : a < f.nodes.length) (t : Int) (q : Nat) :
    (f.updateTime t).node q =
      if q = a then { f.node a with created_timestamp := t } else f.node q := by
  unfold File.updateTime
  simp only [ha]
  rw [File.node_modifyNode]
  by_cases hq : q = a
  · subst hq
    simp [hal]
  · have hq2 : ¬ a = q := fun e => hq e.symm
    simp [hq, hq2]

theorem File.root_updateTime (f : File) (t : Int) : (f.updateTime t).root = f.root := by
  unfold File.updateTime
  split <;> rfl

/-- A snapshot is frozen: a call that returns leaves the id, the content, the
message, the snapshot time and the parent of every node that is a snapshot
as they are. An `insert` or `update` leaves its last-modified time as well, and
the other calls leave its child list. -/
theorem File.step_frozen {f g : File} (hi : f.Inv) (q : Nat)
    (hs : (f.node q).isSnapshot = true) (op : Op) (hg : f.step op = some g) :
    TreeNode.SameCore (f.node q) (g.node q) ∧ g.root = f.root ∧
    (op.isEdit = true → (g.node q).created_timestamp = (f.node q).created_timestamp) ∧
    (op.isEdit = false → (g.node q).children = (f.node q).children) := by
  have hq := File.lt_of_isSnapshot f q hs
  have hedit : ∀ (k : TreeNode → TreeNode) (tNew tUpd : Int) (g : File),
      (match f.active_version with
        | none => some (f, [Report.errNoActiveModify])
        | some a =>
          match (if (f.node a).isSnapshot then f.createNewVersion tNew else some f) with
          | none => none
          | some f1 =>
            match f1.active_version with
            | none => none
            | some a1 => some ((f1.modifyNode a1 k).updateTime tUpd, [])).map Prod.fst = some g →
      TreeNode.SameCore (f.node q) (g.node q) ∧ g.root = f.root ∧
      (g.node q).created_timestamp = (f.node q).created_timestamp := by
    intro k tNew tUpd g hg
    obtain ⟨a, ha, hal⟩ := hi.active
    simp only [ha] at hg
    by_cases hsa : (f.node a).isSnapshot = true
    · simp only [hsa, if_true] at hg
      by_cases hlt : f.nodes.length < 101
      · obtain ⟨g0, hg0, hinv0, hlen, hact, -, hroot, -, hold, hrest⟩ :=
          File.createNewVersion_spec hi a ha hlt tNew
        simp only [hg0, hact, Option.map_some', Option.some.injEq] at hg
        subst hg
        have hne : q ≠ f.nodes.length := by omega
        have hn := File.node_edit g0 f.nodes.length hact (by omega) k tUpd q
        simp only [hne, if_false] at hn
        have hq0 : g0.node q = { f.node q with children := (g0.node q).children } := by
          by_cases hqa : q = a
          · subst hqa
            rw [hold]
          · rw [hrest q hqa hne]
        rw [hn, hq0]
        exact ⟨⟨rfl, rfl, rfl, rfl, rfl⟩,
          ((File.edit_frame g0 f.nodes.length hact k tUpd).2.1).trans hroot, rfl⟩
      · have hfull : f.nodes.length = 101 := by have := hi.le_cap; omega
        rw [File.createNewVersion_full hi hfull] at hg
        cases hg
    · simp only [hsa, Bool.false_eq_true, if_false, ha, Option.map_some', Option.some.injEq] at hg
      subst hg
      have hqa : q ≠ a := by
        intro e
        subst e
        exact hsa hs
      have hn := File.node_edit f a ha hal k tUpd q
      simp only [hqa, if_false] at hn
      rw [hn]
      exact ⟨⟨rfl, rfl, rfl, rfl, rfl⟩, (File.edit_frame f a ha k tUpd).2.1, rfl⟩
  cases op with
  | insert c tNew tUpd =>
    obtain ⟨h1, h2, h3⟩ := hedit (fun n => { n with content := n.content ++ c }) tNew tUpd g hg
    exact ⟨h1, h2, fun _ => h3, fun h => by cases h⟩
  | update c tNew tUpd =>
    obtain ⟨h1, h2, h3⟩ := hedit (fun n => { n with content := c }) tNew tUpd g hg
    exact ⟨h1, h2, fun _ => h3, fun h => by cases h⟩
  | snapshot msg tSnap tUpd =>
    simp only [File.step, Option.some.injEq] at hg
    subst hg
    obtain ⟨a, ha, hal⟩ := hi.active
    have hnode : (f.snapshot msg tSnap tUpd).1.node q =
        { f.node q with created_timestamp := ((f.snapshot msg tSnap tUpd).1.node q).created_timestamp }
        ∧ (f.snapshot msg tSnap tUpd).1.root = f.root := by
      unfold File.snapshot
      simp only [ha]
      split
      · refine ⟨?_, File.root_updateTime f tUpd⟩
        rw [File.node_updateTime f a ha hal tUpd q]
        split
        · rename_i e
          rw [e]
        · rfl
      · rename_i hsa
        have hqa : q ≠ a := by
          intro e
          subst e
          exact hsa hs
        have hn := File.node_edit f a ha hal
          (fun n => { n with snapshot_timestamp := tSnap, message := msg }) tUpd q
        simp only [hqa, if_false] at hn
        refine ⟨?_, (File.edit_frame f a ha _ tUpd).2.1⟩
        rw [hn]
    obtain ⟨h1, h2⟩ := hnode
    refine ⟨?_, h2, (fun h => by cases h), fun _ => ?_⟩
    · rw [h1]
      exact ⟨rfl, rfl, rfl, rfl, rfl⟩
    · rw [h1]
  | rollback id =>
    simp only [File.step, Option.some.injEq] at hg
    subst hg
    unfold File.rollback
    split
    · exact ⟨⟨rfl, rfl, rfl, rfl, rfl⟩, rfl, fun _ => rfl, fun _ => rfl⟩
    · exact ⟨⟨rfl, rfl, rfl, rfl, rfl⟩, rfl, fun _ => rfl, fun _ => rfl⟩
  | rollbackToParent =>
    simp only [File.step, Option.some.injEq] at hg
    subst hg
    unfold File.rollbackToParent
    split
    · exact ⟨⟨rfl, rfl, rfl, rfl, rfl⟩, rfl, fun _ => rfl, fun _ => rfl⟩
    · split
      · exact ⟨⟨rfl, rfl, rfl, rfl, rfl⟩, rfl, fun _ => rfl, fun _ => rfl⟩
      · exact ⟨⟨rfl, rfl, rfl, rfl, rfl⟩, rfl, fun _ => rfl, fun _ => rfl⟩

/-- Along a sequence of calls that return, the root keeps its id, content,
message, snapshot time and parent, once it is a snapshot. -/
theorem File.run_root (ops : List Op) : ∀ (f g : File), f.Inv →
    (f.node 0).isSnapshot = true → f.run ops = some g →
    g.Inv ∧ TreeNode.SameCore (f.node 0) (g.node 0) := by
  induction ops with
  | nil =>
    intro f g hi _ hg
    cases hg
    exact ⟨hi, rfl, rfl, rfl, rfl, rfl⟩
  | cons op ops ih =>
    intro f g hi hs hg
    simp only [File.run] at hg
    cases h1 : f.step op with
    | none => rw [h1] at hg; cases hg
    | some f1 =>
      rw [h1] at hg
      obtain ⟨hc, -⟩ := File.step_frozen hi 0 hs op h1
      have hs1 : (f1.node 0).isSnapshot = true := by
        unfold TreeNode.isSnapshot at hs ⊢
        rw [hc.2.2.2.1]
        exact hs
      obtain ⟨hi2, hc2⟩ := ih f1 g (hi.step op h1) hs1 hg
      exact ⟨hi2, hc.chain hc2⟩

theorem File.created_inv (msg : String) (t1 t2 : Int) : (File.created msg t1 t2).Inv :=
  File.Inv.create msg t1 t2 _ (File.create_eq msg t1 t2)

theorem File.created_isSnapshot (msg : String) (t1 t2 : Int) (ht : t2 ≠ 0) :
    ((File.created msg t1 t2).node 0).isSnapshot = true := by
  show (t2 != 0) = true
  simpa using ht

/-- A call other than `insert` and `update` on a file that has only its
root, a snapshot, returns and changes at most the last-modified time of the
root. -/
theorem File.step_created (msg : String) (t t2 : Int) (ht : t2 ≠ 0) (op : Op)
    (hne : op.isEdit = false) :
    ∃ t3, (File.created msg t t2).step op = some (File.created msg t3 t2) := by
  cases op with
  | insert c tNew tUpd => cases hne
  | update c tNew tUpd => cases hne
  | snapshot m tSnap tUpd =>
    refine ⟨tUpd, ?_⟩
    have hs := File.created_isSnapshot msg t t2 ht
    have ha : (File.created msg t t2).active_version = some 0 := rfl
    simp only [File.step, File.snapshot, ha, hs, if_true]
    rfl
  | rollback id =>
    refine ⟨t, ?_⟩
    simp only [File.step, File.rollback]
    cases hg : (File.created msg t t2).version_map.get id with
    | none => rfl
    | some target =>
      have hlt := ((File.created_inv msg t t2).get_some id target hg).1
      have h0 : target = 0 := by
        have : (File.created msg t t2).nodes.length = 1 := rfl
        omega
      subst h0
      rfl
  | rollbackToParent =>
    exact ⟨t, rfl⟩

theorem File.run_created (msg : String) (t2 : Int) (ht : t2 ≠ 0) (pre : List Op) :
    ∀ t, (∀ op ∈ pre, op.isEdit = false) →
    ∃ t3, (File.created msg t t2).run pre = some (File.created msg t3 t2) := by
  induction pre with
  | nil => intro t _; exact ⟨t, rfl⟩
  | cons op pre ih =>
    intro t hpre
    obtain ⟨t', h1⟩ := File.step_created msg t t2 ht op (hpre op (List.mem_cons_self _ _))
    obtain ⟨t3, h2⟩ := ih t' (fun o ho => hpre o (List.mem_cons_of_mem _ ho))
    refine ⟨t3, ?_⟩
    simp only [File.run, h1, Option.some_bind]
    exact h2

/-- An edit of a file that has only its root, a snapshot: it branches to node
1, which receives the content. -/
theorem File.edit_created (msg : String) (t t2 : Int) (ht : t2 ≠ 0) (c : String)
    (tNew tUpd : Int) :
    (∃ g, (File.created msg t t2).insert c tNew tUpd = some (g, []) ∧ File.FirstBranch g c) ∧
    (∃ g, (File.created msg t t2).update c tNew tUpd = some (g, []) ∧ File.FirstBranch g c) := by
  have hi := File.created_inv msg t t2
  have hs := File.created_isSnapshot msg t t2 ht
  have ha : (File.created msg t t2).active_version = some 0 := rfl
  have hlen : (File.created msg t t2).nodes.length = 1 := rfl
  have htot : (File.created msg t t2).total_versions = 1 := rfl
  obtain ⟨g0, hg0, -, hlen0, hact0, htot0, -, hnew, hold, -⟩ :=
    File.createNewVersion_spec hi 0 ha (by rw [hlen]; omega) tNew
  rw [hlen] at hlen0 hact0 hnew hold
  rw [htot] at htot0 hnew
  have hbranch : ∀ k : TreeNode → TreeNode,
      (∀ n, (k n).version_id = n.version_id) → (∀ n, (k n).parent = n.parent) →
      (k (TreeNode.ofParent 1 (some 0) tNew)).content = c →
      File.FirstBranch ((g0.modifyNode 1 k).updateTime tUpd) c := by
    intro k hk1 hk2 hk3
    have hn := File.node_edit g0 1 hact0 (by omega) k tUpd
    obtain ⟨e1, -, e3, e4, -⟩ := File.edit_frame g0 1 hact0 k tUpd
    have hn1 := hn 1
    have hn0 := hn 0
    simp only [if_true] at hn1
    simp only [Nat.zero_ne_one, if_false] at hn0
    refine ⟨by omega, by omega, e3.trans hact0, ?_, ?_, ?_, ?_, ?_⟩
    · rw [hn1]
      show (k (g0.node 1)).version_id = 1
      rw [hk1, hnew]
      rfl
    · rw [hn1]
      show (k (g0.node 1)).parent = some 0
      rw [hk2, hnew]
      rfl
    · rw [hn1]
      show (k (g0.node 1)).content = c
      rw [hnew]
      exact hk3
    · rw [hn0, hold]
      rfl
    · rw [hn0, hold]
      rfl
  refine ⟨⟨_, ?_, hbranch (fun n => { n with content := n.content ++ c }) (fun _ => rfl)
      (fun _ => rfl) ?_⟩,
    ⟨_, ?_, hbranch (fun n => { n with content := c }) (fun _ => rfl) (fun _ => rfl) rfl⟩⟩
  · unfold File.insert
    simp only [ha, hs, if_true, hg0, hact0]
  · show ("" : String) ++ c = c
    exact String.empty_append c
  · unfold File.update
    simp only [ha, hs, if_true, hg0, hact0]

/-- C21: when the clock does not read 0 at the creation, in every file state
reached from the constructor by calls of `insert`, `update`, `snapshot`,
`rollback` and `rollbackToParent`, the root is node 0, has the id 0, is a
snapshot, has empty content and the message given at the creation
("File created." for every file of `create`), and has no parent. No call
writes the content or the message of the root: every call leaves the id, the
content, the message, the snapshot time and the parent of the root as they
are; `insert` and `update` leave its last-modified time as well, and the
other calls leave its child list. `rollback(0)` makes the root the active
version, and `read` then prints the empty string. When no `insert` or
`update` has been called yet, the file has one node, and `insert` and
`update` return and branch to node 1, with id 1, which receives the content.
Every such sequence of calls returns. -/
theorem C21_root_is_frozen_snapshot (msg : String) (t1 t2 : Int) (ht : t2 ≠ 0)
    (ops : List Op) (f : File)
    (hrun : (File.create msg t1 t2).bind (fun f0 => f0.run ops) = some f) :
    (f.root = 0 ∧ (f.node f.root).version_id = 0 ∧ (f.node f.root).isSnapshot = true ∧
      (f.node f.root).content = "" ∧ (f.node f.root).message = msg ∧
      (f.node f.root).snapshot_timestamp = t2 ∧ (f.node f.root).parent = none) ∧
    (∀ op g, f.step op = some g →
      g.root = f.root ∧ TreeNode.SameCore (f.node f.root) (g.node g.root) ∧
      (op.isEdit = true →
        (g.node g.root).created_timestamp = (f.node f.root).created_timestamp) ∧
      (op.isEdit = false → (g.node g.root).children = (f.node f.root).children)) ∧
    (f.rollback 0 = ({ f with active_version := some f.root }, [.rolledBack 0]) ∧
      (f.rollback 0).1.read = [.contentOf 0 ""]) ∧
    ((∀ op ∈ ops, op.isEdit = false) →
      f.nodes.length = 1 ∧ f.active_version = some f.root ∧
      ∀ c tNew tUpd,
        (∃ g, f.insert c tNew tUpd = some (g, []) ∧ File.FirstBranch g c) ∧
        (∃ g, f.update c tNew tUpd = some (g, []) ∧ File.FirstBranch g c)) ∧
    (∀ pre : List Op, (∀ op ∈ pre, op.isEdit = false) →
      ∃ f1, (File.create msg t1 t2).bind (fun f0 => f0.run pre) = some f1) := by
  rw [File.create_eq, Option.some_bind] at hrun
  have hi0 := File.created_inv msg t1 t2
  have hs0 := File.created_isSnapshot msg t1 t2 ht
  obtain ⟨hi, hc⟩ := File.run_root ops _ f hi0 hs0 hrun
  have hroot : f.root = 0 := hi.root_eq
  have hid : (f.node 0).version_id = 0 := hc.1
  have hcontent : (f.node 0).content = "" := hc.2.1
  have hsnap : (f.node 0).snapshot_timestamp = t2 := hc.2.2.2.1
  have hs : (f.node 0).isSnapshot = true := by
    unfold TreeNode.isSnapshot
    rw [hsnap]
    simpa using ht
  refine ⟨?_, ?_, ?_, ?_, ?_⟩
  · rw [hroot]
    exact ⟨rfl, hid, hs, hcontent, hc.2.2.1, hsnap, hc.2.2.2.2⟩
  · intro op g hg
    obtain ⟨h1, h2, h3, h4⟩ := File.step_frozen hi 0 hs op hg
    rw [h2, hroot]
    exact ⟨rfl, h1, h3, h4⟩
  · have hget : f.version_map.get 0 = some 0 := hi.get_of_lt 0 hi.pos
    have hrb : f.rollback 0 = ({ f with active_version := some f.root }, [.rolledBack 0]) := by
      unfold File.rollback
      rw [hget, hroot]
    refine ⟨hrb, ?_⟩
    rw [hrb, hroot]
    show [Report.contentOf (f.node 0).version_id (f.node 0).content] = _
    rw [hid, hcontent]
  · intro hno
    obtain ⟨t3, h3⟩ := File.run_created msg t2 ht ops t1 hno
    rw [h3] at hrun
    cases hrun
    exact ⟨rfl, rfl, fun c tNew tUpd => File.edit_created msg t3 t2 ht c tNew tUpd⟩
  · intro pre hpre
    obtain ⟨t3, h3⟩ := File.run_created msg t2 ht pre t1 hpre
    exact ⟨_, by rw [File.create_eq, Option.some_bind]; exact h3⟩

set_option maxRecDepth 100000 in
/-- The check of C21 on the branched file `File.exampleTip`, reached by eight
calls, three of them edits, and, for the first edit, on the file after the
constructor and one `snapshot` call. -/
theorem C21_root_is_frozen_snapshot_witness :
    (1 : Int) ≠ 0 ∧
    (File.create "File created." 1 1).bind
      (fun f0 => f0.run (Op.branchOps ++ [.insert "d" 14 15])) = some File.exampleTip ∧
    (File.exampleTip.nodes.length = 5 ∧ File.exampleTip.active_version = some 4) ∧
    ((File.exampleTip.node File.exampleTip.root).isSnapshot = true ∧
      (File.exampleTip.node File.exampleTip.root).content = "" ∧
      (File.exampleTip.node File.exampleTip.root).message = "File created.") ∧
    (File.exampleTip.rollback 0).1.read = [.contentOf 0 ""] ∧
    (File.create "File created." 1 1).bind (fun f0 => f0.run [.snapshot "again" 7 9]) =
      some (File.created "File created." 9 1) ∧
    (∃ g, (File.created "File created." 9 1).insert "x" 2 3 = some (g, []) ∧
      File.FirstBranch g "x") ∧
    (∃ g, (File.created "File created." 9 1).update "y" 2 3 = some (g, []) ∧
      File.FirstBranch g "y") :=
  have h := C21_root_is_frozen_snapshot "File created." 1 1 (by decide)
    (Op.branchOps ++ [.insert "d" 14 15]) File.exampleTip (by decide)
  have h1 := C21_root_is_frozen_snapshot "File created." 1 1 (by decide)
    [.snapshot "again" 7 9] (File.created "File created." 9 1) (by decide)
  ⟨by decide, by decide, ⟨by decide, by decide⟩, ⟨h.1.2.2.1, h.1.2.2.2.1, h.1.2.2.2.2.1⟩,
    h.2.2.1.2, by decide, ((h1.2.2.2.1 (by decide)).2.2 "x" 2 3).1,
    ((h1.2.2.2.1 (by decide)).2.2 "y" 2 3).2⟩

end TTFS
